import Mathlib

/-!
# Parallel-Patterns-OpenCL: the host-side reduction driver and histogram builder

A shallow embedding of `ParallelAssessment1/Functions.h` and of the bin-count prompt of
`ParallelAssessment1/main.cpp`.

* Samples are `float` in the source.  Here a finite sample is a rational number; `mytype`
  adds the two infinities that the host code writes as padding.  Taking a maximum or a
  minimum rounds nothing.
* The bin arithmetic of `parallelHistogram` and of the histogram kernel is 32-bit float:
  every operation is the exact operation followed by the rounding `f32` (round to nearest,
  ties to even), and a NaN is `none`.  The same body under the rounding `exact` serves the
  statements that are about exact arithmetic.
* `parallelMean` and `normalMean` add and divide in exact arithmetic; the statements about
  the mean are statements about exact arithmetic.
* The host vector `A` and the device buffer `buffer_A` are one working vector: every host
  write in the source is bracketed by a read of the whole buffer and a write of the whole
  vector, so the two never differ when either is used.
* An address such as `&A[0]` handed to a transfer is not an access; only a read or a write
  of an element outside its vector is a fault.
* A run either produces a value or stops with a `Fault`.  Device failures (allocation,
  transfer, launch) are outside the model: a dispatch always succeeds.
* The three `while` loops of the drivers can spin forever, so they take a fuel argument.
* The OpenCL kernels (`my_kernels.cl`) are not part of the sources at hand; they are modelled
  from the specification.
-/

namespace ParallelPatterns

/-! ## Outcomes -/

/-- Why a run of the host code stopped without a value. -/
inductive Halt where
  /-- a read or a write outside a vector -/
  | outOfBounds
  /-- an integer remainder by zero, or a division by zero in exact arithmetic -/
  | divByZero
  /-- a loop was still running when the fuel ran out -/
  | outOfFuel
  /-- a vector was requested with a negative length -/
  | badAlloc
  deriving DecidableEq

/-- A stop, together with the global sizes of the kernels enqueued before it. -/
structure Fault where
  why : Halt
  log : List Nat
  deriving DecidableEq

/-- A finished run: the returned value and the global sizes of the kernels it enqueued,
oldest first. -/
structure Done (α : Type) where
  value : α
  log : List Nat
  deriving DecidableEq

/-! ## Sample values -/

/-- The element type `typedef float mytype`, restricted to the values the reductions meet:
finite numbers and the two infinities. -/
inductive mytype where
  | ninf
  | fin (q : ℚ)
  | pinf
  deriving DecidableEq

/-- The order of `float` on `mytype`: `-INFINITY` below and `INFINITY` above every finite
value. -/
def mytype.le : mytype → mytype → Bool
  | .ninf, _ => true
  | _, .pinf => true
  | .fin a, .fin b => decide (a ≤ b)
  | _, _ => false

/-- The larger of two values. -/
def fmax (a b : mytype) : mytype := if a.le b then b else a

/-- The smaller of two values. -/
def fmin (a b : mytype) : mytype := if a.le b then a else b

/-! ## The device: kernels and dispatch -/

/-- Modelled from the spec: kernel `reduce_add_6` of `my_kernels.cl` (not among the sources),
as what one work-group computes from its block: the sum of the block. -/
def reduce_add_6 (block : List ℚ) : ℚ := block.foldl (· + ·) 0

/-- Modelled from the spec: kernel `reduce_max` of `my_kernels.cl` (not among the sources),
as what one work-group computes from its block: the largest value of the block. -/
def reduce_max (block : List mytype) : mytype := block.foldl fmax mytype.ninf

/-- Modelled from the spec: kernel `reduce_min` of `my_kernels.cl` (not among the sources),
as what one work-group computes from its block: the smallest value of the block. -/
def reduce_min (block : List mytype) : mytype := block.foldl fmin mytype.pinf

/-- The first `g` consecutive blocks of `W` elements of a buffer. -/
def blocks {α : Type} (W : Nat) : Nat → List α → List (List α)
  | 0, _ => []
  | g + 1, buf => buf.take W :: blocks W g (buf.drop W)

/-- Modelled from the spec: `enqueueNDRangeKernel(kernel, NullRange, NDRange(n), NDRange(W))`
for an in-place reduction kernel.  Work-group `g` (of `n / W`) reduces the block
`[g*W, (g+1)*W)` and leaves the result at index `g`; the rest of the buffer is untouched. -/
def dispatch {α : Type} (kernel : List α → α) (W n : Nat) (buf : List α) : List α :=
  (blocks W (n / W) buf).map kernel ++ buf.drop (n / W)

/-! ## Host-side fill loops -/

/-- The body `*i = v; i++` run `k` times from index `i`; a write past the end of the vector
is a fault. -/
def fillLoop {α : Type} (v : α) : Nat → Nat → List α → Except Halt (List α)
  | 0, _, A => .ok A
  | k + 1, i, A =>
    if i < A.length then fillLoop v k (i + 1) (A.set i v) else .error Halt.outOfBounds

/-- The loop `for (i = A.begin() + lo; i < A.begin() + hi; i++) *i = v;` of `parallelMean`:
`hi - lo` writes, none when `hi <= lo`. -/
def fillLt {α : Type} (v : α) (lo hi : Nat) (A : List α) : Except Halt (List α) :=
  fillLoop v (hi - lo) lo A

/-- The loop `for (i = A.begin() + lo; i != A.begin() + hi; i++) *i = v;` of `parallelMax`
and `parallelMin`: `hi - lo` writes when `lo <= hi`; when `lo > hi` the iterator never meets
the bound and leaves the vector. -/
def fillNe {α : Type} (v : α) (lo hi : Nat) (A : List α) : Except Halt (List α) :=
  if lo ≤ hi then fillLoop v (hi - lo) lo A else .error Halt.outOfBounds

/-! ## The reduction driver -/

/-- The variables the shrink loop updates: the working vector, `input_elements`, and the
global sizes enqueued so far. -/
structure Red (α : Type) where
  A : List α
  input_elements : Nat
  log : List Nat

/-- The loop `while (input_elements / local_size > local_size) { ... }` shared, up to the
kernel, the neutral element and the fill loop, by `parallelMean` (lines 66-89),
`parallelMax` (153-177) and `parallelMin` (239-263). -/
def shrinkLoop {α : Type} (kernel : List α → α)
    (fill : Nat → Nat → List α → Except Halt (List α)) (local_size : Nat) :
    Nat → Red α → Except Fault (Red α)
  | 0, s =>
    if s.input_elements / local_size > local_size then .error ⟨Halt.outOfFuel, s.log⟩
    else .ok s
  | fuel + 1, s =>
    if s.input_elements / local_size > local_size then
      let input_elements := s.input_elements / local_size
      let padding_size2 := input_elements % local_size
      if padding_size2 ≠ 0 then
        let neededElements := local_size - padding_size2
        match fill input_elements (input_elements + neededElements) s.A with
        | .error h => .error ⟨h, s.log⟩
        | .ok A1 =>
          let input_elements := input_elements + neededElements
          shrinkLoop kernel fill local_size fuel
            ⟨dispatch kernel local_size input_elements A1, input_elements,
              s.log ++ [input_elements]⟩
      else
        shrinkLoop kernel fill local_size fuel
          ⟨dispatch kernel local_size input_elements s.A, input_elements,
            s.log ++ [input_elements]⟩
    else .ok s

/-- The final pass (lines 92-103, 180-190, 266-276): fill `[input_elements / local_size,
local_size)` with the neutral element, dispatch one work-group, read `B[0]`. -/
def finalPass {α : Type} (kernel : List α → α)
    (fill : Nat → Nat → List α → Except Halt (List α)) (local_size : Nat) (s : Red α) :
    Except Fault (Done α) :=
  let start := s.input_elements / local_size
  match fill start local_size s.A with
  | .error h => .error ⟨h, s.log⟩
  | .ok A1 =>
    let input_elements := local_size
    let B := dispatch kernel local_size input_elements A1
    match B.head? with
    | none => .error ⟨Halt.outOfBounds, s.log ++ [input_elements]⟩
    | some b => .ok ⟨b, s.log ++ [input_elements]⟩

/-- The common body of the three drivers after the neutral element is chosen: pad to a
multiple of `local_size`, first dispatch over the whole vector, shrink loop, final pass. -/
def reduceDriver {α : Type} (kernel : List α → α) (neutral : α)
    (fill : α → Nat → Nat → List α → Except Halt (List α)) (fuel local_size : Nat)
    (A : List α) : Except Fault (Done α) :=
  if local_size = 0 then .error ⟨Halt.divByZero, []⟩ else
  let padding_size := A.length % local_size
  let A := if padding_size ≠ 0 then A ++ List.replicate (local_size - padding_size) neutral
    else A
  let input_elements := A.length
  match shrinkLoop kernel (fill neutral) local_size fuel
      ⟨dispatch kernel local_size A.length A, input_elements, [A.length]⟩ with
  | .error f => .error f
  | .ok s => finalPass kernel (fill neutral) local_size s

/-- `float parallelMax(context, program, queue, vector<mytype> A)`: kernel `reduce_max`,
neutral element `-INFINITY`, `!=` fill loops. -/
def parallelMax (fuel local_size : Nat) (A : List ℚ) : Except Fault (Done mytype) :=
  reduceDriver reduce_max mytype.ninf fillNe fuel local_size (A.map mytype.fin)

/-- `float parallelMin(context, program, queue, vector<mytype> A)`: kernel `reduce_min`,
neutral element `INFINITY`, `!=` fill loops. -/
def parallelMin (fuel local_size : Nat) (A : List ℚ) : Except Fault (Done mytype) :=
  reduceDriver reduce_min mytype.pinf fillNe fuel local_size (A.map mytype.fin)

/-- `double parallelMean(context, program, queue, vector<mytype> A)`: kernel `reduce_add_6`,
neutral element `0`, `<` fill loops, and the reduced sum divided by the length saved before
padding. -/
def parallelMean (fuel local_size : Nat) (A : List ℚ) : Except Fault (Done ℚ) :=
  let start_nr_elements := A.length
  match reduceDriver reduce_add_6 0 fillLt fuel local_size A with
  | .error f => .error f
  | .ok d =>
    if start_nr_elements = 0 then .error ⟨Halt.divByZero, d.log⟩
    else .ok ⟨d.value / start_nr_elements, d.log⟩

/-- `double normalMean(..., vector<mytype> A)`: the sequential check, `sum += A[i]` over the
vector and then `sum / A.size()`. -/
def normalMean (A : List ℚ) : Except Halt ℚ :=
  let sum := A.foldl (fun sum x => sum + x) 0
  if A.length = 0 then .error Halt.divByZero else .ok (sum / A.length)

/-! ## 32-bit float arithmetic

The host code of `parallelHistogram` and the histogram kernel compute in `float`.  A float
value is `none` for a NaN and otherwise a `mytype`; the zero that arises in the bin
arithmetic is always `+0`, so signed zeros are not told apart.  Every operation is the exact
operation on the rationals followed by a rounding `rnd`: `f32` for the code as written, and
`exact` for statements about exact arithmetic. -/

/-- Round to the nearest integer, a tie to the even one. -/
def roundEven (x : ℚ) : Int :=
  if x - ⌊x⌋ < 1 / 2 then ⌊x⌋
  else if 1 / 2 < x - ⌊x⌋ then ⌊x⌋ + 1
  else if ⌊x⌋ % 2 = 0 then ⌊x⌋ else ⌊x⌋ + 1

/-- The rounding of an exact result to `float` (IEEE 754 binary32, round to nearest, ties to
even): 24 significant bits, gradual underflow below `2^-126`, an infinity once the rounded
magnitude reaches `2^128`. -/
def f32 (q : ℚ) : mytype :=
  if q = 0 then mytype.fin 0
  else if (2 : ℚ) ^ (128 : Int)
      ≤ |(roundEven (q / (2 : ℚ) ^ (max (Int.log 2 |q|) (-126) - 23)) : ℚ)
          * (2 : ℚ) ^ (max (Int.log 2 |q|) (-126) - 23)| then
    (if 0 < q then mytype.pinf else mytype.ninf)
  else
    mytype.fin ((roundEven (q / (2 : ℚ) ^ (max (Int.log 2 |q|) (-126) - 23)) : ℚ)
      * (2 : ℚ) ^ (max (Int.log 2 |q|) (-126) - 23))

/-- Exact arithmetic: a result is not rounded. -/
def exact (q : ℚ) : mytype := mytype.fin q

/-- `floor` of a float, which is exact. -/
def ffloor : Option mytype → Option mytype
  | some (mytype.fin q) => some (mytype.fin ⌊q⌋)
  | v => v

/-- `ceil` of a float, which is exact. -/
def fceil : Option mytype → Option mytype
  | some (mytype.fin q) => some (mytype.fin ⌈q⌉)
  | v => v

/-- Float addition under the rounding `rnd`. -/
def fadd (rnd : ℚ → mytype) : Option mytype → Option mytype → Option mytype
  | some (mytype.fin x), some (mytype.fin y) => some (rnd (x + y))
  | some mytype.pinf, some mytype.ninf => none
  | some mytype.ninf, some mytype.pinf => none
  | some mytype.pinf, some _ => some mytype.pinf
  | some _, some mytype.pinf => some mytype.pinf
  | some mytype.ninf, some _ => some mytype.ninf
  | some _, some mytype.ninf => some mytype.ninf
  | _, _ => none

/-- Float subtraction under the rounding `rnd`. -/
def fsub (rnd : ℚ → mytype) : Option mytype → Option mytype → Option mytype
  | some (mytype.fin x), some (mytype.fin y) => some (rnd (x - y))
  | some mytype.pinf, some mytype.pinf => none
  | some mytype.ninf, some mytype.ninf => none
  | some mytype.pinf, some _ => some mytype.pinf
  | some _, some mytype.ninf => some mytype.pinf
  | some mytype.ninf, some _ => some mytype.ninf
  | some _, some mytype.pinf => some mytype.ninf
  | _, _ => none

/-- Float division under the rounding `rnd`: a non-zero value over zero is an infinity, zero
over zero and an infinity over an infinity are NaN, a finite value over an infinity is 0. -/
def fdiv (rnd : ℚ → mytype) : Option mytype → Option mytype → Option mytype
  | some (mytype.fin x), some (mytype.fin y) =>
    if y = 0 then
      if x = 0 then none else if 0 < x then some mytype.pinf else some mytype.ninf
    else some (rnd (x / y))
  | some (mytype.fin _), some _ => some (mytype.fin 0)
  | some mytype.pinf, some (mytype.fin y) =>
    if 0 ≤ y then some mytype.pinf else some mytype.ninf
  | some mytype.ninf, some (mytype.fin y) =>
    if 0 ≤ y then some mytype.ninf else some mytype.pinf
  | _, _ => none

/-! ## The histogram builder -/

/-- What `parallelHistogram` shows: the bin boundary parameters, as the floats the host
computes, and the bin counts `H`. -/
structure Histogram where
  min : Option mytype
  max : Option mytype
  bin_width : Option mytype
  H : List Nat

/-- Modelled from the spec: the bin index a work-item of `hist_atomic` computes for its
sample, `floor((sample - min) / bin_width)` in float, the subtraction and the division each
rounded to nearest; a quotient that is not a finite number has no index. -/
def hist_index (rnd : ℚ → mytype) (bin_width min x : Option mytype) : Option Int :=
  match fdiv rnd (fsub rnd x min) bin_width with
  | some (mytype.fin q) => some ⌊q⌋
  | _ => none

/-- The increment `H[i]++`, for an index inside the bin array. -/
def bump : Nat → List Nat → List Nat
  | _, [] => []
  | 0, h :: t => (h + 1) :: t
  | i + 1, h :: t => h :: bump i t

/-- Modelled from the spec: one work-item of kernel `hist_atomic` of `my_kernels.cl` (not
among the sources): it increments the counter of its sample's bin, only when the index lies
in `[0, nr_bins)`. -/
def hist_item (rnd : ℚ → mytype) (nr_bins : Int) (bin_width min : Option mytype)
    (H : List Nat) (x : Option mytype) : List Nat :=
  match hist_index rnd bin_width min x with
  | some index => if 0 ≤ index ∧ index < nr_bins then bump index.toNat H else H
  | none => H

/-- Modelled from the spec: a dispatch of `hist_atomic` over the whole (padded) sample
vector.  The increments are atomic, so the order of the work-items does not matter. -/
def hist_atomic (rnd : ℚ → mytype) (nr_bins : Int) (bin_width min : Option mytype)
    (A : List (Option mytype)) (H : List Nat) : List Nat :=
  A.foldl (hist_item rnd nr_bins bin_width min) H

/-- The body of `parallelHistogram` (lines 282-339) under the rounding `rnd` of its float
operations, returning what it prints.  `Wmin`, `Wmax` and `local_size` are the work-group
sizes of `reduce_min`, `reduce_max` and `hist_atomic`.  `range / nr_bins` converts `nr_bins`
to float; with `nr_bins = 0` the quotient is an infinity or a NaN and the run goes on with an
empty bin array.  `vector<int> H(nr_bins)` with a negative `nr_bins` cannot be allocated. -/
def parallelHistogramWith (rnd : ℚ → mytype) (fuel Wmin Wmax local_size : Nat) (A : List ℚ)
    (nr_bins : Int) : Except Fault Histogram :=
  match parallelMin fuel Wmin A with
  | .error f => .error f
  | .ok dmin =>
    match parallelMax fuel Wmax A with
    | .error f => .error f
    | .ok dmax =>
      let min := ffloor (some dmin.value)
      let max := fadd rnd (fceil (some dmax.value)) (some (mytype.fin 1))
      let range := fsub rnd max min
      let bin_width := fdiv rnd range (some (rnd nr_bins))
      if local_size = 0 then .error ⟨Halt.divByZero, dmin.log ++ dmax.log⟩ else
      let padding_size := A.length % local_size
      let A := if padding_size ≠ 0 then
          A.map (fun x => some (mytype.fin x))
            ++ List.replicate (local_size - padding_size) (fadd rnd max (some (mytype.fin 1)))
        else A.map (fun x => some (mytype.fin x))
      if nr_bins < 0 then .error ⟨Halt.badAlloc, dmin.log ++ dmax.log⟩ else
      let H := List.replicate nr_bins.toNat 0
      .ok ⟨min, max, bin_width, hist_atomic rnd nr_bins bin_width min A H⟩

/-- `void parallelHistogram(context, program, queue, vector<mytype> A, int & nr_bins)`: the
body above in 32-bit float. -/
def parallelHistogram (fuel Wmin Wmax local_size : Nat) (A : List ℚ) (nr_bins : Int) :
    Except Fault Histogram :=
  parallelHistogramWith f32 fuel Wmin Wmax local_size A nr_bins

/-! ## The bin arithmetic without rounding

The forms the bin index, a work-item and a dispatch take over the rationals when nothing is
rounded; the proofs about exact arithmetic go through them. -/

/-- The bin index in exact arithmetic, `floor((x - min) / bin_width)`. -/
def binIndex (bin_width min x : ℚ) : Int := ⌊(x - min) / bin_width⌋

/-- One work-item in exact arithmetic. -/
def binItem (nr_bins : Int) (bin_width min : ℚ) (H : List Nat) (x : ℚ) : List Nat :=
  let index := binIndex bin_width min x
  if 0 ≤ index ∧ index < nr_bins then bump index.toNat H else H

/-- A dispatch over the sample vector in exact arithmetic. -/
def binFold (nr_bins : Int) (bin_width min : ℚ) (A : List ℚ) (H : List Nat) : List Nat :=
  A.foldl (binItem nr_bins bin_width min) H

/-! ## The bin-count prompt of `main` -/

/-- What one `cin >> binsChosen` leaves behind: the value of `binsChosen` and the stream's
`fail()` flag. -/
structure Read where
  binsChosen : Int
  fail : Bool

/-- One round of the prompt loop (main.cpp, lines 188-197): the value of `hasBins` after
it. -/
def binsStep (r : Read) : Bool :=
  if decide (r.binsChosen < 1) || r.fail then false else true

/-- The loop `while (!hasBins) { ... cin >> binsChosen; ... }` over the reads it makes: the
accepted bin count, `none` while no read has been accepted. -/
def promptBins : List Read → Option Int
  | [] => none
  | r :: rest => if binsStep r then some r.binsChosen else promptBins rest

/-- The histogram branch of `main` (lines 178-202): prompt for the bin count, then call
`parallelHistogram` on the data set with the accepted count. -/
def mainHistogram (reads : List Read) (fuel Wmin Wmax local_size : Nat) (A : List ℚ) :
    Option (Except Fault Histogram) :=
  match promptBins reads with
  | none => none
  | some binsChosen => some (parallelHistogram fuel Wmin Wmax local_size A binsChosen)

/-! ## Predicates used in the proofs -/

/-- A kernel that folds an associative operation with a two-sided identity over its block. -/
structure IsReduction {α : Type} (kernel : List α → α) (op : α → α → α) (e : α) : Prop where
  nil : kernel [] = e
  cons : ∀ x xs, kernel (x :: xs) = op x (kernel xs)
  assoc : ∀ a b c, op (op a b) c = op a (op b c)
  left_id : ∀ a, op e a = a
  right_id : ∀ a, op a e = a

/-- What every round of the shrink loop keeps true of its state: the working vector keeps
its padded length `L`, `input_elements` is a positive multiple of `W` inside the vector, the
first `input_elements / W` slots still reduce to `r`, and every global size enqueued so far is
a positive multiple of `W` inside the vector. -/
structure Inv {α : Type} (kernel : List α → α) (W L : Nat) (r : α) (s : Red α) : Prop where
  len : s.A.length = L
  dvd : W ∣ s.input_elements
  le : s.input_elements ≤ L
  pos : W ≤ s.input_elements
  val : kernel (s.A.take (s.input_elements / W)) = r
  logok : ∀ n ∈ s.log, 0 < n ∧ W ∣ n ∧ n ≤ L

/-- A fill loop that behaves as `fillLoop` whenever its bounds are in order. -/
def FillsWith {α : Type} (fill : Nat → Nat → List α → Except Halt (List α)) (e : α) : Prop :=
  ∀ lo hi A, lo ≤ hi → fill lo hi A = fillLoop e (hi - lo) lo A

/-- The length of the working vector once it is padded to a multiple of `W`. -/
def paddedLength (W N : Nat) : Nat := if N % W ≠ 0 then N + (W - N % W) else N

/-- The sample vector as `parallelHistogram` pads it for a work-group size `W`. -/
def histPadded (W : Nat) (pad : ℚ) (A : List ℚ) : List ℚ :=
  if A.length % W ≠ 0 then A ++ List.replicate (W - A.length % W) pad else A

/-- The global sizes a run has enqueued, whether it returned a value or stopped. -/
def dispatched {α : Type} : Except Fault (Done α) → List Nat
  | .ok d => d.log
  | .error f => f.log

/-- What every round of the shrink loop keeps true of the sizes alone, for any work-group
size: `input_elements` is a positive multiple of `W` of at most `L`, the first global size
enqueued is `L`, and every global size enqueued is a positive multiple of `W` of at most
`L`. -/
structure SizeInv {α : Type} (W L : Nat) (s : Red α) : Prop where
  dvd : W ∣ s.input_elements
  le : s.input_elements ≤ L
  pos : W ≤ s.input_elements
  head : s.log.head? = some L
  logok : ∀ n ∈ s.log, 0 < n ∧ W ∣ n ∧ n ≤ L

/-- A fill loop under guard: it runs `fill` only on a range `[lo, hi)` with
`1 <= lo <= hi <= L` of a vector of length `L`, and stops with a fault on any other call.  A
run that returns the same value with the guard as without it has made no call outside these
bounds. -/
def fillWithin {α : Type} (L : Nat) (fill : Nat → Nat → List α → Except Halt (List α))
    (lo hi : Nat) (A : List α) : Except Halt (List α) :=
  if 1 ≤ lo ∧ lo ≤ hi ∧ hi ≤ L ∧ A.length = L then fill lo hi A
  else .error Halt.outOfBounds

/-- A fill loop that behaves as `fillLoop` on every range `[lo, hi)` with
`1 <= lo <= hi <= L` of a vector of length `L`. -/
def FillsWithin {α : Type} (L : Nat) (fill : Nat → Nat → List α → Except Halt (List α))
    (e : α) : Prop :=
  ∀ lo hi A, 1 ≤ lo → lo ≤ hi → hi ≤ L → A.length = L →
    fill lo hi A = fillLoop e (hi - lo) lo A

/-! ## Facts about the device model -/

theorem foldl_isReduction {α : Type} (op : α → α → α) (e : α)
    (assoc : ∀ a b c, op (op a b) c = op a (op b c))
    (left_id : ∀ a, op e a = a) (right_id : ∀ a, op a e = a) :
    IsReduction (fun block => block.foldl op e) op e := by
  have key : ∀ (xs : List α) (a : α), xs.foldl op a = op a (xs.foldl op e) := by
    intro xs
    induction xs with
    | nil => intro a; simp [right_id]
    | cons x xs ih =>
      intro a
      simp only [List.foldl_cons]
      rw [ih (op a x), ih (op e x), left_id, assoc]
  refine ⟨rfl, ?_, assoc, left_id, right_id⟩
  intro x xs
  show xs.foldl op (op e x) = op x (xs.foldl op e)
  rw [left_id, key]

theorem IsReduction.append {α : Type} {kernel : List α → α} {op : α → α → α} {e : α}
    (h : IsReduction kernel op e) (xs ys : List α) :
    kernel (xs ++ ys) = op (kernel xs) (kernel ys) := by
  induction xs with
  | nil => simp [h.nil, h.left_id]
  | cons x xs ih => simp [h.cons, ih, h.assoc]

theorem IsReduction.replicate {α : Type} {kernel : List α → α} {op : α → α → α} {e : α}
    (h : IsReduction kernel op e) (k : Nat) : kernel (List.replicate k e) = e := by
  induction k with
  | zero => simp [h.nil]
  | succ k ih => simp [List.replicate_succ, h.cons, ih, h.left_id]

/-- Padding with the neutral element does not change what the kernel computes. -/
theorem IsReduction.pad {α : Type} {kernel : List α → α} {op : α → α → α} {e : α}
    (h : IsReduction kernel op e) (xs : List α) (k : Nat) :
    kernel (xs ++ List.replicate k e) = kernel xs := by
  rw [h.append, h.replicate, h.right_id]

/-- Reducing the per-block results is reducing the blocks' elements. -/
theorem IsReduction.blocks {α : Type} {kernel : List α → α} {op : α → α → α} {e : α}
    (h : IsReduction kernel op e) (W g : Nat) (buf : List α) :
    kernel ((blocks W g buf).map kernel) = kernel (buf.take (g * W)) := by
  induction g generalizing buf with
  | zero => simp [ParallelPatterns.blocks]
  | succ g ih =>
    have e1 : (g + 1) * W = W + g * W := by ring
    simp only [ParallelPatterns.blocks, List.map_cons, h.cons, ih]
    rw [e1, List.take_add, h.append]

theorem length_blocks {α : Type} (W g : Nat) (buf : List α) : (blocks W g buf).length = g := by
  induction g generalizing buf with
  | zero => rfl
  | succ g ih => simp [blocks, ih]

theorem length_dispatch {α : Type} (kernel : List α → α) (W n : Nat) (buf : List α)
    (h : n / W ≤ buf.length) : (dispatch kernel W n buf).length = buf.length := by
  simp [dispatch, length_blocks]
  omega

theorem take_dispatch {α : Type} (kernel : List α → α) (W n : Nat) (buf : List α) :
    (dispatch kernel W n buf).take (n / W) = (blocks W (n / W) buf).map kernel := by
  unfold dispatch
  exact List.take_left' (by simp [length_blocks])

/-- After a dispatch over `n` elements (`W ∣ n`), the first `n / W` slots reduce to what the
first `n` elements reduced to before. -/
theorem IsReduction.dispatch {α : Type} {kernel : List α → α} {op : α → α → α} {e : α}
    (h : IsReduction kernel op e) (W n : Nat) (buf : List α) (hd : W ∣ n) :
    kernel ((dispatch kernel W n buf).take (n / W)) = kernel (buf.take n) := by
  rw [take_dispatch, h.blocks, Nat.div_mul_cancel hd]

/-! ## Facts about the fill loops -/

theorem fillLoop_eq {α : Type} (v : α) (k i : Nat) (A : List α) (h : i + k ≤ A.length) :
    fillLoop v k i A = .ok (A.take i ++ List.replicate k v ++ A.drop (i + k)) := by
  induction k generalizing i A with
  | zero => simp [fillLoop]
  | succ k ih =>
    have hi : i < A.length := by omega
    have hlen : i + 1 + k ≤ (A.set i v).length := by rw [List.length_set]; omega
    have htake : (A.set i v).take (i + 1) = A.take i ++ [v] := by
      rw [List.take_succ, List.set_take, List.set_eq_of_length_le (by simp)]
      simp [hi]
    simp only [fillLoop, hi, if_true]
    rw [ih (i + 1) (A.set i v) hlen, htake,
      List.drop_set_of_lt v A (show i < i + 1 + k by omega)]
    have e1 : i + (k + 1) = i + 1 + k := by omega
    simp [List.replicate_succ, List.append_assoc, e1]

theorem take_fill {α : Type} (v : α) (k i : Nat) (A : List α) (h : i + k ≤ A.length) :
    (A.take i ++ List.replicate k v ++ A.drop (i + k)).take (i + k)
      = A.take i ++ List.replicate k v := by
  apply List.take_left'
  simp
  omega

theorem length_fill {α : Type} (v : α) (k i : Nat) (A : List α) (h : i + k ≤ A.length) :
    (A.take i ++ List.replicate k v ++ A.drop (i + k)).length = A.length := by
  simp
  omega

/-! ## The shrink loop and the final pass -/

theorem fillLt_fillsWith {α : Type} (e : α) : FillsWith (fillLt e) e := by
  intro lo hi A _
  rfl

theorem fillNe_fillsWith {α : Type} (e : α) : FillsWith (fillNe e) e := by
  intro lo hi A h
  simp [fillNe, h]

theorem shrinkLoop_step_pad {α : Type} (kernel : List α → α)
    (fill : Nat → Nat → List α → Except Halt (List α)) (W fuel : Nat) (s : Red α)
    (A1 : List α) (hc : s.input_elements / W > W) (hp : s.input_elements / W % W ≠ 0)
    (hfill : fill (s.input_elements / W)
      (s.input_elements / W + (W - s.input_elements / W % W)) s.A = .ok A1) :
    shrinkLoop kernel fill W (fuel + 1) s
      = shrinkLoop kernel fill W fuel
          ⟨dispatch kernel W (s.input_elements / W + (W - s.input_elements / W % W)) A1,
            s.input_elements / W + (W - s.input_elements / W % W),
            s.log ++ [s.input_elements / W + (W - s.input_elements / W % W)]⟩ := by
  rw [shrinkLoop]
  simp only [hc, if_true, hp, ne_eq, not_false_eq_true, hfill]

theorem shrinkLoop_step_nopad {α : Type} (kernel : List α → α)
    (fill : Nat → Nat → List α → Except Halt (List α)) (W fuel : Nat) (s : Red α)
    (hc : s.input_elements / W > W) (hp : s.input_elements / W % W = 0) :
    shrinkLoop kernel fill W (fuel + 1) s
      = shrinkLoop kernel fill W fuel
          ⟨dispatch kernel W (s.input_elements / W) s.A, s.input_elements / W,
            s.log ++ [s.input_elements / W]⟩ := by
  rw [shrinkLoop]
  simp only [hc, if_true, hp, ne_eq, not_true_eq_false, if_false]

theorem shrinkLoop_exit {α : Type} (kernel : List α → α)
    (fill : Nat → Nat → List α → Except Halt (List α)) (W fuel : Nat) (s : Red α)
    (hc : ¬ s.input_elements / W > W) : shrinkLoop kernel fill W fuel s = .ok s := by
  cases fuel with
  | zero => simp only [shrinkLoop, hc, if_false]
  | succ fuel => rw [shrinkLoop]; simp only [hc, if_false]

/-- With a work-group size of at least 2 the shrink loop ends within `input_elements`
rounds, keeps the invariant, and leaves at most `W` partial results. -/
theorem shrinkLoop_spec {α : Type} {kernel : List α → α} {op : α → α → α} {e : α}
    {fill : Nat → Nat → List α → Except Halt (List α)} {W L : Nat} {r : α}
    (hW : 2 ≤ W) (hk : IsReduction kernel op e) (hf : FillsWith fill e) :
    ∀ (fuel : Nat) (s : Red α), Inv kernel W L r s → s.input_elements ≤ fuel →
      ∃ s', shrinkLoop kernel fill W fuel s = .ok s' ∧ Inv kernel W L r s' ∧
        s'.input_elements / W ≤ W := by
  intro fuel
  induction fuel with
  | zero =>
    intro s hs hfuel
    have := hs.pos
    omega
  | succ fuel ih =>
    intro s hs hfuel
    by_cases hc : s.input_elements / W > W
    · obtain ⟨len, dvd, le, pos, val, logok⟩ := hs
      have hie : W * (s.input_elements / W) = s.input_elements := Nat.mul_div_cancel' dvd
      have h2 : 2 * (s.input_elements / W) ≤ W * (s.input_elements / W) :=
        Nat.mul_le_mul_right _ hW
      have hmod : s.input_elements / W % W < W := Nat.mod_lt _ (by omega)
      have hdm : W * (s.input_elements / W / W) + s.input_elements / W % W
          = s.input_elements / W := Nat.div_add_mod _ _
      by_cases hp : s.input_elements / W % W = 0
      · rw [shrinkLoop_step_nopad kernel fill W fuel s hc hp]
        apply ih
        · refine ⟨?_, Nat.dvd_of_mod_eq_zero hp, ?_, ?_, ?_, ?_⟩
          · show (dispatch kernel W (s.input_elements / W) s.A).length = L
            rw [length_dispatch, len]
            have := Nat.div_le_self (s.input_elements / W) W
            omega
          · show s.input_elements / W ≤ L
            omega
          · show W ≤ s.input_elements / W
            omega
          · show kernel ((dispatch kernel W (s.input_elements / W) s.A).take
              (s.input_elements / W / W)) = r
            rw [hk.dispatch W _ _ (Nat.dvd_of_mod_eq_zero hp)]
            exact val
          · intro n hn
            rcases List.mem_append.1 hn with hn | hn
            · exact logok n hn
            · have hn2 : n = s.input_elements / W := by simpa using hn
              subst hn2
              exact ⟨by omega, Nat.dvd_of_mod_eq_zero hp, by omega⟩
        · show s.input_elements / W ≤ fuel
          omega
      · have hdvd : W ∣ s.input_elements / W + (W - s.input_elements / W % W) := by
          refine ⟨s.input_elements / W / W + 1, ?_⟩
          rw [Nat.mul_succ]
          omega
        have hbound : s.input_elements / W + (W - s.input_elements / W % W) ≤ s.A.length := by
          omega
        have hfill : fill (s.input_elements / W)
            (s.input_elements / W + (W - s.input_elements / W % W)) s.A
            = .ok (s.A.take (s.input_elements / W)
                ++ List.replicate (W - s.input_elements / W % W) e
                ++ s.A.drop (s.input_elements / W + (W - s.input_elements / W % W))) := by
          rw [hf _ _ _ (Nat.le_add_right _ _), Nat.add_sub_cancel_left]
          exact fillLoop_eq e _ _ _ hbound
        rw [shrinkLoop_step_pad kernel fill W fuel s _ hc hp hfill]
        apply ih
        · refine ⟨?_, hdvd, ?_, ?_, ?_, ?_⟩
          · show (dispatch kernel W _ _).length = L
            rw [length_dispatch, length_fill e _ _ _ hbound, len]
            rw [length_fill e _ _ _ hbound]
            have := Nat.div_le_self (s.input_elements / W + (W - s.input_elements / W % W)) W
            omega
          · show s.input_elements / W + (W - s.input_elements / W % W) ≤ L
            omega
          · show W ≤ s.input_elements / W + (W - s.input_elements / W % W)
            omega
          · show kernel ((dispatch kernel W _ _).take _) = r
            rw [hk.dispatch W _ _ hdvd, take_fill e _ _ _ hbound, hk.pad]
            exact val
          · intro n hn
            rcases List.mem_append.1 hn with hn | hn
            · exact logok n hn
            · have hn2 : n = s.input_elements / W + (W - s.input_elements / W % W) := by
                simpa using hn
              subst hn2
              exact ⟨by omega, hdvd, by omega⟩
        · show s.input_elements / W + (W - s.input_elements / W % W) ≤ fuel
          omega
    · exact ⟨s, shrinkLoop_exit kernel fill W _ s hc, hs, by omega⟩

/-- The final pass on a state the shrink loop has left: `B[0]` is the reduction of the live
partial results. -/
theorem finalPass_spec {α : Type} {kernel : List α → α} {op : α → α → α} {e : α}
    {fill : Nat → Nat → List α → Except Halt (List α)} {W L : Nat} {r : α}
    (hW : 1 ≤ W) (hk : IsReduction kernel op e) (hf : FillsWith fill e) (s : Red α)
    (hs : Inv kernel W L r s) (hexit : s.input_elements / W ≤ W) :
    finalPass kernel fill W s = .ok ⟨r, s.log ++ [W]⟩ := by
  obtain ⟨len, dvd, le, pos, val, logok⟩ := hs
  have hbound : s.input_elements / W + (W - s.input_elements / W) ≤ s.A.length := by omega
  have hfill : fill (s.input_elements / W) W s.A
      = .ok (s.A.take (s.input_elements / W)
          ++ List.replicate (W - s.input_elements / W) e
          ++ s.A.drop (s.input_elements / W + (W - s.input_elements / W))) := by
    rw [hf _ _ _ hexit]
    exact fillLoop_eq e _ _ _ hbound
  have hWW : W / W = 1 := Nat.div_self (by omega)
  have hsum : s.input_elements / W + (W - s.input_elements / W) = W := by omega
  have htake := take_fill e (W - s.input_elements / W) (s.input_elements / W) s.A hbound
  rw [hsum] at htake
  unfold finalPass
  simp only [hfill]
  simp only [dispatch, hWW, blocks, List.map_cons, List.map_nil, List.cons_append,
    List.head?_cons, hsum, htake, hk.pad, val]

/-! ## The drivers -/

theorem paddedLength_facts (W N : Nat) (hW : 1 ≤ W) (hN : 1 ≤ N) :
    W ∣ paddedLength W N ∧ W ≤ paddedLength W N ∧ N ≤ paddedLength W N ∧
      paddedLength W N < N + W := by
  have hmod : N % W < W := Nat.mod_lt _ (by omega)
  have hdm : W * (N / W) + N % W = N := Nat.div_add_mod _ _
  unfold paddedLength
  by_cases h : N % W = 0
  · have hd : W ∣ N := Nat.dvd_of_mod_eq_zero h
    have := Nat.le_of_dvd (by omega) hd
    simp only [h, ne_eq, not_true_eq_false, if_false]
    exact ⟨hd, this, le_refl _, by omega⟩
  · simp only [h, ne_eq, not_false_eq_true, if_true]
    refine ⟨⟨N / W + 1, ?_⟩, by omega, by omega, by omega⟩
    rw [Nat.mul_succ]
    omega

/-- With a work-group size of at least 2 and fuel for `|A| + W` rounds, the driver returns
what the kernel computes from the whole unpadded input, and every global size it enqueues is
a positive multiple of `W` inside the padded vector. -/
theorem reduceDriver_spec {α : Type} {kernel : List α → α} {op : α → α → α} {e : α}
    {fill : α → Nat → Nat → List α → Except Halt (List α)}
    (hk : IsReduction kernel op e) (hf : FillsWith (fill e) e)
    (fuel W : Nat) (A : List α) (hA : A ≠ []) (hW : 2 ≤ W) (hfuel : A.length + W ≤ fuel) :
    ∃ log, reduceDriver kernel e fill fuel W A = .ok ⟨kernel A, log⟩ ∧
      ∀ n ∈ log, 0 < n ∧ W ∣ n ∧ n ≤ paddedLength W A.length := by
  have hN : 1 ≤ A.length := by
    cases A with
    | nil => exact absurd rfl hA
    | cons a t => simp
  obtain ⟨Ap, hAp, hlen, hval⟩ : ∃ Ap : List α,
      (if A.length % W ≠ 0 then A ++ List.replicate (W - A.length % W) e else A) = Ap ∧
      Ap.length = paddedLength W A.length ∧ kernel Ap = kernel A := by
    refine ⟨_, rfl, ?_, ?_⟩
    · unfold paddedLength
      split_ifs <;> simp
    · split_ifs
      · exact hk.pad _ _
      · rfl
  obtain ⟨hdvd, hle, _, hlt⟩ := paddedLength_facts W A.length (by omega) hN
  rw [← hlen] at hdvd hle hlt
  have hinv : Inv kernel W (paddedLength W A.length) (kernel A)
      ⟨dispatch kernel W Ap.length Ap, Ap.length, [Ap.length]⟩ := by
    refine ⟨?_, hdvd, hlen.le, hle, ?_, ?_⟩
    · show (dispatch kernel W Ap.length Ap).length = _
      rw [length_dispatch _ _ _ _ (Nat.div_le_self _ _), hlen]
    · show kernel ((dispatch kernel W Ap.length Ap).take (Ap.length / W)) = kernel A
      rw [hk.dispatch W _ _ hdvd, List.take_length, hval]
    · intro n hn
      have hn2 : n = Ap.length := by simpa using hn
      subst hn2
      exact ⟨by omega, hdvd, hlen.le⟩
  obtain ⟨s', hrun, hinv', hexit⟩ :=
    shrinkLoop_spec hW hk hf fuel _ hinv (show Ap.length ≤ fuel by omega)
  refine ⟨s'.log ++ [W], ?_, ?_⟩
  · unfold reduceDriver
    have hW0 : W ≠ 0 := by omega
    simp only [hW0, if_false, hAp, hrun]
    exact finalPass_spec (by omega) hk hf s' hinv' hexit
  · intro n hn
    rcases List.mem_append.1 hn with hn | hn
    · exact hinv'.logok n hn
    · have hn2 : n = W := by simpa using hn
      subst hn2
      exact ⟨by omega, dvd_refl _, by omega⟩

/-! ## The three kernels are reductions -/

theorem reduce_add_6_isReduction : IsReduction reduce_add_6 (· + ·) 0 :=
  foldl_isReduction (· + ·) 0 (fun a b c => add_assoc a b c) (fun a => zero_add a)
    (fun a => add_zero a)

theorem reduce_add_6_eq_sum (A : List ℚ) : reduce_add_6 A = A.sum := by
  induction A with
  | nil => rfl
  | cons a t ih => rw [reduce_add_6_isReduction.cons, ih, List.sum_cons]

theorem fmax_assoc (a b c : mytype) : fmax (fmax a b) c = fmax a (fmax b c) := by
  cases a <;> cases b <;> cases c <;> simp [fmax, mytype.le] <;>
    (split_ifs <;> simp_all <;> linarith)

theorem fmin_assoc (a b c : mytype) : fmin (fmin a b) c = fmin a (fmin b c) := by
  cases a <;> cases b <;> cases c <;> simp [fmin, mytype.le] <;>
    (split_ifs <;> simp_all <;> linarith)

theorem reduce_max_isReduction : IsReduction reduce_max fmax mytype.ninf :=
  foldl_isReduction fmax mytype.ninf fmax_assoc
    (fun a => by cases a <;> simp [fmax, mytype.le])
    (fun a => by cases a <;> simp [fmax, mytype.le])

theorem reduce_min_isReduction : IsReduction reduce_min fmin mytype.pinf :=
  foldl_isReduction fmin mytype.pinf fmin_assoc
    (fun a => by cases a <;> simp [fmin, mytype.le])
    (fun a => by cases a <;> simp [fmin, mytype.le])

/-- On finite samples `reduce_max` returns the largest of them. -/
theorem reduce_max_fin (A : List ℚ) (hA : A ≠ []) :
    ∃ m, reduce_max (A.map mytype.fin) = mytype.fin m ∧ m ∈ A ∧ ∀ x ∈ A, x ≤ m := by
  induction A with
  | nil => exact absurd rfl hA
  | cons a t ih =>
    rw [List.map_cons, reduce_max_isReduction.cons]
    by_cases ht : t = []
    · subst ht
      refine ⟨a, ?_, by simp, by simp⟩
      simp [reduce_max_isReduction.nil, fmax, mytype.le]
    · obtain ⟨m, hm, hmem, hmax⟩ := ih ht
      rw [hm]
      by_cases h : a ≤ m
      · refine ⟨m, by simp [fmax, mytype.le, h], by simp [hmem], ?_⟩
        intro x hx
        rcases List.mem_cons.1 hx with rfl | hx
        · exact h
        · exact hmax x hx
      · refine ⟨a, by simp [fmax, mytype.le, h], by simp, ?_⟩
        intro x hx
        rcases List.mem_cons.1 hx with rfl | hx
        · exact le_refl _
        · exact le_trans (hmax x hx) (le_of_lt (not_le.1 h))

/-- On finite samples `reduce_min` returns the smallest of them. -/
theorem reduce_min_fin (A : List ℚ) (hA : A ≠ []) :
    ∃ m, reduce_min (A.map mytype.fin) = mytype.fin m ∧ m ∈ A ∧ ∀ x ∈ A, m ≤ x := by
  induction A with
  | nil => exact absurd rfl hA
  | cons a t ih =>
    rw [List.map_cons, reduce_min_isReduction.cons]
    by_cases ht : t = []
    · subst ht
      refine ⟨a, ?_, by simp, by simp⟩
      simp [reduce_min_isReduction.nil, fmin, mytype.le]
    · obtain ⟨m, hm, hmem, hmin⟩ := ih ht
      rw [hm]
      by_cases h : a ≤ m
      · refine ⟨a, by simp [fmin, mytype.le, h], by simp, ?_⟩
        intro x hx
        rcases List.mem_cons.1 hx with rfl | hx
        · exact le_refl _
        · exact le_trans h (hmin x hx)
      · refine ⟨m, by simp [fmin, mytype.le, h], by simp [hmem], ?_⟩
        intro x hx
        rcases List.mem_cons.1 hx with rfl | hx
        · exact le_of_lt (not_le.1 h)
        · exact hmin x hx

/-- The value `parallelMax` returns: the largest sample. -/
theorem parallelMax_spec (fuel W : Nat) (A : List ℚ) (hA : A ≠ []) (hW : 2 ≤ W)
    (hfuel : A.length + W ≤ fuel) :
    ∃ m log, parallelMax fuel W A = .ok ⟨mytype.fin m, log⟩ ∧ m ∈ A ∧ ∀ x ∈ A, x ≤ m := by
  obtain ⟨m, hm, hmem, hmax⟩ := reduce_max_fin A hA
  obtain ⟨log, hrun, _⟩ := reduceDriver_spec reduce_max_isReduction
    (fillNe_fillsWith mytype.ninf) fuel W (A.map mytype.fin) (by simpa using hA) hW
    (by simpa using hfuel)
  exact ⟨m, log, by rw [parallelMax, hrun, hm], hmem, hmax⟩

/-- The value `parallelMin` returns: the smallest sample. -/
theorem parallelMin_spec (fuel W : Nat) (A : List ℚ) (hA : A ≠ []) (hW : 2 ≤ W)
    (hfuel : A.length + W ≤ fuel) :
    ∃ m log, parallelMin fuel W A = .ok ⟨mytype.fin m, log⟩ ∧ m ∈ A ∧ ∀ x ∈ A, m ≤ x := by
  obtain ⟨m, hm, hmem, hmin⟩ := reduce_min_fin A hA
  obtain ⟨log, hrun, _⟩ := reduceDriver_spec reduce_min_isReduction
    (fillNe_fillsWith mytype.pinf) fuel W (A.map mytype.fin) (by simpa using hA) hW
    (by simpa using hfuel)
  exact ⟨m, log, by rw [parallelMin, hrun, hm], hmem, hmin⟩

/-- The value `parallelMean` returns: the sum of the samples over their number. -/
theorem parallelMean_spec (fuel W : Nat) (A : List ℚ) (hA : A ≠ []) (hW : 2 ≤ W)
    (hfuel : A.length + W ≤ fuel) :
    ∃ log, parallelMean fuel W A = .ok ⟨A.sum / A.length, log⟩ := by
  obtain ⟨log, hrun, _⟩ := reduceDriver_spec reduce_add_6_isReduction
    (fillLt_fillsWith (0 : ℚ)) fuel W A hA hW hfuel
  have hN : A.length ≠ 0 := by simpa using hA
  exact ⟨log, by simp only [parallelMean, hrun, hN, if_false, reduce_add_6_eq_sum]⟩

theorem normalMean_spec (A : List ℚ) (hA : A ≠ []) :
    normalMean A = .ok (A.sum / A.length) := by
  have hN : A.length ≠ 0 := by simpa using hA
  have h := reduce_add_6_eq_sum A
  unfold reduce_add_6 at h
  simp only [normalMean, hN, if_false, h]

/-! ## Facts about the histogram kernel -/

theorem length_bump (i : Nat) (H : List Nat) : (bump i H).length = H.length := by
  induction H generalizing i with
  | nil => cases i <;> rfl
  | cons h t ih => cases i <;> simp [bump, ih]

theorem getElem?_bump (i j : Nat) (H : List Nat) :
    (bump i H)[j]? = (H[j]?).map (fun v => if j = i then v + 1 else v) := by
  induction H generalizing i j with
  | nil => cases i <;> simp [bump]
  | cons h t ih =>
    cases i with
    | zero => cases j <;> simp [bump]
    | succ i => cases j <;> simp [bump, ih]

theorem sum_bump (i : Nat) (H : List Nat) (h : i < H.length) : (bump i H).sum = H.sum + 1 := by
  induction H generalizing i with
  | nil => simp at h
  | cons a t ih =>
    cases i with
    | zero => simp [bump]; omega
    | succ i =>
      have := ih i (by simpa using h)
      simp [bump, this]; omega

theorem length_binItem (B : Int) (bw mn : ℚ) (H : List Nat) (x : ℚ) :
    (binItem B bw mn H x).length = H.length := by
  unfold binItem
  simp only
  split_ifs
  · exact length_bump _ _
  · rfl

theorem getElem?_binItem (B : Int) (bw mn : ℚ) (H : List Nat) (x : ℚ) (j : Nat)
    (hH : H.length = B.toNat) :
    (binItem B bw mn H x)[j]?
      = (H[j]?).map (fun v => v + if binIndex bw mn x = (j : Int) then 1 else 0) := by
  unfold binItem
  simp only
  by_cases hr : 0 ≤ binIndex bw mn x ∧ binIndex bw mn x < B
  · rw [if_pos hr, getElem?_bump]
    congr 1
    funext v
    have h0 := Int.toNat_of_nonneg hr.1
    by_cases hj : binIndex bw mn x = (j : Int)
    · have h1 : j = (binIndex bw mn x).toNat := by omega
      rw [if_pos h1, if_pos hj]
    · have h1 : ¬ j = (binIndex bw mn x).toNat := by omega
      rw [if_neg h1, if_neg hj]
      rfl
  · rw [if_neg hr]
    cases hv : H[j]? with
    | none => rfl
    | some v =>
      have hj : j < H.length := by
        by_contra hc
        rw [List.getElem?_eq_none (by omega)] at hv
        cases hv
      have h1 : ¬ binIndex bw mn x = (j : Int) := by
        intro he
        apply hr
        omega
      show some v = some (v + if binIndex bw mn x = (j : Int) then 1 else 0)
      rw [if_neg h1]
      rfl

theorem length_binFold (B : Int) (bw mn : ℚ) (A : List ℚ) (H : List Nat) :
    (binFold B bw mn A H).length = H.length := by
  unfold binFold
  induction A generalizing H with
  | nil => rfl
  | cons x xs ih => rw [List.foldl_cons, ih, length_binItem]

theorem getElem?_binFold (B : Int) (bw mn : ℚ) (A : List ℚ) (H : List Nat) (j : Nat)
    (hH : H.length = B.toNat) :
    (binFold B bw mn A H)[j]?
      = (H[j]?).map (fun v => v + A.countP (fun x => decide (binIndex bw mn x = (j : Int)))) := by
  unfold binFold
  induction A generalizing H with
  | nil => simp
  | cons x xs ih =>
    rw [List.foldl_cons, ih _ (by rw [length_binItem, hH]), getElem?_binItem _ _ _ _ _ _ hH,
      List.countP_cons]
    cases H[j]? with
    | none => rfl
    | some v =>
      simp only [Option.map_some', decide_eq_true_eq]
      congr 1
      omega

theorem sum_binFold (B : Int) (bw mn : ℚ) (A : List ℚ) (H : List Nat)
    (hH : H.length = B.toNat) :
    (binFold B bw mn A H).sum
      = H.sum + A.countP (fun x =>
          decide (0 ≤ binIndex bw mn x ∧ binIndex bw mn x < B)) := by
  unfold binFold
  induction A generalizing H with
  | nil => simp
  | cons x xs ih =>
    rw [List.foldl_cons, ih _ (by rw [length_binItem, hH]), List.countP_cons]
    unfold binItem
    simp only
    by_cases hr : 0 ≤ binIndex bw mn x ∧ binIndex bw mn x < B
    · rw [if_pos hr, sum_bump _ _ (by omega)]
      simp only [hr, and_self, decide_True, if_true]
      omega
    · rw [if_neg hr]
      simp only [hr, decide_False, Bool.false_eq_true, if_false, Nat.add_zero]

/-! ## Facts about the bin arithmetic -/

theorem bin_width_pos (mn mx : ℚ) (B : Int) (h : mn < mx) (hB : 1 ≤ B) :
    0 < (mx - mn) / B := by
  have hB' : (0 : ℚ) < B := by exact_mod_cast (show (0 : Int) < B by omega)
  exact div_pos (by linarith) hB'

theorem bin_width_mul (mn mx : ℚ) (B : Int) (hB : 1 ≤ B) :
    (B : ℚ) * ((mx - mn) / B) = mx - mn := by
  have hB' : (B : ℚ) ≠ 0 := by exact_mod_cast (show B ≠ 0 by omega)
  field_simp

/-- A value in `[min, max)` gets a bin index in `[0, nr_bins)`. -/
theorem binIndex_inside (mn mx x : ℚ) (B : Int) (hB : 1 ≤ B) (h1 : mn ≤ x) (h2 : x < mx) :
    0 ≤ binIndex ((mx - mn) / B) mn x ∧ binIndex ((mx - mn) / B) mn x < B := by
  have hbw := bin_width_pos mn mx B (by linarith) hB
  have hmul := bin_width_mul mn mx B hB
  unfold binIndex
  constructor
  · exact Int.floor_nonneg.2 (div_nonneg (by linarith) hbw.le)
  · rw [Int.floor_lt, div_lt_iff₀ hbw]
    linarith

/-- The padding value `max + 1` gets a bin index of at least `nr_bins`. -/
theorem binIndex_padding (mn mx : ℚ) (B : Int) (hB : 1 ≤ B) (h : mn < mx) :
    B ≤ binIndex ((mx - mn) / B) mn (mx + 1) := by
  have hbw := bin_width_pos mn mx B h hB
  have hmul := bin_width_mul mn mx B hB
  unfold binIndex
  rw [Int.le_floor, le_div_iff₀ hbw]
  linarith

/-- Having bin index `i` is lying in the half-open interval of bin `i`. -/
theorem binIndex_eq_iff (bw mn x : ℚ) (i : Int) (hbw : 0 < bw) :
    binIndex bw mn x = i ↔ mn + i * bw ≤ x ∧ x < mn + (i + 1) * bw := by
  unfold binIndex
  rw [Int.floor_eq_iff, le_div_iff₀ hbw, div_lt_iff₀ hbw]
  constructor
  · rintro ⟨h1, h2⟩
    exact ⟨by linarith, by linarith⟩
  · rintro ⟨h1, h2⟩
    exact ⟨by linarith, by linarith⟩

theorem histPadded_eq (W : Nat) (pad : ℚ) (A : List ℚ) :
    ∃ k, histPadded W pad A = A ++ List.replicate k pad := by
  unfold histPadded
  split_ifs
  · exact ⟨_, rfl⟩
  · exact ⟨0, by simp⟩

/-- The bin array over the padded samples: entry `i` counts the samples whose index is `i`,
and padding is counted nowhere. -/
theorem binFold_padded (A : List ℚ) (B : Int) (mn mx : ℚ) (k : Nat) (hB : 1 ≤ B)
    (h : mn < mx) :
    binFold B ((mx - mn) / B) mn (A ++ List.replicate k (mx + 1))
        (List.replicate B.toNat 0)
      = (List.range B.toNat).map (fun (i : Nat) =>
          A.countP (fun x => decide (binIndex ((mx - mn) / B) mn x = (i : Int)))) := by
  apply List.ext_getElem?
  intro j
  rw [getElem?_binFold _ _ _ _ _ _ (by simp), List.countP_append, List.countP_replicate]
  by_cases hj : j < B.toNat
  · have hpad := binIndex_padding mn mx B hB h
    have hne : ¬ binIndex ((mx - mn) / B) mn (mx + 1) = (j : Int) := by omega
    simp [hj, hne, List.getElem?_replicate, List.getElem?_range]
  · have h1 : (List.replicate B.toNat 0)[j]? = none :=
      List.getElem?_eq_none (by simpa using hj)
    have h2 : ((List.range B.toNat).map (fun (i : Nat) =>
        A.countP (fun x => decide (binIndex ((mx - mn) / B) mn x = (i : Int)))))[j]? = none :=
      List.getElem?_eq_none (by simpa using hj)
    rw [h1, h2]
    rfl

theorem sum_binFold_padded (A : List ℚ) (B : Int) (mn mx : ℚ) (k : Nat) (hB : 1 ≤ B)
    (h : mn < mx) (hA : ∀ x ∈ A, mn ≤ x ∧ x < mx) :
    (binFold B ((mx - mn) / B) mn (A ++ List.replicate k (mx + 1))
        (List.replicate B.toNat 0)).sum = A.length := by
  rw [sum_binFold _ _ _ _ _ (by simp), List.countP_append, List.countP_replicate]
  have hpad := binIndex_padding mn mx B hB h
  have hne : ¬ (0 ≤ binIndex ((mx - mn) / B) mn (mx + 1)
      ∧ binIndex ((mx - mn) / B) mn (mx + 1) < B) := by omega
  have hall : A.countP (fun x => decide (0 ≤ binIndex ((mx - mn) / B) mn x
      ∧ binIndex ((mx - mn) / B) mn x < B)) = A.length := by
    rw [List.countP_eq_length]
    intro x hx
    have := binIndex_inside mn mx x B hB (hA x hx).1 (hA x hx).2
    simpa using this
  rw [hall]
  simp [hne]

/-! ## The statistics -/

theorem length_mul_le_sum (A : List ℚ) (lo : ℚ) (h : ∀ x ∈ A, lo ≤ x) :
    (A.length : ℚ) * lo ≤ A.sum := by
  induction A with
  | nil => simp
  | cons a t ih =>
    have h1 := ih (fun x hx => h x (List.mem_cons_of_mem _ hx))
    have h2 := h a (List.mem_cons_self _ _)
    simp only [List.length_cons, List.sum_cons, Nat.cast_succ]
    linarith

theorem sum_le_length_mul (A : List ℚ) (hi : ℚ) (h : ∀ x ∈ A, x ≤ hi) :
    A.sum ≤ (A.length : ℚ) * hi := by
  induction A with
  | nil => simp
  | cons a t ih =>
    have h1 := ih (fun x hx => h x (List.mem_cons_of_mem _ hx))
    have h2 := h a (List.mem_cons_self _ _)
    simp only [List.length_cons, List.sum_cons, Nat.cast_succ]
    linarith

theorem length_pos_cast (A : List ℚ) (hA : A ≠ []) : (0 : ℚ) < A.length := by
  have : 0 < A.length := List.length_pos.2 hA
  exact_mod_cast this

/-- C1: for a non-empty sample sequence and a work-group size of at least 2, with enough fuel
for the shrink loop, `parallelMax` returns the largest sample and `parallelMin` the smallest
one; the infinities padded in at the start, in the shrink rounds and in the final pass do not
show in the result. -/
theorem parallelMax_parallelMin_correct (fuel W : Nat) (A : List ℚ) (hA : A ≠ [])
    (hW : 2 ≤ W) (hfuel : A.length + W ≤ fuel) :
    (∃ m log, parallelMax fuel W A = .ok ⟨mytype.fin m, log⟩ ∧ m ∈ A ∧ ∀ x ∈ A, x ≤ m) ∧
    (∃ m log, parallelMin fuel W A = .ok ⟨mytype.fin m, log⟩ ∧ m ∈ A ∧ ∀ x ∈ A, m ≤ x) :=
  ⟨parallelMax_spec fuel W A hA hW hfuel, parallelMin_spec fuel W A hA hW hfuel⟩

set_option maxRecDepth 10000 in
theorem parallelMax_parallelMin_correct_witness :
    (parallelMax 5 2 [3, 1, 2] = .ok ⟨mytype.fin 3, [4, 2]⟩ ∧
      parallelMin 5 2 [3, 1, 2] = .ok ⟨mytype.fin 1, [4, 2]⟩) ∧
    ((∃ m log, parallelMax 5 2 [3, 1, 2] = .ok ⟨mytype.fin m, log⟩ ∧ m ∈ [(3 : ℚ), 1, 2] ∧
        ∀ x ∈ [(3 : ℚ), 1, 2], x ≤ m) ∧
      (∃ m log, parallelMin 5 2 [3, 1, 2] = .ok ⟨mytype.fin m, log⟩ ∧ m ∈ [(3 : ℚ), 1, 2] ∧
        ∀ x ∈ [(3 : ℚ), 1, 2], m ≤ x)) :=
  ⟨by
    constructor <;>
    norm_num [parallelMax, parallelMin, reduceDriver, shrinkLoop, finalPass, dispatch, blocks,
      fillNe, fillLoop, reduce_max, reduce_min, fmax, fmin, mytype.le],
    parallelMax_parallelMin_correct 5 2 [3, 1, 2] (by simp) (by decide) (by decide)⟩

/-- C2: for a non-empty sample sequence of length `N` and a work-group size of at least 2,
`parallelMean` returns the sum of the samples divided by `N`, the length before padding, which
is what the sequential `normalMean` returns, whatever `N mod W` is. -/
theorem parallelMean_eq_normalMean (fuel W : Nat) (A : List ℚ) (hA : A ≠ []) (hW : 2 ≤ W)
    (hfuel : A.length + W ≤ fuel) :
    ∃ log, parallelMean fuel W A = .ok ⟨A.sum / A.length, log⟩ ∧
      normalMean A = .ok (A.sum / A.length) := by
  obtain ⟨log, h⟩ := parallelMean_spec fuel W A hA hW hfuel
  exact ⟨log, h, normalMean_spec A hA⟩

set_option maxRecDepth 10000 in
theorem parallelMean_eq_normalMean_witness :
    (parallelMean 5 2 [1, 2, 4] = .ok ⟨7 / 3, [4, 2]⟩ ∧ normalMean [1, 2, 4] = .ok (7 / 3)) ∧
    ∃ log, parallelMean 5 2 [1, 2, 4]
        = .ok ⟨([1, 2, 4] : List ℚ).sum / ([1, 2, 4] : List ℚ).length, log⟩ ∧
      normalMean [1, 2, 4] = .ok (([1, 2, 4] : List ℚ).sum / ([1, 2, 4] : List ℚ).length) :=
  ⟨by
    constructor
    · simp [parallelMean, reduceDriver, shrinkLoop, finalPass, dispatch, blocks, fillLt,
        fillLoop, reduce_add_6]
      norm_num
    · simp [normalMean]
      norm_num,
    parallelMean_eq_normalMean 5 2 [1, 2, 4] (by simp) (by decide) (by decide)⟩

/-- C3: for a non-empty sample sequence and work-group sizes of at least 2, the value of
`parallelMin` is at most the value of `parallelMean`, which is at most the value of
`parallelMax`. -/
theorem parallelMin_le_parallelMean_le_parallelMax (fuel Wmin Wmean Wmax : Nat) (A : List ℚ)
    (hA : A ≠ []) (hWmin : 2 ≤ Wmin) (hWmean : 2 ≤ Wmean) (hWmax : 2 ≤ Wmax)
    (hfmin : A.length + Wmin ≤ fuel) (hfmean : A.length + Wmean ≤ fuel)
    (hfmax : A.length + Wmax ≤ fuel) :
    ∃ lo mean hi l1 l2 l3,
      parallelMin fuel Wmin A = .ok ⟨mytype.fin lo, l1⟩ ∧
      parallelMean fuel Wmean A = .ok ⟨mean, l2⟩ ∧
      parallelMax fuel Wmax A = .ok ⟨mytype.fin hi, l3⟩ ∧ lo ≤ mean ∧ mean ≤ hi := by
  obtain ⟨lo, l1, h1, _, hlo⟩ := parallelMin_spec fuel Wmin A hA hWmin hfmin
  obtain ⟨l2, h2⟩ := parallelMean_spec fuel Wmean A hA hWmean hfmean
  obtain ⟨hi, l3, h3, _, hhi⟩ := parallelMax_spec fuel Wmax A hA hWmax hfmax
  have hN := length_pos_cast A hA
  refine ⟨lo, _, hi, l1, l2, l3, h1, h2, h3, ?_, ?_⟩
  · rw [le_div_iff₀ hN]
    have := length_mul_le_sum A lo hlo
    linarith
  · rw [div_le_iff₀ hN]
    have := sum_le_length_mul A hi hhi
    linarith

theorem parallelMin_le_parallelMean_le_parallelMax_witness :
    ∃ lo mean hi l1 l2 l3,
      parallelMin 6 2 [3, 1, 2] = .ok ⟨mytype.fin lo, l1⟩ ∧
      parallelMean 6 3 [3, 1, 2] = .ok ⟨mean, l2⟩ ∧
      parallelMax 6 2 [3, 1, 2] = .ok ⟨mytype.fin hi, l3⟩ ∧ lo ≤ mean ∧ mean ≤ hi :=
  parallelMin_le_parallelMean_le_parallelMax 6 2 3 2 [3, 1, 2] (by simp) (by decide)
    (by decide) (by decide) (by decide) (by decide) (by decide)

/-! ## The histogram -/

/-- The bounds the two reductions give on the samples put every sample in `[min, max)`. -/
theorem samples_inside (A : List ℚ) (lo hi : ℚ) (hlo : ∀ x ∈ A, lo ≤ x)
    (hhi : ∀ x ∈ A, x ≤ hi) :
    ∀ x ∈ A, ((⌊lo⌋ : Int) : ℚ) ≤ x ∧ x < ((⌈hi⌉ : Int) : ℚ) + 1 := by
  intro x hx
  have h1 := Int.floor_le lo
  have h2 := Int.le_ceil hi
  exact ⟨le_trans h1 (hlo x hx), by linarith [hhi x hx]⟩

theorem floor_lt_ceil_add_one (lo hi : ℚ) (h : lo ≤ hi) :
    ((⌊lo⌋ : Int) : ℚ) < ((⌈hi⌉ : Int) : ℚ) + 1 := by
  have h1 := Int.floor_le lo
  have h2 := Int.le_ceil hi
  linarith

/-! ## Empty input -/

theorem fillLoop_nil {α : Type} (v : α) (k i : Nat) (hk : 1 ≤ k) :
    fillLoop v k i ([] : List α) = .error Halt.outOfBounds := by
  cases k with
  | zero => omega
  | succ k => simp [fillLoop]

/-- On the empty vector the driver adds no padding, enqueues the first dispatch over 0
elements, skips the shrink loop and stops in the final fill, whose first write is to element
0 of the empty vector. -/
theorem reduceDriver_nil {α : Type} (kernel : List α → α) (e : α)
    (fill : α → Nat → Nat → List α → Except Halt (List α)) (fuel W : Nat) (hW : 1 ≤ W)
    (hf : FillsWith (fill e) e) :
    reduceDriver kernel e fill fuel W [] = .error ⟨Halt.outOfBounds, [0]⟩ := by
  have hW0 : W ≠ 0 := by omega
  have hdiv : 0 / W = 0 := Nat.zero_div W
  have hexit : shrinkLoop kernel (fill e) W fuel ⟨[], 0, [0]⟩ = .ok ⟨[], 0, [0]⟩ :=
    shrinkLoop_exit kernel (fill e) W fuel _ (by simp)
  have hfill : fill e 0 W [] = .error Halt.outOfBounds := by
    rw [hf 0 W [] (Nat.zero_le _)]
    exact fillLoop_nil e _ _ (by omega)
  unfold reduceDriver
  simp only [hW0, if_false, List.length_nil, Nat.zero_mod, ne_eq, not_true_eq_false,
    dispatch, hdiv, blocks, List.map_nil, List.drop_nil, List.append_nil, hexit]
  simp only [finalPass, hdiv, hfill]

/-- C7, as the code has it: none of the four functions checks for an empty sample sequence.
For every work-group size of at least 1 (device calls taken to succeed) each of them goes on
as for any input: no padding is added, the first dispatch is enqueued over 0 elements, the
shrink loop is skipped, and the run stops at the final fill, which writes element 0 of the
empty vector; no value and no validation error comes back, and `parallelHistogram` stops
inside its call of `parallelMin`. -/
theorem empty_input_runs_into_fill (fuel Wmean Wmax Wmin W : Nat) (B : Int)
    (hWmean : 1 ≤ Wmean) (hWmax : 1 ≤ Wmax) (hWmin : 1 ≤ Wmin) :
    parallelMean fuel Wmean [] = .error ⟨Halt.outOfBounds, [0]⟩ ∧
    parallelMax fuel Wmax [] = .error ⟨Halt.outOfBounds, [0]⟩ ∧
    parallelMin fuel Wmin [] = .error ⟨Halt.outOfBounds, [0]⟩ ∧
    parallelHistogram fuel Wmin Wmax W [] B = .error ⟨Halt.outOfBounds, [0]⟩ := by
  have h1 := reduceDriver_nil reduce_add_6 0 fillLt fuel Wmean hWmean (fillLt_fillsWith 0)
  have h2 := reduceDriver_nil reduce_max mytype.ninf fillNe fuel Wmax hWmax
    (fillNe_fillsWith _)
  have h3 := reduceDriver_nil reduce_min mytype.pinf fillNe fuel Wmin hWmin
    (fillNe_fillsWith _)
  have hmin : parallelMin fuel Wmin [] = .error ⟨Halt.outOfBounds, [0]⟩ := by
    simp only [parallelMin, List.map_nil, h3]
  refine ⟨?_, ?_, hmin, ?_⟩
  · simp only [parallelMean, h1]
  · simp only [parallelMax, List.map_nil, h2]
  · simp only [parallelHistogram, parallelHistogramWith, hmin]

theorem empty_input_runs_into_fill_witness :
    parallelMean 9 4 [] = .error ⟨Halt.outOfBounds, [0]⟩ ∧
    parallelMax 9 4 [] = .error ⟨Halt.outOfBounds, [0]⟩ ∧
    parallelMin 9 4 [] = .error ⟨Halt.outOfBounds, [0]⟩ ∧
    parallelHistogram 9 4 4 4 [] 3 = .error ⟨Halt.outOfBounds, [0]⟩ :=
  empty_input_runs_into_fill 9 4 4 4 4 3 (by decide) (by decide) (by decide)

/-- C7 as stated fails: on the empty sequence with work-group size 256 no function stops
before its first dispatch.  Each run has enqueued a kernel (the log is `[0]`, not empty) when
it stops, and it stops at the out-of-bounds write to element 0 which the claim says is
avoided. -/
theorem empty_input_not_rejected :
    parallelMean 1 256 [] = .error ⟨Halt.outOfBounds, [0]⟩ ∧
    parallelMax 1 256 [] = .error ⟨Halt.outOfBounds, [0]⟩ ∧
    parallelMin 1 256 [] = .error ⟨Halt.outOfBounds, [0]⟩ ∧
    parallelHistogram 1 256 256 256 [] 10 = .error ⟨Halt.outOfBounds, [0]⟩ ∧
    ¬ (∃ f, parallelMean 1 256 [] = .error f ∧ f.log = []) := by
  have h1 := reduceDriver_nil reduce_add_6 0 fillLt 1 256 (by decide) (fillLt_fillsWith 0)
  have h2 := reduceDriver_nil reduce_max mytype.ninf fillNe 1 256 (by decide)
    (fillNe_fillsWith _)
  have h3 := reduceDriver_nil reduce_min mytype.pinf fillNe 1 256 (by decide)
    (fillNe_fillsWith _)
  have hmean : parallelMean 1 256 [] = .error ⟨Halt.outOfBounds, [0]⟩ := by
    simp only [parallelMean, h1]
  have hmax : parallelMax 1 256 [] = .error ⟨Halt.outOfBounds, [0]⟩ := by
    simp only [parallelMax, List.map_nil, h2]
  have hmin : parallelMin 1 256 [] = .error ⟨Halt.outOfBounds, [0]⟩ := by
    simp only [parallelMin, List.map_nil, h3]
  have hhist : parallelHistogram 1 256 256 256 [] 10 = .error ⟨Halt.outOfBounds, [0]⟩ := by
    simp only [parallelHistogram, parallelHistogramWith, hmin]
  refine ⟨hmean, hmax, hmin, hhist, ?_⟩
  rintro ⟨f, hf, hlog⟩
  rw [hmean] at hf
  cases hf
  simp at hlog

/-! ## The bin-count prompt -/

theorem binsStep_iff (r : Read) : binsStep r = true ↔ (1 ≤ r.binsChosen ∧ r.fail = false) := by
  unfold binsStep
  cases hf : r.fail
  · by_cases h1 : r.binsChosen < 1
    · have h2 : ¬ 1 ≤ r.binsChosen := by omega
      simp [h1, h2]
    · have h2 : 1 ≤ r.binsChosen := by omega
      simp [h1, h2]
  · simp

theorem promptBins_some (reads : List Read) (b : Int) (h : promptBins reads = some b) :
    ∃ r ∈ reads, binsStep r = true ∧ r.binsChosen = b := by
  induction reads with
  | nil => simp [promptBins] at h
  | cons r rest ih =>
    by_cases hr : binsStep r = true
    · simp only [promptBins, hr, if_true, Option.some.injEq] at h
      exact ⟨r, List.mem_cons_self _ _, hr, h⟩
    · simp only [promptBins, hr, Bool.false_eq_true, if_false] at h
      obtain ⟨r', hmem, h'⟩ := ih h
      exact ⟨r', List.mem_cons_of_mem _ hmem, h'⟩

/-- C8: the prompt loop of `main` accepts a read exactly when the value is at least 1 and the
read did not fail, so the bin count it hands to `parallelHistogram` comes from such a read, is
at least 1 and is not zero: the divisor of `range / nr_bins` is never zero. -/
theorem promptBins_accepts_only_positive (reads : List Read) (b : Int)
    (h : promptBins reads = some b) :
    1 ≤ b ∧ b ≠ 0 ∧ (∃ r ∈ reads, r.binsChosen = b ∧ r.fail = false) ∧
    (∀ r : Read, binsStep r = true ↔ (1 ≤ r.binsChosen ∧ r.fail = false)) ∧
    ∀ (fuel Wmin Wmax W : Nat) (A : List ℚ),
      mainHistogram reads fuel Wmin Wmax W A
        = some (parallelHistogram fuel Wmin Wmax W A b) := by
  obtain ⟨r, hmem, hstep, hb⟩ := promptBins_some reads b h
  have hr := (binsStep_iff r).1 hstep
  rw [hb] at hr
  refine ⟨hr.1, by omega, ⟨r, hmem, hb, hr.2⟩, binsStep_iff, ?_⟩
  intro fuel Wmin Wmax W A
  simp only [mainHistogram, h]

theorem promptBins_accepts_only_positive_witness :
    promptBins [⟨0, false⟩, ⟨-3, false⟩, ⟨0, true⟩, ⟨12, false⟩] = some 12 ∧
    (1 : Int) ≤ 12 ∧ (12 : Int) ≠ 0 ∧
    (∃ r ∈ [(⟨0, false⟩ : Read), ⟨-3, false⟩, ⟨0, true⟩, ⟨12, false⟩],
      r.binsChosen = 12 ∧ r.fail = false) ∧
    (∀ r : Read, binsStep r = true ↔ (1 ≤ r.binsChosen ∧ r.fail = false)) ∧
    ∀ (fuel Wmin Wmax W : Nat) (A : List ℚ),
      mainHistogram [⟨0, false⟩, ⟨-3, false⟩, ⟨0, true⟩, ⟨12, false⟩] fuel Wmin Wmax W A
        = some (parallelHistogram fuel Wmin Wmax W A 12) :=
  ⟨by decide, promptBins_accepts_only_positive
    [⟨0, false⟩, ⟨-3, false⟩, ⟨0, true⟩, ⟨12, false⟩] 12 (by decide)⟩

/-! ## Work-group size 1 -/

/-- With work-group size 1 a round of the shrink loop on two live elements changes neither
the vector nor `input_elements`, so the loop uses up any fuel. -/
theorem shrinkLoop_one {α : Type} (kernel : List α → α)
    (fill : Nat → Nat → List α → Except Halt (List α)) (a b : α)
    (hk : ∀ x, kernel [x] = x) :
    ∀ (fuel : Nat) (log : List Nat),
      shrinkLoop kernel fill 1 fuel ⟨[a, b], 2, log⟩
        = .error ⟨Halt.outOfFuel, log ++ List.replicate fuel 2⟩ := by
  intro fuel
  induction fuel with
  | zero =>
    intro log
    simp [shrinkLoop]
  | succ fuel ih =>
    intro log
    rw [shrinkLoop_step_nopad kernel fill 1 fuel ⟨[a, b], 2, log⟩ (by simp) (by simp)]
    have hd : dispatch kernel 1 (2 / 1) [a, b] = [a, b] := by
      simp [dispatch, blocks, hk]
    simp only [hd, Nat.div_one]
    rw [ih (log ++ [2]), List.append_assoc]
    rfl

theorem reduceDriver_one {α : Type} (kernel : List α → α) (e : α)
    (fill : α → Nat → Nat → List α → Except Halt (List α)) (a b : α)
    (hk : ∀ x, kernel [x] = x) (fuel : Nat) :
    reduceDriver kernel e fill fuel 1 [a, b]
      = .error ⟨Halt.outOfFuel, [2] ++ List.replicate fuel 2⟩ := by
  have hd : dispatch kernel 1 2 [a, b] = [a, b] := by
    simp [dispatch, blocks, hk]
  unfold reduceDriver
  simp only [one_ne_zero, if_false, List.length_cons, List.length_nil, Nat.mod_one, ne_eq,
    not_true_eq_false, hd, shrinkLoop_one kernel (fill e) a b hk]

/-- C9 fails at work-group size 1: on the two-sample input `[1, 2]` the shrink loop of
`parallelMean`, `parallelMax` and `parallelMin` is still running after any number of rounds
(`input_elements / 1 > 1` stays true and `input_elements` stays 2), so no run completes. -/
theorem shrink_loop_spins_at_work_group_size_one (fuel : Nat) :
    parallelMean fuel 1 [1, 2] = .error ⟨Halt.outOfFuel, [2] ++ List.replicate fuel 2⟩ ∧
    parallelMax fuel 1 [1, 2] = .error ⟨Halt.outOfFuel, [2] ++ List.replicate fuel 2⟩ ∧
    parallelMin fuel 1 [1, 2] = .error ⟨Halt.outOfFuel, [2] ++ List.replicate fuel 2⟩ := by
  refine ⟨?_, ?_, ?_⟩
  · have h := reduceDriver_one reduce_add_6 0 fillLt 1 2 (by simp [reduce_add_6]) fuel
    simp only [parallelMean, h]
  · have h := reduceDriver_one reduce_max mytype.ninf fillNe (mytype.fin 1) (mytype.fin 2)
      (by intro x; cases x <;> simp [reduce_max, fmax, mytype.le]) fuel
    simp only [parallelMax, List.map_cons, List.map_nil, h]
  · have h := reduceDriver_one reduce_min mytype.pinf fillNe (mytype.fin 1) (mytype.fin 2)
      (by intro x; cases x <;> simp [reduce_min, fmin, mytype.le]) fuel
    simp only [parallelMin, List.map_cons, List.map_nil, h]

/-! ## Membership in an all-equal list -/

theorem eq_of_mem_replicate_cast (n : Nat) (c m : ℚ) (h : m ∈ List.replicate n c) : m = c :=
  (List.mem_replicate.1 h).2

/-! ## The global sizes of the dispatches -/

theorem shrinkLoop_step_fault {α : Type} (kernel : List α → α)
    (fill : Nat → Nat → List α → Except Halt (List α)) (W fuel : Nat) (s : Red α)
    (h : Halt) (hc : s.input_elements / W > W) (hp : s.input_elements / W % W ≠ 0)
    (hfill : fill (s.input_elements / W)
      (s.input_elements / W + (W - s.input_elements / W % W)) s.A = .error h) :
    shrinkLoop kernel fill W (fuel + 1) s = .error ⟨h, s.log⟩ := by
  rw [shrinkLoop]
  simp only [hc, if_true, hp, ne_eq, not_false_eq_true, hfill]

theorem head?_append_singleton (log : List Nat) (L n : Nat) (h : log.head? = some L) :
    (log ++ [n]).head? = some L := by
  cases log with
  | nil => simp at h
  | cons a t => simpa using h

/-- A round of the shrink loop that needs no padding keeps the size invariant. -/
theorem sizeInv_nopad {α : Type} (W L : Nat) (s : Red α) (A1 : List α) (hW : 1 ≤ W)
    (hs : SizeInv W L s) (hc : s.input_elements / W > W)
    (hp : s.input_elements / W % W = 0) :
    SizeInv W L
      (⟨A1, s.input_elements / W, s.log ++ [s.input_elements / W]⟩ : Red α) := by
  obtain ⟨dvd, le, pos, head, logok⟩ := hs
  have hdiv : s.input_elements / W ≤ s.input_elements := Nat.div_le_self _ _
  refine ⟨Nat.dvd_of_mod_eq_zero hp, ?_, ?_, head?_append_singleton _ _ _ head, ?_⟩
  · show s.input_elements / W ≤ L
    omega
  · show W ≤ s.input_elements / W
    omega
  · intro n hn
    rcases List.mem_append.1 hn with hn | hn
    · exact logok n hn
    · have hn2 : n = s.input_elements / W := by simpa using hn
      subst hn2
      exact ⟨by omega, Nat.dvd_of_mod_eq_zero hp, by omega⟩

/-- A round of the shrink loop that re-pads keeps the size invariant: the padded count
`live + needed` is a multiple of `W` and stays below the previous `input_elements`. -/
theorem sizeInv_pad {α : Type} (W L : Nat) (s : Red α) (A1 : List α) (hW : 1 ≤ W)
    (hs : SizeInv W L s) (hc : s.input_elements / W > W)
    (hp : s.input_elements / W % W ≠ 0) :
    SizeInv W L
      (⟨A1, s.input_elements / W + (W - s.input_elements / W % W),
        s.log ++ [s.input_elements / W + (W - s.input_elements / W % W)]⟩ : Red α) := by
  obtain ⟨dvd, le, pos, head, logok⟩ := hs
  have hie : W * (s.input_elements / W) = s.input_elements := Nat.mul_div_cancel' dvd
  have hmod : s.input_elements / W % W < W := Nat.mod_lt _ (by omega)
  have hdm : W * (s.input_elements / W / W) + s.input_elements / W % W
      = s.input_elements / W := Nat.div_add_mod _ _
  have hW2 : 2 ≤ W := by
    by_contra hlt
    have hW1 : W = 1 := by omega
    rw [hW1, Nat.mod_one] at hp
    exact hp rfl
  have h2 : 2 * (s.input_elements / W) ≤ W * (s.input_elements / W) :=
    Nat.mul_le_mul_right _ hW2
  have hdvd : W ∣ s.input_elements / W + (W - s.input_elements / W % W) := by
    refine ⟨s.input_elements / W / W + 1, ?_⟩
    rw [Nat.mul_succ]
    omega
  refine ⟨hdvd, ?_, ?_, head?_append_singleton _ _ _ head, ?_⟩
  · show s.input_elements / W + (W - s.input_elements / W % W) ≤ L
    omega
  · show W ≤ s.input_elements / W + (W - s.input_elements / W % W)
    omega
  · intro n hn
    rcases List.mem_append.1 hn with hn | hn
    · exact logok n hn
    · have hn2 : n = s.input_elements / W + (W - s.input_elements / W % W) := by
        simpa using hn
      subst hn2
      exact ⟨by omega, hdvd, by omega⟩

/-- The shrink loop keeps the size invariant, for every work-group size of at least 1 and
any fuel, whether it ends or stops. -/
theorem shrinkLoop_sizes {α : Type} (kernel : List α → α)
    (fill : Nat → Nat → List α → Except Halt (List α)) (W L : Nat) (hW : 1 ≤ W) :
    ∀ (fuel : Nat) (s : Red α), SizeInv W L s →
      (∀ s', shrinkLoop kernel fill W fuel s = .ok s' → SizeInv W L s') ∧
      (∀ f, shrinkLoop kernel fill W fuel s = .error f →
        f.log.head? = some L ∧ ∀ n ∈ f.log, 0 < n ∧ W ∣ n ∧ n ≤ L) := by
  intro fuel
  induction fuel with
  | zero =>
    intro s hs
    by_cases hc : s.input_elements / W > W
    · have hrun : shrinkLoop kernel fill W 0 s = .error ⟨Halt.outOfFuel, s.log⟩ := by
        simp only [shrinkLoop, hc, if_true]
      rw [hrun]
      refine ⟨fun s' h => (nomatch h), fun f h => ?_⟩
      cases h
      exact ⟨hs.head, hs.logok⟩
    · rw [shrinkLoop_exit kernel fill W 0 s hc]
      refine ⟨fun s' h => ?_, fun f h => nomatch h⟩
      cases h
      exact hs
  | succ fuel ih =>
    intro s hs
    by_cases hc : s.input_elements / W > W
    · by_cases hp : s.input_elements / W % W = 0
      · rw [shrinkLoop_step_nopad kernel fill W fuel s hc hp]
        exact ih _ (sizeInv_nopad W L s _ hW hs hc hp)
      · cases hfill : fill (s.input_elements / W)
            (s.input_elements / W + (W - s.input_elements / W % W)) s.A with
        | error h =>
          rw [shrinkLoop_step_fault kernel fill W fuel s h hc hp hfill]
          refine ⟨fun s' h' => (nomatch h'), fun f h' => ?_⟩
          cases h'
          exact ⟨hs.head, hs.logok⟩
        | ok A1 =>
          rw [shrinkLoop_step_pad kernel fill W fuel s A1 hc hp hfill]
          exact ih _ (sizeInv_pad W L s _ hW hs hc hp)
    · rw [shrinkLoop_exit kernel fill W _ s hc]
      refine ⟨fun s' h => ?_, fun f h => nomatch h⟩
      cases h
      exact hs

/-- The final pass adds at most the global size `W` to the sizes enqueued. -/
theorem finalPass_sizes {α : Type} (kernel : List α → α)
    (fill : Nat → Nat → List α → Except Halt (List α)) (W L : Nat) (hW : 1 ≤ W) (s : Red α)
    (hs : SizeInv W L s) :
    (dispatched (finalPass kernel fill W s)).head? = some L ∧
      ∀ n ∈ dispatched (finalPass kernel fill W s), 0 < n ∧ W ∣ n ∧ n ≤ L := by
  obtain ⟨dvd, le, pos, head, logok⟩ := hs
  have hall : ∀ n ∈ s.log ++ [W], 0 < n ∧ W ∣ n ∧ n ≤ L := by
    intro n hn
    rcases List.mem_append.1 hn with hn | hn
    · exact logok n hn
    · have hn2 : n = W := by simpa using hn
      subst hn2
      exact ⟨by omega, dvd_refl _, by omega⟩
  have hhead := head?_append_singleton s.log L W head
  unfold finalPass
  simp only
  cases fill (s.input_elements / W) W s.A with
  | error h => exact ⟨head, logok⟩
  | ok A1 =>
    simp only
    cases (dispatch kernel W W A1).head? with
    | none => exact ⟨hhead, hall⟩
    | some b => exact ⟨hhead, hall⟩

/-- Every global size a driver enqueues on a non-empty input, with any work-group size of at
least 1 and any fuel, is a positive multiple of `W` inside the padded vector, and the first
one is the padded length. -/
theorem reduceDriver_sizes {α : Type} (kernel : List α → α) (e : α)
    (fill : α → Nat → Nat → List α → Except Halt (List α)) (fuel W : Nat) (A : List α)
    (hA : A ≠ []) (hW : 1 ≤ W) :
    (dispatched (reduceDriver kernel e fill fuel W A)).head? = some (paddedLength W A.length) ∧
      ∀ n ∈ dispatched (reduceDriver kernel e fill fuel W A),
        0 < n ∧ W ∣ n ∧ n ≤ paddedLength W A.length := by
  have hN : 1 ≤ A.length := by
    cases A with
    | nil => exact absurd rfl hA
    | cons a t => simp
  obtain ⟨Ap, hAp, hlen⟩ : ∃ Ap : List α,
      (if A.length % W ≠ 0 then A ++ List.replicate (W - A.length % W) e else A) = Ap ∧
      Ap.length = paddedLength W A.length := by
    refine ⟨_, rfl, ?_⟩
    unfold paddedLength
    split_ifs <;> simp
  obtain ⟨hdvd, hle, _, _⟩ := paddedLength_facts W A.length hW hN
  have hinv : SizeInv W (paddedLength W A.length)
      (⟨dispatch kernel W Ap.length Ap, Ap.length, [Ap.length]⟩ : Red α) := by
    rw [hlen]
    refine ⟨hdvd, le_refl _, hle, rfl, ?_⟩
    intro n hn
    have hn2 : n = paddedLength W A.length := by simpa using hn
    subst hn2
    exact ⟨by omega, hdvd, le_refl _⟩
  obtain ⟨hok, herr⟩ := shrinkLoop_sizes kernel (fill e) W _ hW fuel _ hinv
  have hW0 : W ≠ 0 := by omega
  unfold reduceDriver
  simp only [hW0, if_false, hAp]
  cases hrun : shrinkLoop kernel (fill e) W fuel
      ⟨dispatch kernel W Ap.length Ap, Ap.length, [Ap.length]⟩ with
  | error f => exact herr f hrun
  | ok s => exact finalPass_sizes kernel (fill e) W _ hW s (hok s hrun)

theorem dispatched_parallelMean (fuel W : Nat) (A : List ℚ) :
    dispatched (parallelMean fuel W A)
      = dispatched (reduceDriver reduce_add_6 0 fillLt fuel W A) := by
  unfold parallelMean
  simp only
  cases reduceDriver reduce_add_6 0 fillLt fuel W A with
  | error f => rfl
  | ok d =>
    simp only
    split_ifs <;> rfl

/-- C11: in `parallelMean`, `parallelMax` and `parallelMin`, for every non-empty input, every
work-group size `W` of at least 1 and any fuel, every global size enqueued (the first pass,
the passes of the shrink loop, the final pass) is a positive exact multiple of `W` and is at
most the padded length of the vector; the first one is the padded length itself. -/
theorem dispatch_sizes_are_tiles (fuel W : Nat) (A : List ℚ) (hA : A ≠ []) (hW : 1 ≤ W) :
    ((dispatched (parallelMean fuel W A)).head? = some (paddedLength W A.length) ∧
      ∀ n ∈ dispatched (parallelMean fuel W A),
        0 < n ∧ W ∣ n ∧ n ≤ paddedLength W A.length) ∧
    ((dispatched (parallelMax fuel W A)).head? = some (paddedLength W A.length) ∧
      ∀ n ∈ dispatched (parallelMax fuel W A),
        0 < n ∧ W ∣ n ∧ n ≤ paddedLength W A.length) ∧
    ((dispatched (parallelMin fuel W A)).head? = some (paddedLength W A.length) ∧
      ∀ n ∈ dispatched (parallelMin fuel W A),
        0 < n ∧ W ∣ n ∧ n ≤ paddedLength W A.length) := by
  have hA' : A.map mytype.fin ≠ [] := by simpa using hA
  have h1 := reduceDriver_sizes reduce_add_6 0 fillLt fuel W A hA hW
  have h2 := reduceDriver_sizes reduce_max mytype.ninf fillNe fuel W (A.map mytype.fin) hA' hW
  have h3 := reduceDriver_sizes reduce_min mytype.pinf fillNe fuel W (A.map mytype.fin) hA' hW
  rw [List.length_map] at h2 h3
  rw [← dispatched_parallelMean] at h1
  exact ⟨h1, h2, h3⟩

set_option maxRecDepth 10000 in
theorem dispatch_sizes_are_tiles_witness :
    (dispatched (parallelMax 6 2 [1, 2, 3, 4, 5]) = [6, 4, 2] ∧ paddedLength 2 5 = 6 ∧
      dispatched (parallelMean 3 1 [1, 2]) = [2, 2, 2, 2]) ∧
    ((dispatched (parallelMean 6 2 [1, 2, 3, 4, 5])).head?
        = some (paddedLength 2 ([1, 2, 3, 4, 5] : List ℚ).length) ∧
      ∀ n ∈ dispatched (parallelMean 6 2 [1, 2, 3, 4, 5]),
        0 < n ∧ 2 ∣ n ∧ n ≤ paddedLength 2 ([1, 2, 3, 4, 5] : List ℚ).length) ∧
    ((dispatched (parallelMax 6 2 [1, 2, 3, 4, 5])).head?
        = some (paddedLength 2 ([1, 2, 3, 4, 5] : List ℚ).length) ∧
      ∀ n ∈ dispatched (parallelMax 6 2 [1, 2, 3, 4, 5]),
        0 < n ∧ 2 ∣ n ∧ n ≤ paddedLength 2 ([1, 2, 3, 4, 5] : List ℚ).length) ∧
    ((dispatched (parallelMin 6 2 [1, 2, 3, 4, 5])).head?
        = some (paddedLength 2 ([1, 2, 3, 4, 5] : List ℚ).length) ∧
      ∀ n ∈ dispatched (parallelMin 6 2 [1, 2, 3, 4, 5]),
        0 < n ∧ 2 ∣ n ∧ n ≤ paddedLength 2 ([1, 2, 3, 4, 5] : List ℚ).length) :=
  ⟨by
    refine ⟨?_, by decide, ?_⟩
    · norm_num [dispatched, parallelMax, reduceDriver, shrinkLoop, finalPass, dispatch, blocks,
        fillNe, fillLoop, reduce_max, fmax, mytype.le]
    · norm_num [dispatched, parallelMean, reduceDriver, shrinkLoop, finalPass, dispatch,
        blocks, fillLt, fillLoop, reduce_add_6],
    dispatch_sizes_are_tiles 6 2 [1, 2, 3, 4, 5] (by simp) (by decide)⟩

/-! ## Host-side writes stay inside the working vector -/

theorem FillsWith.within {α : Type} {fill : Nat → Nat → List α → Except Halt (List α)}
    {e : α} (h : FillsWith fill e) (L : Nat) : FillsWithin L fill e :=
  fun lo hi A _ hle _ _ => h lo hi A hle

theorem FillsWith.guarded {α : Type} {fill : Nat → Nat → List α → Except Halt (List α)}
    {e : α} (h : FillsWith fill e) (L : Nat) : FillsWithin L (fillWithin L fill) e := by
  intro lo hi A h1 h2 h3 h4
  unfold fillWithin
  rw [if_pos ⟨h1, h2, h3, h4⟩]
  exact h lo hi A h2

/-- Two fill loops that agree on the ranges inside a vector of length `L` give the same run
of the shrink loop, for any fuel: the loop only ever fills such ranges. -/
theorem shrinkLoop_congr {α : Type} (kernel : List α → α)
    (f g : Nat → Nat → List α → Except Halt (List α)) (e : α) (W L : Nat) (hW : 1 ≤ W)
    (hf : FillsWithin L f e) (hg : FillsWithin L g e) :
    ∀ (fuel : Nat) (s : Red α), SizeInv W L s → s.A.length = L →
      shrinkLoop kernel f W fuel s = shrinkLoop kernel g W fuel s := by
  intro fuel
  induction fuel with
  | zero =>
    intro s _ _
    simp only [shrinkLoop]
  | succ fuel ih =>
    intro s hs hlen
    by_cases hc : s.input_elements / W > W
    · have hdiv : s.input_elements / W ≤ s.input_elements := Nat.div_le_self _ _
      have hle := hs.le
      by_cases hp : s.input_elements / W % W = 0
      · rw [shrinkLoop_step_nopad kernel f W fuel s hc hp,
          shrinkLoop_step_nopad kernel g W fuel s hc hp]
        apply ih _ (sizeInv_nopad W L s _ hW hs hc hp)
        show (dispatch kernel W (s.input_elements / W) s.A).length = L
        rw [length_dispatch, hlen]
        have := Nat.div_le_self (s.input_elements / W) W
        omega
      · have hnext := sizeInv_pad W L s s.A hW hs hc hp
        have hhi : s.input_elements / W + (W - s.input_elements / W % W) ≤ L := hnext.le
        have hbound : s.input_elements / W + (W - s.input_elements / W % W) ≤ s.A.length := by
          omega
        have hlo : 1 ≤ s.input_elements / W := by omega
        have hfill : fillLoop e
            (s.input_elements / W + (W - s.input_elements / W % W) - s.input_elements / W)
            (s.input_elements / W) s.A
            = .ok (s.A.take (s.input_elements / W)
                ++ List.replicate (W - s.input_elements / W % W) e
                ++ s.A.drop (s.input_elements / W + (W - s.input_elements / W % W))) := by
          rw [Nat.add_sub_cancel_left]
          exact fillLoop_eq e _ _ _ hbound
        have hf' := hf _ _ s.A hlo (Nat.le_add_right _ _) hhi hlen
        have hg' := hg _ _ s.A hlo (Nat.le_add_right _ _) hhi hlen
        rw [hfill] at hf' hg'
        rw [shrinkLoop_step_pad kernel f W fuel s _ hc hp hf',
          shrinkLoop_step_pad kernel g W fuel s _ hc hp hg']
        apply ih _ (sizeInv_pad W L s _ hW hs hc hp)
        show (dispatch kernel W _ _).length = L
        rw [length_dispatch, length_fill e _ _ _ hbound, hlen]
        rw [length_fill e _ _ _ hbound]
        have := Nat.div_le_self (s.input_elements / W + (W - s.input_elements / W % W)) W
        omega
    · rw [shrinkLoop_exit kernel f W _ s hc, shrinkLoop_exit kernel g W _ s hc]

/-- Two fill loops that agree on the ranges inside a vector of length `L` give the same
final pass on a state the shrink loop has left. -/
theorem finalPass_congr {α : Type} (kernel : List α → α)
    (f g : Nat → Nat → List α → Except Halt (List α)) (e : α) (W L : Nat)
    (hf : FillsWithin L f e) (hg : FillsWithin L g e) (s : Red α)
    (hlen : s.A.length = L) (h1 : 1 ≤ s.input_elements / W)
    (h2 : s.input_elements / W ≤ W) (h3 : W ≤ L) :
    finalPass kernel f W s = finalPass kernel g W s := by
  unfold finalPass
  simp only [hf _ _ s.A h1 h2 h3 hlen, hg _ _ s.A h1 h2 h3 hlen]

/-- For a non-empty input and a work-group size of at least 2, with enough fuel, the driver
returns the same value when its fill loops are put under guard: every range it fills, in the
shrink rounds and in the final pass, satisfies `1 <= lo <= hi <= L` on a vector of length
`L`, the padded length. -/
theorem reduceDriver_guarded {α : Type} {kernel : List α → α} {op : α → α → α} {e : α}
    {fill : α → Nat → Nat → List α → Except Halt (List α)}
    (hk : IsReduction kernel op e) (hf : FillsWith (fill e) e)
    (fuel W : Nat) (A : List α) (hA : A ≠ []) (hW : 2 ≤ W) (hfuel : A.length + W ≤ fuel) :
    ∃ log, reduceDriver kernel e fill fuel W A = .ok ⟨kernel A, log⟩ ∧
      reduceDriver kernel e (fun v => fillWithin (paddedLength W A.length) (fill v)) fuel W A
        = .ok ⟨kernel A, log⟩ := by
  have hN : 1 ≤ A.length := by
    cases A with
    | nil => exact absurd rfl hA
    | cons a t => simp
  obtain ⟨log, hrun, _⟩ := reduceDriver_spec hk hf fuel W A hA hW hfuel
  refine ⟨log, hrun, ?_⟩
  rw [← hrun]
  obtain ⟨Ap, hAp, hlen, hval⟩ : ∃ Ap : List α,
      (if A.length % W ≠ 0 then A ++ List.replicate (W - A.length % W) e else A) = Ap ∧
      Ap.length = paddedLength W A.length ∧ kernel Ap = kernel A := by
    refine ⟨_, rfl, ?_, ?_⟩
    · unfold paddedLength
      split_ifs <;> simp
    · split_ifs
      · exact hk.pad _ _
      · rfl
  obtain ⟨hdvd, hle, _, hlt⟩ := paddedLength_facts W A.length (by omega) hN
  have hsize : SizeInv W (paddedLength W A.length)
      (⟨dispatch kernel W Ap.length Ap, Ap.length, [Ap.length]⟩ : Red α) := by
    rw [hlen]
    refine ⟨hdvd, le_refl _, hle, rfl, ?_⟩
    intro n hn
    have hn2 : n = paddedLength W A.length := by simpa using hn
    subst hn2
    exact ⟨by omega, hdvd, le_refl _⟩
  have hinv : Inv kernel W (paddedLength W A.length) (kernel A)
      ⟨dispatch kernel W Ap.length Ap, Ap.length, [Ap.length]⟩ := by
    refine ⟨?_, by rw [hlen]; exact hdvd, hlen.le, by rw [hlen]; exact hle, ?_, ?_⟩
    · show (dispatch kernel W Ap.length Ap).length = _
      rw [length_dispatch _ _ _ _ (Nat.div_le_self _ _), hlen]
    · show kernel ((dispatch kernel W Ap.length Ap).take (Ap.length / W)) = kernel A
      rw [hk.dispatch W _ _ (by rw [hlen]; exact hdvd), List.take_length, hval]
    · intro n hn
      have hn2 : n = Ap.length := by simpa using hn
      subst hn2
      rw [hlen]
      exact ⟨by omega, hdvd, le_refl _⟩
  obtain ⟨s', hloop, hinv', hexit⟩ :=
    shrinkLoop_spec hW hk hf fuel _ hinv (show Ap.length ≤ fuel by omega)
  have hcongr := shrinkLoop_congr kernel
    (fillWithin (paddedLength W A.length) (fill e)) (fill e) e W (paddedLength W A.length)
    (by omega) (hf.guarded _) (hf.within _) fuel _ hsize hinv.len
  have hstart : 1 ≤ s'.input_elements / W :=
    (Nat.one_le_div_iff (by omega)).2 hinv'.pos
  have hfinal := finalPass_congr kernel
    (fillWithin (paddedLength W A.length) (fill e)) (fill e) e W (paddedLength W A.length)
    (hf.guarded _) (hf.within _) s' hinv'.len hstart hexit (by omega)
  have hW0 : W ≠ 0 := by omega
  unfold reduceDriver
  simp only [hW0, if_false, hAp, hcongr, hloop, hfinal]

/-- C13: for a non-empty input of length `N` and a work-group size `W` of at least 2 (with
enough fuel), every host-side write of `parallelMax`, `parallelMin` and `parallelMean` stays
inside the working vector of padded length `L`: each driver returns the same value when its
fill loops are put under the guard `1 <= lo <= hi <= L` on a vector of length `L`.  So each
shrink round re-pads a range `[live, live + needed)` with `live + needed <= L`, and the final
pass fills `[start, W)` with `1 <= start <= W <= L`; the `!=` loop of `parallelMax` and
`parallelMin` starts at or below its bound and cannot run past `W`. -/
theorem host_writes_in_bounds (fuel W : Nat) (A : List ℚ) (hA : A ≠ []) (hW : 2 ≤ W)
    (hfuel : A.length + W ≤ fuel) :
    W ≤ paddedLength W A.length ∧
    (∃ d, parallelMax fuel W A = .ok d ∧
      reduceDriver reduce_max mytype.ninf
        (fun v => fillWithin (paddedLength W A.length) (fillNe v)) fuel W (A.map mytype.fin)
        = .ok d) ∧
    (∃ d, parallelMin fuel W A = .ok d ∧
      reduceDriver reduce_min mytype.pinf
        (fun v => fillWithin (paddedLength W A.length) (fillNe v)) fuel W (A.map mytype.fin)
        = .ok d) ∧
    (∃ d, parallelMean fuel W A = .ok ⟨d.value / A.length, d.log⟩ ∧
      reduceDriver reduce_add_6 0 fillLt fuel W A = .ok d ∧
      reduceDriver reduce_add_6 0
        (fun v => fillWithin (paddedLength W A.length) (fillLt v)) fuel W A = .ok d) := by
  have hN : 1 ≤ A.length := by
    cases A with
    | nil => exact absurd rfl hA
    | cons a t => simp
  have hA' : A.map mytype.fin ≠ [] := by simpa using hA
  obtain ⟨_, hle, _, _⟩ := paddedLength_facts W A.length (by omega) hN
  obtain ⟨l1, h1, g1⟩ := reduceDriver_guarded reduce_max_isReduction
    (fillNe_fillsWith mytype.ninf) fuel W (A.map mytype.fin) hA' hW (by simpa using hfuel)
  obtain ⟨l2, h2, g2⟩ := reduceDriver_guarded reduce_min_isReduction
    (fillNe_fillsWith mytype.pinf) fuel W (A.map mytype.fin) hA' hW (by simpa using hfuel)
  obtain ⟨l3, h3, g3⟩ := reduceDriver_guarded reduce_add_6_isReduction
    (fillLt_fillsWith (0 : ℚ)) fuel W A hA hW hfuel
  rw [List.length_map] at g1 g2
  have hN0 : A.length ≠ 0 := by omega
  refine ⟨hle, ⟨_, h1, g1⟩, ⟨_, h2, g2⟩, ⟨_, ?_, h3, g3⟩⟩
  simp only [parallelMean, h3, hN0, if_false]

set_option maxRecDepth 10000 in
theorem host_writes_in_bounds_witness :
    (paddedLength 2 5 = 6 ∧
      reduceDriver reduce_max mytype.ninf (fun v => fillWithin 6 (fillNe v)) 7 2
          (([1, 2, 3, 4, 5] : List ℚ).map mytype.fin) = .ok ⟨mytype.fin 5, [6, 4, 2]⟩ ∧
      reduceDriver reduce_max mytype.ninf (fun v => fillWithin 3 (fillNe v)) 7 2
          (([1, 2, 3, 4, 5] : List ℚ).map mytype.fin)
        = .error ⟨Halt.outOfBounds, [6]⟩) ∧
    (2 ≤ paddedLength 2 ([1, 2, 3, 4, 5] : List ℚ).length ∧
    (∃ d, parallelMax 7 2 [1, 2, 3, 4, 5] = .ok d ∧
      reduceDriver reduce_max mytype.ninf
        (fun v => fillWithin (paddedLength 2 ([1, 2, 3, 4, 5] : List ℚ).length) (fillNe v))
        7 2 (([1, 2, 3, 4, 5] : List ℚ).map mytype.fin) = .ok d) ∧
    (∃ d, parallelMin 7 2 [1, 2, 3, 4, 5] = .ok d ∧
      reduceDriver reduce_min mytype.pinf
        (fun v => fillWithin (paddedLength 2 ([1, 2, 3, 4, 5] : List ℚ).length) (fillNe v))
        7 2 (([1, 2, 3, 4, 5] : List ℚ).map mytype.fin) = .ok d) ∧
    (∃ d, parallelMean 7 2 [1, 2, 3, 4, 5]
        = .ok ⟨d.value / ([1, 2, 3, 4, 5] : List ℚ).length, d.log⟩ ∧
      reduceDriver reduce_add_6 0 fillLt 7 2 [1, 2, 3, 4, 5] = .ok d ∧
      reduceDriver reduce_add_6 0
        (fun v => fillWithin (paddedLength 2 ([1, 2, 3, 4, 5] : List ℚ).length) (fillLt v))
        7 2 [1, 2, 3, 4, 5] = .ok d)) :=
  ⟨by
    refine ⟨by decide, ?_, ?_⟩
    · norm_num [reduceDriver, shrinkLoop, finalPass, dispatch, blocks, fillWithin, fillNe,
        fillLoop, reduce_max, fmax, mytype.le]
    · norm_num [reduceDriver, shrinkLoop, finalPass, dispatch, blocks, fillWithin, fillNe,
        fillLoop, reduce_max, fmax, mytype.le],
    host_writes_in_bounds 7 2 [1, 2, 3, 4, 5] (by simp) (by decide) (by decide)⟩

/-! ## Facts about the float rounding -/

theorem log2_eq (q : ℚ) (e : Int) (h1 : (2 : ℚ) ^ e ≤ q) (h2 : q < (2 : ℚ) ^ (e + 1)) :
    Int.log 2 q = e := by
  have hpos : (0 : ℚ) < q := lt_of_lt_of_le (by positivity) h1
  have ha : e ≤ Int.log 2 q :=
    (Int.zpow_le_iff_le_log (by norm_num) hpos).1 (by exact_mod_cast h1)
  have hb : Int.log 2 q < e + 1 :=
    (Int.lt_zpow_iff_log_lt (by norm_num) hpos).1 (by exact_mod_cast h2)
  omega

theorem roundEven_intCast (z : Int) : roundEven (z : ℚ) = z := by
  simp [roundEven]

/-- The value `f32` gives to `q`, from the binade `2^e <= |q| < 2^(e+1)` of `q` and the
rounding `r` of its significand. -/
theorem f32_eq (q : ℚ) (e r : Int) (h1 : (2 : ℚ) ^ e ≤ |q|) (h2 : |q| < (2 : ℚ) ^ (e + 1))
    (he : -126 ≤ e) (hr : roundEven (q / (2 : ℚ) ^ (e - 23)) = r)
    (hov : |(r : ℚ) * (2 : ℚ) ^ (e - 23)| < (2 : ℚ) ^ (128 : Int)) :
    f32 q = mytype.fin ((r : ℚ) * (2 : ℚ) ^ (e - 23)) := by
  have hq : q ≠ 0 := by
    intro h
    rw [h, abs_zero] at h1
    have : (0 : ℚ) < (2 : ℚ) ^ e := by positivity
    linarith
  have hlog : Int.log 2 |q| = e := log2_eq |q| e h1 h2
  have hmax : max e (-126) = e := max_eq_left he
  unfold f32
  rw [if_neg hq, hlog, hmax, hr, if_neg (not_le.2 hov)]

/-- A value with a 24-bit significand `m` and an exponent in the normal range is a float:
`f32` leaves it alone. -/
theorem f32_scaled (m e : Int) (hm1 : 2 ^ 23 ≤ |m|) (hm2 : |m| < 2 ^ 24) (he : -126 ≤ e)
    (he2 : e ≤ 127) : f32 ((m : ℚ) * (2 : ℚ) ^ (e - 23)) = mytype.fin ((m : ℚ) * (2 : ℚ) ^ (e - 23)) := by
  have hu : (0 : ℚ) < (2 : ℚ) ^ (e - 23) := by positivity
  have habs : |(m : ℚ) * (2 : ℚ) ^ (e - 23)| = (|m| : Int) * (2 : ℚ) ^ (e - 23) := by
    rw [abs_mul, abs_of_pos hu, Int.cast_abs]
  have h23 : (2 : ℚ) ^ e = (2 : ℚ) ^ (23 : Int) * (2 : ℚ) ^ (e - 23) := by
    rw [← zpow_add₀ (by norm_num : (2 : ℚ) ≠ 0)]
    congr 1
    omega
  have h24 : (2 : ℚ) ^ (e + 1) = (2 : ℚ) ^ (24 : Int) * (2 : ℚ) ^ (e - 23) := by
    rw [← zpow_add₀ (by norm_num : (2 : ℚ) ≠ 0)]
    congr 1
    omega
  have hm1' : ((2 : ℚ) ^ (23 : Int)) ≤ ((|m| : Int) : ℚ) := by
    have e23 : (2 : ℚ) ^ (23 : Int) = ((2 ^ 23 : Int) : ℚ) := by norm_num
    rw [e23]
    exact Int.cast_le.2 hm1
  have hm2' : ((|m| : Int) : ℚ) < (2 : ℚ) ^ (24 : Int) := by
    have e24 : (2 : ℚ) ^ (24 : Int) = ((2 ^ 24 : Int) : ℚ) := by norm_num
    rw [e24]
    exact Int.cast_lt.2 hm2
  apply f32_eq _ e m
  · rw [habs, h23]
    exact mul_le_mul_of_nonneg_right hm1' hu.le
  · rw [habs, h24]
    exact mul_lt_mul_of_pos_right hm2' hu
  · exact he
  · rw [mul_div_assoc, div_self hu.ne', mul_one, roundEven_intCast]
  · rw [habs]
    have h128 : (2 : ℚ) ^ (128 : Int) = (2 : ℚ) ^ (24 : Int) * (2 : ℚ) ^ (104 : Int) := by
      rw [← zpow_add₀ (by norm_num : (2 : ℚ) ≠ 0)]
      norm_num
    have hle : (2 : ℚ) ^ (e - 23) ≤ (2 : ℚ) ^ (104 : Int) :=
      zpow_le_zpow_right₀ (by norm_num) (by omega)
    rw [h128]
    calc ((|m| : Int) : ℚ) * (2 : ℚ) ^ (e - 23)
        < (2 : ℚ) ^ (24 : Int) * (2 : ℚ) ^ (e - 23) := mul_lt_mul_of_pos_right hm2' hu
      _ ≤ (2 : ℚ) ^ (24 : Int) * (2 : ℚ) ^ (104 : Int) :=
        mul_le_mul_of_nonneg_left hle (by positivity)

theorem f32_zero : f32 0 = mytype.fin 0 := by
  simp [f32]

/-! ## The histogram in exact arithmetic -/

theorem hist_index_exact (bw mn x : ℚ) (hbw : bw ≠ 0) :
    hist_index exact (some (mytype.fin bw)) (some (mytype.fin mn)) (some (mytype.fin x))
      = some (binIndex bw mn x) := by
  simp [hist_index, fsub, fdiv, exact, hbw, binIndex]

theorem hist_item_exact (B : Int) (bw mn : ℚ) (H : List Nat) (x : ℚ) (hbw : bw ≠ 0) :
    hist_item exact B (some (mytype.fin bw)) (some (mytype.fin mn)) H (some (mytype.fin x))
      = binItem B bw mn H x := by
  unfold hist_item binItem
  rw [hist_index_exact bw mn x hbw]

theorem hist_atomic_exact (B : Int) (bw mn : ℚ) (A : List ℚ) (H : List Nat) (hbw : bw ≠ 0) :
    hist_atomic exact B (some (mytype.fin bw)) (some (mytype.fin mn))
        (A.map (fun x => some (mytype.fin x))) H
      = binFold B bw mn A H := by
  unfold hist_atomic binFold
  induction A generalizing H with
  | nil => rfl
  | cons x xs ih =>
    simp only [List.map_cons, List.foldl_cons]
    rw [hist_item_exact B bw mn H x hbw]
    exact ih _

/-- What `parallelHistogram` returns in exact arithmetic once the two reductions have
returned the finite values `lo <= hi`: the bin parameters are the exact ones and the bin array
is the exact dispatch over the padded samples. -/
theorem parallelHistogramWith_exact (fuel Wmin Wmax W : Nat) (A : List ℚ) (B : Int)
    (lo hi : ℚ) (l1 l2 : List Nat)
    (hmin : parallelMin fuel Wmin A = .ok ⟨mytype.fin lo, l1⟩)
    (hmax : parallelMax fuel Wmax A = .ok ⟨mytype.fin hi, l2⟩) (hle : lo ≤ hi)
    (hB : 1 ≤ B) (hW : 1 ≤ W) :
    parallelHistogramWith exact fuel Wmin Wmax W A B
      = .ok ⟨some (mytype.fin ⌊lo⌋), some (mytype.fin (⌈hi⌉ + 1)),
          some (mytype.fin (((⌈hi⌉ : ℚ) + 1 - ⌊lo⌋) / B)),
          binFold B (((⌈hi⌉ : ℚ) + 1 - ⌊lo⌋) / B) ⌊lo⌋
            (histPadded W ((⌈hi⌉ : ℚ) + 1 + 1) A) (List.replicate B.toNat 0)⟩ := by
  have hB0 : (B : ℚ) ≠ 0 := by exact_mod_cast (show B ≠ 0 by omega)
  have hBneg : ¬ B < 0 := by omega
  have hW0 : W ≠ 0 := by omega
  have hbw : ((⌈hi⌉ : ℚ) + 1 - ⌊lo⌋) / B ≠ 0 :=
    (bin_width_pos ⌊lo⌋ ((⌈hi⌉ : ℚ) + 1) B (floor_lt_ceil_add_one lo hi hle) hB).ne'
  have hpad : (if A.length % W ≠ 0 then
        A.map (fun x => some (mytype.fin x))
          ++ List.replicate (W - A.length % W) (some (mytype.fin ((⌈hi⌉ : ℚ) + 1 + 1)))
      else A.map (fun x => some (mytype.fin x)))
      = (histPadded W ((⌈hi⌉ : ℚ) + 1 + 1) A).map (fun x => some (mytype.fin x)) := by
    unfold histPadded
    split_ifs <;> simp
  unfold parallelHistogramWith
  simp only [hmin, hmax, hBneg, hW0, if_false, ffloor, fceil, fadd, fsub, fdiv, exact, hB0,
    hpad]
  rw [hist_atomic_exact B _ _ _ _ hbw]

/-! ## One sample and work-group size 1 -/

/-- With work-group size 1 the driver ends on a one-element input: no padding, the shrink
loop is skipped, the final fill is empty. -/
theorem reduceDriver_singleton {α : Type} {kernel : List α → α} {op : α → α → α} {e : α}
    {fill : α → Nat → Nat → List α → Except Halt (List α)}
    (hk : IsReduction kernel op e) (hf : FillsWith (fill e) e) (fuel : Nat) (a : α) :
    reduceDriver kernel e fill fuel 1 [a] = .ok ⟨a, [1, 1]⟩ := by
  have hone : ∀ x : α, kernel [x] = x := by
    intro x
    rw [hk.cons, hk.nil, hk.right_id]
  have hd : ∀ x : α, dispatch kernel 1 1 [x] = [x] := by
    intro x
    simp [dispatch, blocks, hone]
  have hexit : shrinkLoop kernel (fill e) 1 fuel ⟨[a], 1, [1]⟩ = .ok ⟨[a], 1, [1]⟩ :=
    shrinkLoop_exit kernel (fill e) 1 fuel _ (by simp)
  have hfill : fill e 1 1 [a] = .ok [a] := by
    rw [hf 1 1 [a] (le_refl _)]
    rfl
  unfold reduceDriver
  simp only [one_ne_zero, if_false, List.length_cons, List.length_nil, Nat.mod_one, ne_eq,
    not_true_eq_false, hd, hexit]
  simp only [finalPass, Nat.div_self, hfill, hd]
  rfl

theorem eq_singleton_of_length_one {α : Type} (A : List α) (h : A.length = 1) :
    ∃ a, A = [a] := by
  match A, h with
  | [a], _ => exact ⟨a, rfl⟩

/-- The value `parallelMax` returns in every run that ends: the largest sample. -/
theorem parallelMax_ends (fuel W : Nat) (A : List ℚ) (hA : A ≠ [])
    (hW : 2 ≤ W ∨ (W = 1 ∧ A.length = 1)) (hfuel : A.length + W ≤ fuel) :
    ∃ m log, parallelMax fuel W A = .ok ⟨mytype.fin m, log⟩ ∧ m ∈ A ∧ ∀ x ∈ A, x ≤ m := by
  rcases hW with hW | ⟨hW, hlen⟩
  · exact parallelMax_spec fuel W A hA hW hfuel
  · obtain ⟨a, rfl⟩ := eq_singleton_of_length_one A hlen
    subst hW
    refine ⟨a, [1, 1], ?_, by simp, by simp⟩
    unfold parallelMax
    exact reduceDriver_singleton reduce_max_isReduction (fillNe_fillsWith _) fuel _

/-- The value `parallelMin` returns in every run that ends: the smallest sample. -/
theorem parallelMin_ends (fuel W : Nat) (A : List ℚ) (hA : A ≠ [])
    (hW : 2 ≤ W ∨ (W = 1 ∧ A.length = 1)) (hfuel : A.length + W ≤ fuel) :
    ∃ m log, parallelMin fuel W A = .ok ⟨mytype.fin m, log⟩ ∧ m ∈ A ∧ ∀ x ∈ A, m ≤ x := by
  rcases hW with hW | ⟨hW, hlen⟩
  · exact parallelMin_spec fuel W A hA hW hfuel
  · obtain ⟨a, rfl⟩ := eq_singleton_of_length_one A hlen
    subst hW
    refine ⟨a, [1, 1], ?_, by simp, by simp⟩
    unfold parallelMin
    exact reduceDriver_singleton reduce_min_isReduction (fillNe_fillsWith _) fuel _

/-! ## The true maximum in exact arithmetic -/

/-- In exact arithmetic, whatever the magnitude of the samples: for a non-empty sample
sequence, a bin count `B` of at least 1 and every run in which the two reductions end, the
bin index of the true maximum lies in `[0, B - 1]`; it is `B - 1` exactly when
`B * (max - maximum) <= max - min`. -/
theorem maximum_index_exact (fuel Wmin Wmax W : Nat) (A : List ℚ) (B : Int)
    (hA : A ≠ []) (hB : 1 ≤ B) (hW : 1 ≤ W)
    (hWmin : 2 ≤ Wmin ∨ (Wmin = 1 ∧ A.length = 1))
    (hWmax : 2 ≤ Wmax ∨ (Wmax = 1 ∧ A.length = 1))
    (hfmin : A.length + Wmin ≤ fuel) (hfmax : A.length + Wmax ≤ fuel) :
    ∃ hi l2 mn mx bw H idx, parallelMax fuel Wmax A = .ok ⟨mytype.fin hi, l2⟩ ∧
      parallelHistogramWith exact fuel Wmin Wmax W A B
        = .ok ⟨some (mytype.fin mn), some (mytype.fin mx), some (mytype.fin bw), H⟩ ∧
      hist_index exact (some (mytype.fin bw)) (some (mytype.fin mn)) (some (mytype.fin hi))
        = some idx ∧
      0 ≤ idx ∧ idx ≤ B - 1 ∧ (idx = B - 1 ↔ B * (mx - hi) ≤ mx - mn) := by
  obtain ⟨lo, l1, h1, hlomem, hlo⟩ := parallelMin_ends fuel Wmin A hA hWmin hfmin
  obtain ⟨hi, l2, h2, himem, hhi⟩ := parallelMax_ends fuel Wmax A hA hWmax hfmax
  have hlt := floor_lt_ceil_add_one lo hi (hlo hi himem)
  have hin := samples_inside A lo hi hlo hhi hi himem
  have hidx := binIndex_inside ⌊lo⌋ ((⌈hi⌉ : ℚ) + 1) hi B hB hin.1 hin.2
  have hbw := bin_width_pos ⌊lo⌋ ((⌈hi⌉ : ℚ) + 1) B hlt hB
  have hmul := bin_width_mul ⌊lo⌋ ((⌈hi⌉ : ℚ) + 1) B hB
  have hBpos : (0 : ℚ) < B := by exact_mod_cast (show (0 : Int) < B by omega)
  refine ⟨hi, l2, _, _, _, _, _, h2,
    parallelHistogramWith_exact fuel Wmin Wmax W A B lo hi l1 l2 h1 h2 (hlo hi himem) hB hW,
    hist_index_exact _ _ _ hbw.ne', hidx.1, Int.le_sub_one_of_lt hidx.2, ?_⟩
  show binIndex (((⌈hi⌉ : ℚ) + 1 - ⌊lo⌋) / B) ⌊lo⌋ hi = B - 1
    ↔ (B : ℚ) * ((⌈hi⌉ : ℚ) + 1 - hi) ≤ (⌈hi⌉ : ℚ) + 1 - ⌊lo⌋
  rw [binIndex_eq_iff _ _ _ _ hbw]
  push_cast
  constructor
  · rintro ⟨h3, _⟩
    nlinarith
  · intro h3
    have h4 : (⌈hi⌉ : ℚ) + 1 - hi ≤ ((⌈hi⌉ : ℚ) + 1 - ⌊lo⌋) / B := by
      rw [le_div_iff₀ hBpos]
      linarith
    constructor
    · linarith
    · linarith

/-! ## All-equal input in exact arithmetic -/

/-- In exact arithmetic, whatever the magnitude of the common value: for an all-equal input
whose common value is an integer `c`, the three reductions return `c`, `parallelHistogram`
derives `min = c`, `max = c + 1` and `bin_width = 1 / B > 0`, and all counts are in bin 0. -/
theorem replicate_histogram_exact (fuel Wmin Wmean Wmax W n : Nat) (c B : Int) (hn : 1 ≤ n)
    (hB : 1 ≤ B) (hW : 1 ≤ W) (hWmin : 2 ≤ Wmin) (hWmean : 2 ≤ Wmean) (hWmax : 2 ≤ Wmax)
    (hfmin : n + Wmin ≤ fuel) (hfmean : n + Wmean ≤ fuel) (hfmax : n + Wmax ≤ fuel) :
    (∃ log, parallelMin fuel Wmin (List.replicate n (c : ℚ)) = .ok ⟨mytype.fin c, log⟩) ∧
    (∃ log, parallelMax fuel Wmax (List.replicate n (c : ℚ)) = .ok ⟨mytype.fin c, log⟩) ∧
    (∃ log, parallelMean fuel Wmean (List.replicate n (c : ℚ)) = .ok ⟨c, log⟩) ∧
    parallelHistogramWith exact fuel Wmin Wmax W (List.replicate n (c : ℚ)) B
      = .ok ⟨some (mytype.fin c), some (mytype.fin (c + 1)), some (mytype.fin (1 / B)),
          n :: List.replicate (B.toNat - 1) 0⟩ ∧
    (0 : ℚ) < 1 / B := by
  have hA : List.replicate n (c : ℚ) ≠ [] := by
    intro h
    have := congrArg List.length h
    simp at this
    omega
  have hlen : (List.replicate n (c : ℚ)).length = n := List.length_replicate _ _
  obtain ⟨lo, l1, h1, hlomem, _⟩ := parallelMin_spec fuel Wmin _ hA hWmin (by rw [hlen]; exact hfmin)
  obtain ⟨hi, l2, h2, himem, _⟩ := parallelMax_spec fuel Wmax _ hA hWmax (by rw [hlen]; exact hfmax)
  obtain ⟨l3, h3⟩ := parallelMean_spec fuel Wmean _ hA hWmean (by rw [hlen]; exact hfmean)
  have hlo := eq_of_mem_replicate_cast n c lo hlomem
  have hhi := eq_of_mem_replicate_cast n c hi himem
  subst hlo
  subst hhi
  have hBpos : (0 : ℚ) < B := by exact_mod_cast (show (0 : Int) < B by omega)
  have hnpos : (0 : ℚ) < n := by exact_mod_cast (show 0 < n by omega)
  refine ⟨⟨l1, h1⟩, ⟨l2, h2⟩, ⟨l3, ?_⟩, ?_, by positivity⟩
  · rw [h3]
    congr 2
    rw [hlen, List.sum_replicate, nsmul_eq_mul]
    field_simp
  · have hbw : ((c : ℚ) + 1 - c) / B = 1 / B := by ring
    obtain ⟨k, hk⟩ := histPadded_eq W ((c : ℚ) + 1 + 1) (List.replicate n (c : ℚ))
    have hidx : ∀ bw : ℚ, binIndex bw c c = 0 := by
      intro bw
      simp [binIndex]
    obtain ⟨b, hb⟩ : ∃ b : Nat, B.toNat = b + 1 := ⟨B.toNat - 1, by omega⟩
    rw [parallelHistogramWith_exact fuel Wmin Wmax W _ B c c l1 l2 h1 h2 (le_refl _) hB hW]
    simp only [Int.floor_intCast, Int.ceil_intCast]
    rw [hk, binFold_padded _ B c ((c : ℚ) + 1) k hB (by linarith)]
    simp only [List.countP_replicate, hidx, hbw, hb, Nat.add_sub_cancel]
    congr 2
    rw [List.range_succ_eq_map]
    simp only [List.map_cons, List.map_map]
    congr 1
    apply List.ext_getElem?
    intro j
    by_cases hj : j < b
    · simp [List.getElem?_replicate, List.getElem?_range, hj]
      omega
    · simp [List.getElem?_replicate, hj]
      omega

/-! ## Values of the float rounding -/

theorem f32_half : f32 (1 / 2) = mytype.fin (1 / 2) := by
  have h := f32_scaled 8388608 (-1) (by norm_num) (by norm_num) (by norm_num) (by norm_num)
  norm_num at h
  norm_num
  exact h

theorem f32_one : f32 1 = mytype.fin 1 := by
  have h := f32_scaled 8388608 0 (by norm_num) (by norm_num) (by norm_num) (by norm_num)
  norm_num at h
  exact h

theorem f32_two : f32 2 = mytype.fin 2 := by
  have h := f32_scaled 8388608 1 (by norm_num) (by norm_num) (by norm_num) (by norm_num)
  norm_num at h
  exact h

theorem f32_three : f32 3 = mytype.fin 3 := by
  have h := f32_scaled 12582912 1 (by norm_num) (by norm_num) (by norm_num) (by norm_num)
  norm_num at h
  exact h

theorem f32_four : f32 4 = mytype.fin 4 := by
  have h := f32_scaled 8388608 2 (by norm_num) (by norm_num) (by norm_num) (by norm_num)
  norm_num at h
  exact h

theorem f32_seven : f32 7 = mytype.fin 7 := by
  have h := f32_scaled 14680064 2 (by norm_num) (by norm_num) (by norm_num) (by norm_num)
  norm_num at h
  exact h

theorem f32_eight : f32 8 = mytype.fin 8 := by
  have h := f32_scaled 8388608 3 (by norm_num) (by norm_num) (by norm_num) (by norm_num)
  norm_num at h
  exact h

theorem f32_nine : f32 9 = mytype.fin 9 := by
  have h := f32_scaled 9437184 3 (by norm_num) (by norm_num) (by norm_num) (by norm_num)
  norm_num at h
  exact h

theorem f32_2p24 : f32 16777216 = mytype.fin 16777216 := by
  have h := f32_scaled 8388608 24 (by norm_num) (by norm_num) (by norm_num) (by norm_num)
  norm_num at h
  exact h

theorem f32_2p25 : f32 33554432 = mytype.fin 33554432 := by
  have h := f32_scaled 8388608 25 (by norm_num) (by norm_num) (by norm_num) (by norm_num)
  norm_num at h
  exact h

theorem f32_118860456 : f32 118860456 = mytype.fin 118860456 := by
  have h := f32_scaled 14857557 26 (by norm_num) (by norm_num) (by norm_num) (by norm_num)
  norm_num at h
  exact h

/-- In float `2^25 + 1` is `2^25`: the `1` is absorbed. -/
theorem f32_2p25_succ : f32 33554433 = mytype.fin 33554432 := by
  have h := f32_eq 33554433 25 8388608 (by norm_num) (by norm_num) (by norm_num)
    (by norm_num [roundEven, Int.floor_eq_iff]) (by norm_num)
  rw [h]
  norm_num

/-- In float `118860456 + 1` is `118860456`: floats are 8 apart there. -/
theorem f32_118860457 : f32 118860457 = mytype.fin 118860456 := by
  have h := f32_eq 118860457 26 14857557 (by norm_num) (by norm_num) (by norm_num)
    (by norm_num [roundEven, Int.floor_eq_iff]) (by norm_num)
  rw [h]
  norm_num

/-- In float `118860456 / 7` is `16980066`, above the exact quotient `16980065.14...`. -/
theorem f32_118860456_div_7 : f32 (118860456 / 7) = mytype.fin 16980066 := by
  have h := f32_eq (118860456 / 7) 24 8490033 (by norm_num [abs_of_pos])
    (by norm_num [abs_of_pos]) (by norm_num)
    (by norm_num [roundEven, Int.floor_eq_iff]) (by norm_num)
  rw [h]
  norm_num

/-- In float `118860456 / 16980066` is `14680063 / 2^21 = 6.9999995...`, below 7. -/
theorem f32_118860456_div_16980066 :
    f32 (118860456 / 16980066) = mytype.fin (14680063 / 2097152) := by
  have h := f32_eq (118860456 / 16980066) 2 14680063 (by norm_num [abs_of_pos])
    (by norm_num [abs_of_pos]) (by norm_num)
    (by norm_num [roundEven, Int.floor_eq_iff])
    (by rw [abs_of_pos (by norm_num)]; norm_num)
  rw [h]
  norm_num

/-! ## Running the histogram on concrete floats -/

/-- The vector `parallelHistogram` hands to the kernel, when the padding value is the finite
float `pad`. -/
theorem histPadded_map (W : Nat) (pad : ℚ) (A : List ℚ) :
    (if A.length % W ≠ 0 then
        A.map (fun x => some (mytype.fin x))
          ++ List.replicate (W - A.length % W) (some (mytype.fin pad))
      else A.map (fun x => some (mytype.fin x)))
      = (histPadded W pad A).map (fun x => some (mytype.fin x)) := by
  unfold histPadded
  split_ifs <;> simp

/-- The run of `parallelHistogram` under a rounding `rnd`, from the values the reductions
return, `min = floor(lo)`, and the values `rnd` gives to the five host operations:
`ceil(hi) + 1`, `max - min`, the conversion of `nr_bins`, `range / nr_bins` and `max + 1`. -/
theorem parallelHistogramWith_run (rnd : ℚ → mytype) (fuel Wmin Wmax W : Nat) (A : List ℚ)
    (B : Int) (lo hi : ℚ) (l1 l2 : List Nat) (mn mx rg b bw pad : ℚ)
    (hmin : parallelMin fuel Wmin A = .ok ⟨mytype.fin lo, l1⟩)
    (hmax : parallelMax fuel Wmax A = .ok ⟨mytype.fin hi, l2⟩)
    (hB : 0 ≤ B) (hW : 1 ≤ W) (hmn : (⌊lo⌋ : ℚ) = mn)
    (hmx : rnd ((⌈hi⌉ : ℚ) + 1) = mytype.fin mx)
    (hrg : rnd (mx - mn) = mytype.fin rg)
    (hb : rnd (B : ℚ) = mytype.fin b) (hb0 : b ≠ 0)
    (hbw : rnd (rg / b) = mytype.fin bw)
    (hpad : rnd (mx + 1) = mytype.fin pad) :
    parallelHistogramWith rnd fuel Wmin Wmax W A B
      = .ok ⟨some (mytype.fin mn), some (mytype.fin mx), some (mytype.fin bw),
          hist_atomic rnd B (some (mytype.fin bw)) (some (mytype.fin mn))
            ((histPadded W pad A).map (fun x => some (mytype.fin x)))
            (List.replicate B.toNat 0)⟩ := by
  have hBneg : ¬ B < 0 := by omega
  have hW0 : W ≠ 0 := by omega
  unfold parallelHistogramWith
  simp only [hmin, hmax, hBneg, hW0, if_false, ffloor, hmn, fceil, fadd, hmx, fsub, hrg, hb,
    fdiv, hb0, hbw, hpad, histPadded_map]

/-- The bin index of a finite sample under a rounding `rnd`, from the values `rnd` gives to
the two kernel operations `x - min` and `(x - min) / bin_width`. -/
theorem hist_index_run (rnd : ℚ → mytype) (bw mn x d q : ℚ) (hbw : bw ≠ 0)
    (hd : rnd (x - mn) = mytype.fin d) (hq : rnd (d / bw) = mytype.fin q) :
    hist_index rnd (some (mytype.fin bw)) (some (mytype.fin mn)) (some (mytype.fin x))
      = some ⌊q⌋ := by
  simp only [hist_index, fsub, hd, fdiv, hbw, if_false, hq]

theorem hist_item_some (rnd : ℚ → mytype) (B : Int) (bw mn x : Option mytype) (H : List Nat)
    (k : Int) (h : hist_index rnd bw mn x = some k) :
    hist_item rnd B bw mn H x = if 0 ≤ k ∧ k < B then bump k.toNat H else H := by
  simp only [hist_item, h]

theorem hist_atomic_nil (rnd : ℚ → mytype) (B : Int) (bw mn : Option mytype) (H : List Nat) :
    hist_atomic rnd B bw mn [] H = H := rfl

theorem hist_atomic_cons (rnd : ℚ → mytype) (B : Int) (bw mn x : Option mytype)
    (xs : List (Option mytype)) (H : List Nat) :
    hist_atomic rnd B bw mn (x :: xs) H
      = hist_atomic rnd B bw mn xs (hist_item rnd B bw mn H x) := rfl

/-! ## Float runs of the histogram -/

set_option maxRecDepth 100000 in
theorem parallelMin_zero_2p25 :
    parallelMin 4 2 [0, 33554432] = .ok ⟨mytype.fin 0, [2, 2]⟩ := by
  norm_num [parallelMin, reduceDriver, shrinkLoop, finalPass, dispatch, blocks, fillNe,
    fillLoop, reduce_min, fmin, mytype.le]

set_option maxRecDepth 100000 in
theorem parallelMax_zero_2p25 :
    parallelMax 4 2 [0, 33554432] = .ok ⟨mytype.fin 33554432, [2, 2]⟩ := by
  norm_num [parallelMax, reduceDriver, shrinkLoop, finalPass, dispatch, blocks, fillNe,
    fillLoop, reduce_max, fmax, mytype.le]

/-- The float run on `A = [0, 2^25]` with 2 bins and work-group size 2 everywhere: the host
computes `max = 2^25` (the `+ 1` is absorbed) and `bin_width = 2^24`, the largest sample gets
the index 2, and the bin array is `[1, 0]`. -/
theorem histogram_of_zero_and_2p25 :
    parallelHistogram 4 2 2 2 [0, 33554432] 2
      = .ok ⟨some (mytype.fin 0), some (mytype.fin 33554432), some (mytype.fin 16777216),
          [1, 0]⟩ ∧
    hist_index f32 (some (mytype.fin 16777216)) (some (mytype.fin 0))
      (some (mytype.fin 33554432)) = some 2 := by
  have hrun := parallelHistogramWith_run f32 4 2 2 2 [0, 33554432] 2 0 33554432 [2, 2] [2, 2]
    0 33554432 33554432 2 16777216 33554432 parallelMin_zero_2p25 parallelMax_zero_2p25
    (by decide) (by decide) (by norm_num) (by norm_num [f32_2p25_succ])
    (by norm_num [f32_2p25]) (by norm_num [f32_two]) (by norm_num) (by norm_num [f32_2p24])
    (by norm_num [f32_2p25_succ])
  have i0 : hist_index f32 (some (mytype.fin 16777216)) (some (mytype.fin 0))
      (some (mytype.fin 0)) = some 0 := by
    have h := hist_index_run f32 16777216 0 0 0 0 (by norm_num) (by norm_num [f32_zero])
      (by norm_num [f32_zero])
    simpa using h
  have i1 : hist_index f32 (some (mytype.fin 16777216)) (some (mytype.fin 0))
      (some (mytype.fin 33554432)) = some 2 := by
    have h := hist_index_run f32 16777216 0 33554432 33554432 2 (by norm_num)
      (by norm_num [f32_2p25]) (by norm_num [f32_two])
    simpa using h
  have hvec : (histPadded 2 33554432 [0, 33554432]).map (fun x => some (mytype.fin x))
      = [some (mytype.fin 0), some (mytype.fin 33554432)] := by
    simp [histPadded]
  refine ⟨?_, i1⟩
  unfold parallelHistogram
  rw [hrun, hvec, hist_atomic_cons, hist_atomic_cons, hist_atomic_nil,
    hist_item_some _ _ _ _ _ _ 0 i0, hist_item_some _ _ _ _ _ _ 2 i1]
  rfl

theorem parallelMin_zero_118860456 :
    ∃ log, parallelMin 6 4 [0, 118860456] = .ok ⟨mytype.fin 0, log⟩ := by
  obtain ⟨m, log, hrun, hmem, hle⟩ := parallelMin_spec 6 4 [0, 118860456] (by simp)
    (by decide) (by decide)
  have h0 : m ≤ 0 := hle 0 (by simp)
  have hm : m = 0 := by
    rcases List.mem_cons.1 hmem with h | h
    · exact h
    · rw [List.mem_singleton] at h
      rw [h] at h0
      norm_num at h0
  rw [hm] at hrun
  exact ⟨log, hrun⟩

theorem parallelMax_zero_118860456 :
    ∃ log, parallelMax 6 4 [0, 118860456] = .ok ⟨mytype.fin 118860456, log⟩ := by
  obtain ⟨m, log, hrun, hmem, hle⟩ := parallelMax_spec 6 4 [0, 118860456] (by simp)
    (by decide) (by decide)
  have h0 : (118860456 : ℚ) ≤ m := hle 118860456 (by simp)
  have hm : m = 118860456 := by
    rcases List.mem_cons.1 hmem with h | h
    · rw [h] at h0
      norm_num at h0
    · rw [List.mem_singleton] at h
      exact h
  rw [hm] at hrun
  exact ⟨log, hrun⟩

/-- The bin index of the sample 0 in the float run on `A = [0, 118860456]` with 7 bins. -/
theorem hist_index_118860456_zero :
    hist_index f32 (some (mytype.fin 16980066)) (some (mytype.fin 0)) (some (mytype.fin 0))
      = some 0 := by
  have h := hist_index_run f32 16980066 0 0 0 0 (by norm_num) (by norm_num [f32_zero])
    (by norm_num [f32_zero])
  simpa using h

/-- The bin index of the value 118860456 in the float run on `A = [0, 118860456]` with 7
bins: `118860456 / 16980066` rounds to `14680063 / 2^21`, just below 7. -/
theorem hist_index_118860456_max :
    hist_index f32 (some (mytype.fin 16980066)) (some (mytype.fin 0))
      (some (mytype.fin 118860456)) = some 6 := by
  have h := hist_index_run f32 16980066 0 118860456 118860456 (14680063 / 2097152)
    (by norm_num) (by norm_num [f32_118860456]) f32_118860456_div_16980066
  rw [h]
  norm_num [Int.floor_eq_iff]

/-- The padding value `max + 1` of the float run on `A = [0, 118860456]`: the `+ 1` is
absorbed. -/
theorem fadd_118860456_one :
    fadd f32 (some (mytype.fin 118860456)) (some (mytype.fin 1))
      = some (mytype.fin 118860456) := by
  simp only [fadd]
  norm_num [f32_118860457]

/-- The kernel on the vector `[0, 118860456, 118860456, 118860456]` with 7 bins of width
16980066 from 0: the three large values are each counted in bin 6. -/
theorem hist_atomic_118860456 :
    hist_atomic f32 7 (some (mytype.fin 16980066)) (some (mytype.fin 0))
      [some (mytype.fin 0), some (mytype.fin 118860456), some (mytype.fin 118860456),
        some (mytype.fin 118860456)] (List.replicate 7 0) = [1, 0, 0, 0, 0, 0, 3] := by
  rw [hist_atomic_cons, hist_atomic_cons, hist_atomic_cons, hist_atomic_cons,
    hist_atomic_nil, hist_item_some _ _ _ _ _ _ 0 hist_index_118860456_zero,
    hist_item_some _ _ _ _ _ _ 6 hist_index_118860456_max,
    hist_item_some _ _ _ _ _ _ 6 hist_index_118860456_max,
    hist_item_some _ _ _ _ _ _ 6 hist_index_118860456_max]
  rfl

/-- The float run on `A = [0, 118860456]` with 7 bins and work-group size 4 everywhere: the
host computes `max = 118860456` (the `+ 1` is absorbed), `bin_width = 16980066`, and the
padding value `max + 1 = 118860456`, which is the largest sample; the vector handed to the
kernel holds it three times, each gets the index 6, and the bin array is
`[1, 0, 0, 0, 0, 0, 3]`. -/
theorem histogram_of_zero_and_118860456 :
    parallelHistogram 6 4 4 4 [0, 118860456] 7
      = .ok ⟨some (mytype.fin 0), some (mytype.fin 118860456), some (mytype.fin 16980066),
          [1, 0, 0, 0, 0, 0, 3]⟩ := by
  obtain ⟨l1, hmin⟩ := parallelMin_zero_118860456
  obtain ⟨l2, hmax⟩ := parallelMax_zero_118860456
  have hrun := parallelHistogramWith_run f32 6 4 4 4 [0, 118860456] 7 0 118860456 l1
    l2 0 118860456 118860456 7 16980066 118860456 hmin hmax (by decide) (by decide)
    (by norm_num) (by norm_num [f32_118860457]) (by norm_num [f32_118860456])
    (by norm_num [f32_seven]) (by norm_num) f32_118860456_div_7
    (by norm_num [f32_118860457])
  have hvec : (histPadded 4 118860456 [0, 118860456]).map (fun x => some (mytype.fin x))
      = [some (mytype.fin 0), some (mytype.fin 118860456), some (mytype.fin 118860456),
          some (mytype.fin 118860456)] := by
    simp [histPadded]
  unfold parallelHistogram
  rw [hrun, hvec]
  exact congrArg (fun H => Except.ok (Histogram.mk (some (mytype.fin 0))
    (some (mytype.fin 118860456)) (some (mytype.fin 16980066)) H)) hist_atomic_118860456

/-- The value `parallelMin` returns on an all-equal input. -/
theorem parallelMin_replicate (fuel W n : Nat) (c : ℚ) (hn : 1 ≤ n) (hW : 2 ≤ W)
    (hfuel : n + W ≤ fuel) :
    ∃ log, parallelMin fuel W (List.replicate n c) = .ok ⟨mytype.fin c, log⟩ := by
  have hA : List.replicate n c ≠ [] := by
    intro h
    have := congrArg List.length h
    simp at this
    omega
  obtain ⟨m, log, hrun, hmem, _⟩ := parallelMin_spec fuel W _ hA hW
    (by rw [List.length_replicate]; exact hfuel)
  rw [(List.mem_replicate.1 hmem).2] at hrun
  exact ⟨log, hrun⟩

/-- The value `parallelMax` returns on an all-equal input. -/
theorem parallelMax_replicate (fuel W n : Nat) (c : ℚ) (hn : 1 ≤ n) (hW : 2 ≤ W)
    (hfuel : n + W ≤ fuel) :
    ∃ log, parallelMax fuel W (List.replicate n c) = .ok ⟨mytype.fin c, log⟩ := by
  have hA : List.replicate n c ≠ [] := by
    intro h
    have := congrArg List.length h
    simp at this
    omega
  obtain ⟨m, log, hrun, hmem, _⟩ := parallelMax_spec fuel W _ hA hW
    (by rw [List.length_replicate]; exact hfuel)
  rw [(List.mem_replicate.1 hmem).2] at hrun
  exact ⟨log, hrun⟩

/-- The float run on `A = [7]` with 2 bins and work-group size 2 everywhere: `min = 7`,
`max = 8`, `bin_width = 1/2`, the vector handed to the kernel is `[7, 9]`, the sample gets the
index 0 and the padding value the index 4, and the bin array is `[1, 0]`. -/
theorem histogram_of_seven :
    parallelHistogram 3 2 2 2 [7] 2
      = .ok ⟨some (mytype.fin 7), some (mytype.fin 8), some (mytype.fin (1 / 2)), [1, 0]⟩ ∧
    hist_index f32 (some (mytype.fin (1 / 2))) (some (mytype.fin 7)) (some (mytype.fin 7))
      = some 0 := by
  obtain ⟨l1, hmin⟩ := parallelMin_replicate 3 2 1 7 (by decide) (by decide) (by decide)
  obtain ⟨l2, hmax⟩ := parallelMax_replicate 3 2 1 7 (by decide) (by decide) (by decide)
  have hrun := parallelHistogramWith_run f32 3 2 2 2 [7] 2 7 7 l1 l2 7 8 1 2 (1 / 2) 9
    hmin hmax (by decide) (by decide) (by norm_num) (by norm_num [f32_eight])
    (by norm_num [f32_one]) (by norm_num [f32_two]) (by norm_num) f32_half
    (by norm_num [f32_nine])
  have i0 : hist_index f32 (some (mytype.fin (1 / 2))) (some (mytype.fin 7))
      (some (mytype.fin 7)) = some 0 := by
    have h := hist_index_run f32 (1 / 2) 7 7 0 0 (by norm_num) (by norm_num [f32_zero])
      (by norm_num [f32_zero])
    simpa using h
  have i1 : hist_index f32 (some (mytype.fin (1 / 2))) (some (mytype.fin 7))
      (some (mytype.fin 9)) = some 4 := by
    have h := hist_index_run f32 (1 / 2) 7 9 2 4 (by norm_num) (by norm_num [f32_two])
      (by norm_num [f32_four])
    simpa using h
  have hvec : (histPadded 2 9 [7]).map (fun x => some (mytype.fin x))
      = [some (mytype.fin 7), some (mytype.fin 9)] := by
    simp [histPadded]
  refine ⟨?_, i0⟩
  unfold parallelHistogram
  rw [hrun, hvec, hist_atomic_cons, hist_atomic_cons, hist_atomic_nil,
    hist_item_some _ _ _ _ _ _ 0 i0, hist_item_some _ _ _ _ _ _ 4 i1]
  rfl

theorem roundEven_near (x : ℚ) : |(roundEven x : ℚ) - x| ≤ 1 / 2 := by
  have h1 : (⌊x⌋ : ℚ) ≤ x := Int.floor_le x
  have h2 : x < (⌊x⌋ : ℚ) + 1 := Int.lt_floor_add_one x
  unfold roundEven
  split_ifs with ha hb hc
  · rw [abs_le]
    constructor <;> linarith
  · rw [abs_le]
    push_cast
    constructor <;> linarith
  · rw [abs_le]
    constructor <;> linarith
  · rw [abs_le]
    push_cast
    constructor <;> linarith

theorem roundEven_nonneg (x : ℚ) (h : 0 ≤ x) : 0 ≤ roundEven x := by
  have h0 : 0 ≤ ⌊x⌋ := Int.floor_nonneg.2 h
  unfold roundEven
  split_ifs <;> omega

set_option maxRecDepth 10000 in
/-- A float operation whose exact result `q` is below `2^127` in magnitude returns a finite
value `r` within half a unit in the last place of `q`: the relative error is at most
`2^-24`, apart from an absolute error of at most `2^-150` in the subnormal range; the sign
is kept. -/
theorem f32_near (q : ℚ) (hq : |q| < 2 ^ 127) :
    ∃ r, f32 q = mytype.fin r ∧ |r - q| ≤ |q| / 2 ^ 24 + 1 / 2 ^ 150 ∧ (0 ≤ q → 0 ≤ r) := by
  by_cases h0 : q = 0
  · refine ⟨0, by rw [h0, f32_zero], ?_, fun _ => le_refl _⟩
    rw [h0]
    norm_num
  have hpos : 0 < |q| := abs_pos.2 h0
  have h1 : (2 : ℚ) ^ (Int.log 2 |q|) ≤ |q| := Int.zpow_log_le_self (by norm_num) hpos
  have he : Int.log 2 |q| < 127 :=
    (Int.lt_zpow_iff_log_lt (by norm_num) hpos).1 (by exact_mod_cast hq)
  obtain ⟨e, he0⟩ : ∃ e, e = Int.log 2 |q| := ⟨_, rfl⟩
  obtain ⟨e', he'⟩ : ∃ e', e' = max e (-126) := ⟨_, rfl⟩
  have hs : (0 : ℚ) < (2 : ℚ) ^ (e' - 23) := by positivity
  obtain ⟨k, hk⟩ : ∃ k, k = roundEven (q / (2 : ℚ) ^ (e' - 23)) := ⟨_, rfl⟩
  have hnear := roundEven_near (q / (2 : ℚ) ^ (e' - 23))
  rw [← hk] at hnear
  have herr : |(k : ℚ) * (2 : ℚ) ^ (e' - 23) - q| ≤ (2 : ℚ) ^ (e' - 23) / 2 := by
    have : (k : ℚ) * (2 : ℚ) ^ (e' - 23) - q
        = ((k : ℚ) - q / (2 : ℚ) ^ (e' - 23)) * (2 : ℚ) ^ (e' - 23) := by
      field_simp
    rw [this, abs_mul, abs_of_pos hs]
    calc |(k : ℚ) - q / (2 : ℚ) ^ (e' - 23)| * (2 : ℚ) ^ (e' - 23)
        ≤ 1 / 2 * (2 : ℚ) ^ (e' - 23) := mul_le_mul_of_nonneg_right hnear hs.le
      _ = (2 : ℚ) ^ (e' - 23) / 2 := by ring
  have hhalf : (2 : ℚ) ^ (e' - 23) / 2 ≤ |q| / 2 ^ 24 + 1 / 2 ^ 150 := by
    by_cases hc : -126 ≤ e
    · have hee : e' = e := by rw [he', max_eq_left hc]
      have h23 : (2 : ℚ) ^ (e' - 23) / 2 = (2 : ℚ) ^ e / 2 ^ 24 := by
        rw [hee, zpow_sub₀ (by norm_num : (2 : ℚ) ≠ 0)]
        norm_num
        ring
      rw [h23, he0]
      have : (2 : ℚ) ^ (Int.log 2 |q|) / 2 ^ 24 ≤ |q| / 2 ^ 24 :=
        div_le_div_of_nonneg_right h1 (by positivity)
      have h150 : (0 : ℚ) ≤ 1 / 2 ^ 150 := by norm_num
      linarith
    · have hee : e' = -126 := by rw [he', max_eq_right (by omega)]
      have h23 : (2 : ℚ) ^ (e' - 23) / 2 = 1 / 2 ^ 150 := by
        rw [hee]
        norm_num [zpow_neg]
      rw [h23]
      have : (0 : ℚ) ≤ |q| / 2 ^ 24 := div_nonneg (abs_nonneg q) (by norm_num)
      linarith
  have hle : (2 : ℚ) ^ (e' - 23) ≤ (2 : ℚ) ^ (103 : Int) :=
    zpow_le_zpow_right₀ (by norm_num) (by rw [he', he0]; omega)
  have hov : |(k : ℚ) * (2 : ℚ) ^ (e' - 23)| < (2 : ℚ) ^ (128 : Int) := by
    have h3 : |(k : ℚ) * (2 : ℚ) ^ (e' - 23)| ≤ |q| + (2 : ℚ) ^ (e' - 23) / 2 := by
      have := abs_sub_abs_le_abs_sub ((k : ℚ) * (2 : ℚ) ^ (e' - 23)) q
      linarith
    have h4 : (2 : ℚ) ^ (103 : Int) = 2 ^ 103 := by norm_num
    have h5 : (2 : ℚ) ^ (128 : Int) = 2 ^ 128 := by norm_num
    rw [h4] at hle
    rw [h5]
    have h6 : (2 : ℚ) ^ 127 + 2 ^ 103 / 2 < 2 ^ 128 := by norm_num
    linarith
  refine ⟨(k : ℚ) * (2 : ℚ) ^ (e' - 23), ?_, le_trans herr hhalf, ?_⟩
  · unfold f32
    rw [if_neg h0, ← he0, ← he', ← hk, if_neg (not_le.2 hov)]
  · intro hq0
    have : 0 ≤ k := by
      rw [hk]
      exact roundEven_nonneg _ (div_nonneg hq0 hs.le)
    have hk0 : (0 : ℚ) ≤ k := by exact_mod_cast this
    exact mul_nonneg hk0 hs.le

/-- An integer below `2^24` in magnitude is a float: `f32` leaves it alone. -/
theorem f32_int (n : Int) (hn : |n| < 2 ^ 24) : f32 (n : ℚ) = mytype.fin (n : ℚ) := by
  by_cases h0 : n = 0
  · rw [h0]
    simpa using f32_zero
  have hn0 : (n : ℚ) ≠ 0 := by exact_mod_cast h0
  have hpos : 0 < |(n : ℚ)| := abs_pos.2 hn0
  have hone : (1 : ℚ) ≤ |(n : ℚ)| := by
    have : 1 ≤ |n| := Int.one_le_abs h0
    exact_mod_cast this
  have hlt : |(n : ℚ)| < (2 : ℚ) ^ (24 : Int) := by
    have : ((|n| : Int) : ℚ) < ((2 ^ 24 : Int) : ℚ) := Int.cast_lt.2 hn
    rw [Int.cast_abs] at this
    have e24 : (2 : ℚ) ^ (24 : Int) = ((2 ^ 24 : Int) : ℚ) := by norm_num
    rw [e24]
    exact this
  obtain ⟨e, he0⟩ : ∃ e, e = Int.log 2 |(n : ℚ)| := ⟨_, rfl⟩
  have h1 : (2 : ℚ) ^ e ≤ |(n : ℚ)| := by
    rw [he0]
    exact Int.zpow_log_le_self (by norm_num) hpos
  have h2 : |(n : ℚ)| < (2 : ℚ) ^ (e + 1) := by
    rw [he0]
    exact Int.lt_zpow_succ_log_self (by norm_num) _
  have hge : 0 ≤ e := by
    rw [he0]
    exact (Int.zpow_le_iff_le_log (by norm_num) hpos).1 (by simpa using hone)
  have hle : e < 24 := by
    rw [he0]
    exact (Int.lt_zpow_iff_log_lt (by norm_num) hpos).1 (by exact_mod_cast hlt)
  obtain ⟨k, hk⟩ : ∃ k : Nat, (k : Int) = 23 - e := ⟨(23 - e).toNat, by omega⟩
  have hscale : (2 : ℚ) ^ (e - 23) = ((2 : ℚ) ^ k)⁻¹ := by
    have : e - 23 = -(k : Int) := by omega
    rw [this, zpow_neg, zpow_natCast]
  have hpk : (0 : ℚ) < (2 : ℚ) ^ k := by positivity
  have hr : roundEven ((n : ℚ) / (2 : ℚ) ^ (e - 23)) = n * 2 ^ k := by
    have : (n : ℚ) / (2 : ℚ) ^ (e - 23) = ((n * 2 ^ k : Int) : ℚ) := by
      rw [hscale]
      push_cast
      field_simp
    rw [this, roundEven_intCast]
  have hval : ((n * 2 ^ k : Int) : ℚ) * (2 : ℚ) ^ (e - 23) = n := by
    rw [hscale]
    push_cast
    field_simp
  have h := f32_eq (n : ℚ) e (n * 2 ^ k) h1 h2 (by omega) hr (by
    rw [hval]
    have : (2 : ℚ) ^ (24 : Int) < (2 : ℚ) ^ (128 : Int) := by norm_num
    linarith)
  rw [hval] at h
  exact h

/-! ## The kernel on repeated values -/

set_option maxRecDepth 10000 in
/-- The float bin index of a sample `x` with `min <= x <= max - 1`, for integers `min` and
`max` at most `2^21` apart and `1 <= B < 2^24` bins: with `bin_width = float((max - min) / B)`
the index `floor(float(float(x - min) / bin_width))` lies in `[0, B)`. -/
theorem float_index_inside (mn mx B : Int) (x : ℚ) (hB : 1 ≤ B) (hB2 : B < 2 ^ 24)
    (h1 : (mn : ℚ) ≤ x) (h2 : x ≤ (mx : ℚ) - 1) (hR : mx - mn ≤ 2 ^ 21) :
    ∃ bw d q, f32 (((mx : ℚ) - mn) / B) = mytype.fin bw ∧ 0 < bw ∧
      f32 (x - mn) = mytype.fin d ∧ f32 (d / bw) = mytype.fin q ∧ 0 ≤ ⌊q⌋ ∧ ⌊q⌋ < B := by
  have hBq1 : (1 : ℚ) ≤ B := by exact_mod_cast hB
  have hBq2 : (B : ℚ) ≤ 2 ^ 24 := by
    have : B ≤ 2 ^ 24 := by omega
    exact_mod_cast this
  have hBpos : (0 : ℚ) < B := by linarith
  obtain ⟨R, hRdef⟩ : ∃ R : ℚ, R = (mx : ℚ) - mn := ⟨_, rfl⟩
  have hR1 : 1 ≤ R := by rw [hRdef]; linarith
  have hR2 : R ≤ 2 ^ 21 := by
    have : ((mx - mn : Int) : ℚ) ≤ ((2 ^ 21 : Int) : ℚ) := Int.cast_le.2 hR
    push_cast at this
    rw [hRdef]
    exact this
  rw [← hRdef]
  have hu0 : 0 < R / B := by positivity
  have huB : R / B * B = R := div_mul_cancel₀ R hBpos.ne'
  have hu2 : R / B ≤ 2 ^ 21 := by
    rw [div_le_iff₀ hBpos]
    calc R ≤ 2 ^ 21 := hR2
      _ = 2 ^ 21 * 1 := by ring
      _ ≤ 2 ^ 21 * (B : ℚ) := mul_le_mul_of_nonneg_left hBq1 (by norm_num)
  -- the bin width
  obtain ⟨bw, hbw, herr, _⟩ := f32_near (R / B) (by
    rw [abs_of_pos hu0]
    have : (2 : ℚ) ^ 21 < 2 ^ 127 := by norm_num
    linarith)
  rw [abs_of_pos hu0, abs_le] at herr
  have hbwB : R * (1 - 2 / 2 ^ 24) ≤ bw * B := by
    have h3 : R / B - R / B / 2 ^ 24 - 1 / 2 ^ 150 ≤ bw := by linarith [herr.1]
    have h4 := mul_le_mul_of_nonneg_right h3 hBpos.le
    have e : (R / B - R / B / 2 ^ 24 - 1 / 2 ^ 150) * B
        = R / B * B - R / B * B / 2 ^ 24 - B / 2 ^ 150 := by ring
    rw [e, huB] at h4
    have h5 : (B : ℚ) / 2 ^ 150 ≤ 1 / 2 ^ 24 := by
      rw [div_le_iff₀ (by norm_num)]
      have : (1 : ℚ) / 2 ^ 24 * 2 ^ 150 = 2 ^ 126 := by norm_num
      rw [this]
      have : (2 : ℚ) ^ 24 ≤ 2 ^ 126 := by norm_num
      linarith
    have h6 : (1 : ℚ) / 2 ^ 24 ≤ R / 2 ^ 24 := div_le_div_of_nonneg_right hR1 (by norm_num)
    have e2 : R * (1 - 2 / 2 ^ 24) = R - R / 2 ^ 24 - R / 2 ^ 24 := by ring
    rw [e2]
    linarith
  have hbwpos : 0 < bw := by
    by_contra hneg
    have h3 : bw * B ≤ 0 := mul_nonpos_of_nonpos_of_nonneg (not_lt.1 hneg) hBpos.le
    have h4 : 0 < R * (1 - 2 / 2 ^ 24) := mul_pos (by linarith) (by norm_num)
    linarith
  -- the distance of the sample from `min`
  have ht0 : 0 ≤ x - mn := by linarith
  have ht1 : x - mn ≤ R - 1 := by rw [hRdef]; linarith
  obtain ⟨d, hd, hderr, hd0⟩ := f32_near (x - mn) (by
    rw [abs_of_nonneg ht0]
    have : (2 : ℚ) ^ 21 < 2 ^ 127 := by norm_num
    linarith)
  rw [abs_of_nonneg ht0, abs_le] at hderr
  have hdn : 0 ≤ d := hd0 ht0
  have hd2 : d ≤ R * (1 - 6 / 2 ^ 24) := by
    have h3 : d ≤ (x - mn) + (x - mn) / 2 ^ 24 + 1 / 2 ^ 150 := by linarith [hderr.2]
    have h4 : (x - mn) / 2 ^ 24 ≤ (R - 1) / 2 ^ 24 :=
      div_le_div_of_nonneg_right ht1 (by norm_num)
    have e : R * (1 - 6 / 2 ^ 24) = R - 6 * (R / 2 ^ 24) := by ring
    have h5 : R / 2 ^ 24 ≤ 2 ^ 21 / 2 ^ 24 := div_le_div_of_nonneg_right hR2 (by norm_num)
    have e3 : (R - 1) / 2 ^ 24 = R / 2 ^ 24 - 1 / 2 ^ 24 := by ring
    have h6 : (7 : ℚ) * (2 ^ 21 / 2 ^ 24) + 1 / 2 ^ 150 ≤ 1 + 1 / 2 ^ 24 := by norm_num
    rw [e]
    rw [e3] at h4
    linarith
  -- the quotient
  have hy0 : 0 ≤ d / bw := div_nonneg hdn hbwpos.le
  have hybw : d / bw * bw = d := div_mul_cancel₀ d hbwpos.ne'
  have hy1 : d / bw ≤ B * (1 - 4 / 2 ^ 24) := by
    have h3 : R * (1 - 6 / 2 ^ 24) ≤ R * (1 - 2 / 2 ^ 24) * (1 - 4 / 2 ^ 24) := by
      have e : R * (1 - 2 / 2 ^ 24) * (1 - 4 / 2 ^ 24)
          = R * (1 - 6 / 2 ^ 24) + R * (8 / 2 ^ 48) := by ring
      rw [e]
      have : 0 ≤ R * (8 / 2 ^ 48) := mul_nonneg (by linarith) (by norm_num)
      linarith
    have h4 : R * (1 - 2 / 2 ^ 24) * (1 - 4 / 2 ^ 24) ≤ bw * B * (1 - 4 / 2 ^ 24) :=
      mul_le_mul_of_nonneg_right hbwB (by norm_num)
    have h5 : d / bw * bw ≤ B * (1 - 4 / 2 ^ 24) * bw := by
      rw [hybw]
      have e : (B : ℚ) * (1 - 4 / 2 ^ 24) * bw = bw * B * (1 - 4 / 2 ^ 24) := by ring
      rw [e]
      linarith
    exact le_of_mul_le_mul_right h5 hbwpos
  obtain ⟨q, hq, hqerr, hq0⟩ := f32_near (d / bw) (by
    rw [abs_of_nonneg hy0]
    have : (2 : ℚ) ^ 24 < 2 ^ 127 := by norm_num
    have e : (B : ℚ) * (1 - 4 / 2 ^ 24) = B - B * (4 / 2 ^ 24) := by ring
    have : 0 ≤ (B : ℚ) * (4 / 2 ^ 24) := mul_nonneg hBpos.le (by norm_num)
    rw [e] at hy1
    linarith)
  rw [abs_of_nonneg hy0, abs_le] at hqerr
  refine ⟨bw, d, q, hbw, hbwpos, hd, hq, Int.floor_nonneg.2 (hq0 hy0), ?_⟩
  rw [Int.floor_lt]
  have h3 : q ≤ d / bw + d / bw / 2 ^ 24 + 1 / 2 ^ 150 := by linarith [hqerr.2]
  obtain ⟨y, hy⟩ : ∃ y, y = d / bw := ⟨_, rfl⟩
  rw [← hy] at h3 hy1
  have e : (B : ℚ) * (1 - 4 / 2 ^ 24) = B - 4 * (B / 2 ^ 24) := by ring
  have e2 : y / 2 ^ 24 = y * (1 / 2 ^ 24) := by ring
  have h4 : y / 2 ^ 24 ≤ B * (1 - 4 / 2 ^ 24) / 2 ^ 24 :=
    div_le_div_of_nonneg_right hy1 (by norm_num)
  have e3 : (B : ℚ) * (1 - 4 / 2 ^ 24) / 2 ^ 24 = B / 2 ^ 24 - 4 * (B / 2 ^ 48) := by ring
  have h5 : (1 : ℚ) / 2 ^ 24 ≤ B / 2 ^ 24 := div_le_div_of_nonneg_right hBq1 (by norm_num)
  have h6 : (0 : ℚ) ≤ B / 2 ^ 48 := div_nonneg hBpos.le (by norm_num)
  have h7 : (1 : ℚ) / 2 ^ 150 < 1 / 2 ^ 24 := by norm_num
  rw [e] at hy1
  rw [e3] at h4
  linarith

theorem length_hist_item (rnd : ℚ → mytype) (B : Int) (bw mn x : Option mytype)
    (H : List Nat) : (hist_item rnd B bw mn H x).length = H.length := by
  unfold hist_item
  cases hist_index rnd bw mn x with
  | none => rfl
  | some idx =>
    simp only
    split_ifs
    · exact length_bump _ _
    · rfl

theorem getElem?_hist_item (rnd : ℚ → mytype) (B : Int) (bw mn x : Option mytype)
    (H : List Nat) (j : Nat) (hH : H.length = B.toNat) :
    (hist_item rnd B bw mn H x)[j]?
      = (H[j]?).map (fun v => v + if hist_index rnd bw mn x = some (j : Int) then 1 else 0) := by
  unfold hist_item
  cases hidx : hist_index rnd bw mn x with
  | none =>
    simp only
    cases H[j]? with
    | none => rfl
    | some v => simp
  | some idx =>
    simp only [Option.some.injEq]
    by_cases hr : 0 ≤ idx ∧ idx < B
    · rw [if_pos hr, getElem?_bump]
      congr 1
      funext v
      have h0 := Int.toNat_of_nonneg hr.1
      by_cases hj : idx = (j : Int)
      · have h1 : j = idx.toNat := by omega
        rw [if_pos h1, if_pos hj]
      · have h1 : ¬ j = idx.toNat := by omega
        rw [if_neg h1, if_neg hj]
        rfl
    · rw [if_neg hr]
      cases hv : H[j]? with
      | none => rfl
      | some v =>
        have hj : j < H.length := by
          by_contra hc
          rw [List.getElem?_eq_none (by omega)] at hv
          cases hv
        have h1 : ¬ idx = (j : Int) := by
          intro he
          apply hr
          omega
        show some v = some (v + if idx = (j : Int) then 1 else 0)
        rw [if_neg h1]
        rfl

theorem length_hist_atomic (rnd : ℚ → mytype) (B : Int) (bw mn : Option mytype)
    (A : List (Option mytype)) (H : List Nat) :
    (hist_atomic rnd B bw mn A H).length = H.length := by
  induction A generalizing H with
  | nil => rfl
  | cons x xs ih => rw [hist_atomic_cons, ih, length_hist_item]

/-- Entry `j` of the bin array after a dispatch: one more for every work-item whose index
is `j`. -/
theorem getElem?_hist_atomic (rnd : ℚ → mytype) (B : Int) (bw mn : Option mytype)
    (A : List (Option mytype)) (H : List Nat) (j : Nat) (hH : H.length = B.toNat) :
    (hist_atomic rnd B bw mn A H)[j]?
      = (H[j]?).map (fun v => v
          + A.countP (fun x => decide (hist_index rnd bw mn x = some (j : Int)))) := by
  induction A generalizing H with
  | nil =>
    rw [hist_atomic_nil]
    cases H[j]? with
    | none => rfl
    | some v => simp
  | cons x xs ih =>
    rw [hist_atomic_cons, ih _ (by rw [length_hist_item, hH]),
      getElem?_hist_item _ _ _ _ _ _ _ hH, List.countP_cons]
    cases H[j]? with
    | none => rfl
    | some v =>
      simp only [Option.map_some', decide_eq_true_eq]
      congr 1
      omega

/-- The sum of the bin array after a dispatch: one more for every work-item whose index lies
in `[0, nr_bins)`. -/
theorem sum_hist_atomic (rnd : ℚ → mytype) (B : Int) (bw mn : Option mytype)
    (A : List (Option mytype)) (H : List Nat) (hH : H.length = B.toNat) :
    (hist_atomic rnd B bw mn A H).sum
      = H.sum + A.countP (fun x => decide (∃ idx, hist_index rnd bw mn x = some idx
          ∧ 0 ≤ idx ∧ idx < B)) := by
  induction A generalizing H with
  | nil => simp [hist_atomic_nil]
  | cons x xs ih =>
    rw [hist_atomic_cons, ih _ (by rw [length_hist_item, hH]), List.countP_cons]
    unfold hist_item
    cases hidx : hist_index rnd bw mn x with
    | none => simp
    | some idx =>
      simp only [Option.some.injEq, exists_eq_left']
      by_cases hr : 0 ≤ idx ∧ idx < B
      · rw [if_pos hr, sum_bump _ _ (by omega)]
        simp only [hr, and_self, decide_True, if_true]
        omega
      · rw [if_neg hr]
        simp only [hr, decide_False, Bool.false_eq_true, if_false, Nat.add_zero]

set_option maxRecDepth 10000 in
/-- The float bin index of the padding value `max + 1`, for integers `min < max` at most
`2^21` apart and `1 <= B < 2^24` bins: with `bin_width = float((max - min) / B)` the index
`floor(float((max + 1 - min) / bin_width))` is at least `B`. -/
theorem float_padding_outside (mn mx B : Int) (hB : 1 ≤ B) (hB2 : B < 2 ^ 24)
    (hR0 : 1 ≤ mx - mn) (hR : mx - mn ≤ 2 ^ 21) :
    ∃ bw q, f32 (((mx : ℚ) - mn) / B) = mytype.fin bw ∧ 0 < bw ∧
      f32 ((mx : ℚ) + 1 - mn) = mytype.fin ((mx : ℚ) + 1 - mn) ∧
      f32 (((mx : ℚ) + 1 - mn) / bw) = mytype.fin q ∧ B ≤ ⌊q⌋ := by
  have hBq1 : (1 : ℚ) ≤ B := by exact_mod_cast hB
  have hBq2 : (B : ℚ) ≤ 2 ^ 24 := by
    have : B ≤ 2 ^ 24 := by omega
    exact_mod_cast this
  have hBpos : (0 : ℚ) < B := by linarith
  have hd : f32 ((mx : ℚ) + 1 - mn) = mytype.fin ((mx : ℚ) + 1 - mn) := by
    have h := f32_int (mx + 1 - mn) (by rw [abs_lt]; omega)
    push_cast at h
    exact h
  obtain ⟨R, hRdef⟩ : ∃ R : ℚ, R = (mx : ℚ) - mn := ⟨_, rfl⟩
  have hR1 : 1 ≤ R := by
    have : ((1 : Int) : ℚ) ≤ ((mx - mn : Int) : ℚ) := Int.cast_le.2 hR0
    push_cast at this
    rw [hRdef]
    exact this
  have hR2 : R ≤ 2 ^ 21 := by
    have : ((mx - mn : Int) : ℚ) ≤ ((2 ^ 21 : Int) : ℚ) := Int.cast_le.2 hR
    push_cast at this
    rw [hRdef]
    exact this
  have hR1' : (mx : ℚ) + 1 - mn = R + 1 := by rw [hRdef]; ring
  rw [hR1'] at hd ⊢
  rw [← hRdef]
  have hu0 : 0 < R / B := by positivity
  have huB : R / B * B = R := div_mul_cancel₀ R hBpos.ne'
  have hu2 : R / B ≤ 2 ^ 21 := by
    rw [div_le_iff₀ hBpos]
    calc R ≤ 2 ^ 21 := hR2
      _ = 2 ^ 21 * 1 := by ring
      _ ≤ 2 ^ 21 * (B : ℚ) := mul_le_mul_of_nonneg_left hBq1 (by norm_num)
  obtain ⟨bw, hbw, herr, _⟩ := f32_near (R / B) (by
    rw [abs_of_pos hu0]
    have : (2 : ℚ) ^ 21 < 2 ^ 127 := by norm_num
    linarith)
  rw [abs_of_pos hu0, abs_le] at herr
  have h5 : (B : ℚ) / 2 ^ 150 ≤ 1 / 2 ^ 24 := by
    rw [div_le_iff₀ (by norm_num)]
    have : (1 : ℚ) / 2 ^ 24 * 2 ^ 150 = 2 ^ 126 := by norm_num
    rw [this]
    have : (2 : ℚ) ^ 24 ≤ 2 ^ 126 := by norm_num
    linarith
  have h6 : (1 : ℚ) / 2 ^ 24 ≤ R / 2 ^ 24 := div_le_div_of_nonneg_right hR1 (by norm_num)
  have hbwlo : R * (1 - 2 / 2 ^ 24) ≤ bw * B := by
    have h3 : R / B - R / B / 2 ^ 24 - 1 / 2 ^ 150 ≤ bw := by linarith [herr.1]
    have h4 := mul_le_mul_of_nonneg_right h3 hBpos.le
    have e : (R / B - R / B / 2 ^ 24 - 1 / 2 ^ 150) * B
        = R / B * B - R / B * B / 2 ^ 24 - B / 2 ^ 150 := by ring
    rw [e, huB] at h4
    have e2 : R * (1 - 2 / 2 ^ 24) = R - R / 2 ^ 24 - R / 2 ^ 24 := by ring
    rw [e2]
    linarith
  have hbwhi : bw * B ≤ R * (1 + 2 / 2 ^ 24) := by
    have h3 : bw ≤ R / B + R / B / 2 ^ 24 + 1 / 2 ^ 150 := by linarith [herr.2]
    have h4 := mul_le_mul_of_nonneg_right h3 hBpos.le
    have e : (R / B + R / B / 2 ^ 24 + 1 / 2 ^ 150) * B
        = R / B * B + R / B * B / 2 ^ 24 + B / 2 ^ 150 := by ring
    rw [e, huB] at h4
    have e2 : R * (1 + 2 / 2 ^ 24) = R + R / 2 ^ 24 + R / 2 ^ 24 := by ring
    rw [e2]
    linarith
  have hbwpos : 0 < bw := by
    by_contra hneg
    have h3 : bw * B ≤ 0 := mul_nonpos_of_nonpos_of_nonneg (not_lt.1 hneg) hBpos.le
    have h4 : 0 < R * (1 - 2 / 2 ^ 24) := mul_pos (by linarith) (by norm_num)
    linarith
  have hbw25 : (1 : ℚ) / 2 ^ 25 ≤ bw := by
    have h3 : (1 : ℚ) / 2 ≤ bw * B := by
      have : (1 : ℚ) * (1 - 2 / 2 ^ 24) ≤ R * (1 - 2 / 2 ^ 24) :=
        mul_le_mul_of_nonneg_right hR1 (by norm_num)
      have : (1 : ℚ) / 2 ≤ 1 * (1 - 2 / 2 ^ 24) := by norm_num
      linarith
    have h4 : bw * B ≤ bw * 2 ^ 24 := mul_le_mul_of_nonneg_left hBq2 hbwpos.le
    have h7 : (1 : ℚ) / 2 ≤ bw * 2 ^ 24 := le_trans h3 h4
    have e : bw = bw * 2 ^ 24 / 2 ^ 24 := by field_simp
    rw [e]
    have : (1 : ℚ) / 2 ^ 25 = 1 / 2 / 2 ^ 24 := by norm_num
    rw [this]
    exact div_le_div_of_nonneg_right h7 (by norm_num)
  -- the quotient
  have hy0 : 0 < (R + 1) / bw := div_pos (by linarith) hbwpos
  have hybw : (R + 1) / bw * bw = R + 1 := div_mul_cancel₀ (R + 1) hbwpos.ne'
  have hyhi : (R + 1) / bw ≤ 2 ^ 47 := by
    rw [div_le_iff₀ hbwpos]
    have h3 := mul_le_mul_of_nonneg_left hbw25 (by norm_num : (0 : ℚ) ≤ 2 ^ 47)
    have : (2 : ℚ) ^ 47 * (1 / 2 ^ 25) = 2 ^ 22 := by norm_num
    rw [this] at h3
    have : (2 : ℚ) ^ 21 + 1 ≤ 2 ^ 22 := by norm_num
    linarith
  have hylo : (B : ℚ) * (1 + 5 / 2 ^ 24) ≤ (R + 1) / bw := by
    have hc : 0 < R * (1 + 2 / 2 ^ 24) := mul_pos (by linarith) (by norm_num)
    have h3 : (R + 1) * B ≤ (R + 1) / bw * (R * (1 + 2 / 2 ^ 24)) := by
      calc (R + 1) * B = (R + 1) / bw * (bw * B) := by rw [← mul_assoc, hybw]
        _ ≤ (R + 1) / bw * (R * (1 + 2 / 2 ^ 24)) :=
          mul_le_mul_of_nonneg_left hbwhi hy0.le
    have h4 : (1 + 5 / 2 ^ 24) * (R * (1 + 2 / 2 ^ 24)) ≤ R + 1 := by
      have e : (1 + 5 / 2 ^ 24) * (R * (1 + 2 / 2 ^ 24))
          = R + R * (7 / 2 ^ 24 + 10 / 2 ^ 48) := by ring
      rw [e]
      have h8 : R * (7 / 2 ^ 24 + 10 / 2 ^ 48) ≤ 2 ^ 21 * (7 / 2 ^ 24 + 10 / 2 ^ 48) :=
        mul_le_mul_of_nonneg_right hR2 (by norm_num)
      have : (2 : ℚ) ^ 21 * (7 / 2 ^ 24 + 10 / 2 ^ 48) ≤ 1 := by norm_num
      linarith
    have h9 : (B : ℚ) * (1 + 5 / 2 ^ 24) * (R * (1 + 2 / 2 ^ 24))
        ≤ (R + 1) / bw * (R * (1 + 2 / 2 ^ 24)) := by
      have e : (B : ℚ) * (1 + 5 / 2 ^ 24) * (R * (1 + 2 / 2 ^ 24))
          = (1 + 5 / 2 ^ 24) * (R * (1 + 2 / 2 ^ 24)) * B := by ring
      rw [e]
      exact le_trans (mul_le_mul_of_nonneg_right h4 hBpos.le) h3
    exact le_of_mul_le_mul_right h9 hc
  obtain ⟨q, hq, hqerr, _⟩ := f32_near ((R + 1) / bw) (by
    rw [abs_of_pos hy0]
    have : (2 : ℚ) ^ 47 < 2 ^ 127 := by norm_num
    linarith)
  rw [abs_of_pos hy0, abs_le] at hqerr
  refine ⟨bw, q, hbw, hbwpos, hd, hq, ?_⟩
  rw [Int.le_floor]
  have h3 : (R + 1) / bw - (R + 1) / bw / 2 ^ 24 - 1 / 2 ^ 150 ≤ q := by linarith [hqerr.1]
  obtain ⟨y, hy⟩ : ∃ y, y = (R + 1) / bw := ⟨_, rfl⟩
  rw [← hy] at h3 hylo
  have e : (B : ℚ) * (1 + 5 / 2 ^ 24) = B + 5 * (B / 2 ^ 24) := by ring
  rw [e] at hylo
  have e2 : y - y / 2 ^ 24 - 1 / 2 ^ 150 = y * (1 - 1 / 2 ^ 24) - 1 / 2 ^ 150 := by ring
  rw [e2] at h3
  have h4 : (B + 5 * ((B : ℚ) / 2 ^ 24)) * (1 - 1 / 2 ^ 24) ≤ y * (1 - 1 / 2 ^ 24) :=
    mul_le_mul_of_nonneg_right hylo (by norm_num)
  have e3 : (B + 5 * ((B : ℚ) / 2 ^ 24)) * (1 - 1 / 2 ^ 24)
      = B + 4 * (B / 2 ^ 24) - 5 * (B / 2 ^ 48) := by ring
  rw [e3] at h4
  have h7 : (B : ℚ) / 2 ^ 48 ≤ B / 2 ^ 24 / 2 ^ 24 := by
    have : (B : ℚ) / 2 ^ 24 / 2 ^ 24 = B / 2 ^ 48 := by ring
    rw [this]
  have h8 : (1 : ℚ) / 2 ^ 24 ≤ B / 2 ^ 24 := div_le_div_of_nonneg_right hBq1 (by norm_num)
  have h9 : (B : ℚ) / 2 ^ 24 / 2 ^ 24 ≤ B / 2 ^ 24 / 8 := by
    have hb : (0 : ℚ) ≤ B / 2 ^ 24 := div_nonneg hBpos.le (by norm_num)
    have e4 : (B : ℚ) / 2 ^ 24 / 2 ^ 24 = B / 2 ^ 24 * (1 / 2 ^ 24) := by ring
    have e5 : (B : ℚ) / 2 ^ 24 / 8 = B / 2 ^ 24 * (1 / 8) := by ring
    rw [e4, e5]
    exact mul_le_mul_of_nonneg_left (by norm_num) hb
  have h10 : (1 : ℚ) / 2 ^ 150 < 1 / 2 ^ 24 := by norm_num
  linarith

/-- The float run of `parallelHistogram` for samples of magnitude at most `2^19` and fewer
than `2^24` bins, from the values the reductions return: the bin array has length `B`, every
sample has a bin index in `[0, B)`, entry `i` is the number of samples with index `i`, and
the counts sum to `|A|`; no padding element is counted. -/
theorem parallelHistogram_float (fuel Wmin Wmax W : Nat) (A : List ℚ) (B : Int)
    (lo hi : ℚ) (l1 l2 : List Nat) (hB : 1 ≤ B) (hB2 : B < 2 ^ 24) (hW : 1 ≤ W)
    (h1 : parallelMin fuel Wmin A = .ok ⟨mytype.fin lo, l1⟩)
    (h2 : parallelMax fuel Wmax A = .ok ⟨mytype.fin hi, l2⟩)
    (hlomem : lo ∈ A) (himem : hi ∈ A) (hlo : ∀ x ∈ A, lo ≤ x) (hhi : ∀ x ∈ A, x ≤ hi)
    (hsize : ∀ x ∈ A, |x| ≤ 2 ^ 19) :
    ∃ bw H, f32 (((⌈hi⌉ : ℚ) + 1 - ⌊lo⌋) / B) = mytype.fin bw ∧
      parallelHistogram fuel Wmin Wmax W A B
        = .ok ⟨some (mytype.fin ⌊lo⌋), some (mytype.fin ((⌈hi⌉ : ℚ) + 1)),
            some (mytype.fin bw), H⟩ ∧
      H.length = B.toNat ∧
      (∀ x ∈ A, ∃ idx, hist_index f32 (some (mytype.fin bw)) (some (mytype.fin ⌊lo⌋))
          (some (mytype.fin x)) = some idx ∧ 0 ≤ idx ∧ idx < B) ∧
      (∀ i : Nat, i < B.toNat → H[i]? = some (A.countP (fun x =>
          decide (hist_index f32 (some (mytype.fin bw)) (some (mytype.fin ⌊lo⌋))
            (some (mytype.fin x)) = some (i : Int))))) ∧
      H.sum = A.length := by
  have hlohi : lo ≤ hi := hlo hi himem
  have hlo1 := abs_le.1 (hsize lo hlomem)
  have hhi1 := abs_le.1 (hsize hi himem)
  have hfl1 : (⌊lo⌋ : ℚ) ≤ lo := Int.floor_le lo
  have hce1 : hi ≤ (⌈hi⌉ : ℚ) := Int.le_ceil hi
  have hfl2 : -(2 ^ 19) ≤ ⌊lo⌋ := Int.le_floor.2 (by push_cast; exact hlo1.1)
  have hce2 : ⌈hi⌉ ≤ 2 ^ 19 := Int.ceil_le.2 (by push_cast; exact hhi1.2)
  have hflce : ⌊lo⌋ ≤ ⌈hi⌉ := by
    have : (⌊lo⌋ : ℚ) ≤ (⌈hi⌉ : ℚ) := by linarith
    exact_mod_cast this
  obtain ⟨bw, q, hbw, hbwpos, hdpad, hqpad, hqB⟩ := float_padding_outside ⌊lo⌋ (⌈hi⌉ + 1) B
    hB hB2 (by omega) (by omega)
  push_cast at hbw hdpad hqpad
  have hmx : f32 ((⌈hi⌉ : ℚ) + 1) = mytype.fin ((⌈hi⌉ : ℚ) + 1) := by
    have h := f32_int (⌈hi⌉ + 1) (by rw [abs_lt]; omega)
    push_cast at h
    exact h
  have hrg : f32 ((⌈hi⌉ : ℚ) + 1 - ⌊lo⌋) = mytype.fin ((⌈hi⌉ : ℚ) + 1 - ⌊lo⌋) := by
    have h := f32_int (⌈hi⌉ + 1 - ⌊lo⌋) (by rw [abs_lt]; omega)
    push_cast at h
    exact h
  have hb : f32 (B : ℚ) = mytype.fin (B : ℚ) := f32_int B (by rw [abs_lt]; omega)
  have hb0 : (B : ℚ) ≠ 0 := by
    have : (1 : ℚ) ≤ B := by exact_mod_cast hB
    linarith
  have hpad : f32 ((⌈hi⌉ : ℚ) + 1 + 1) = mytype.fin ((⌈hi⌉ : ℚ) + 1 + 1) := by
    have h := f32_int (⌈hi⌉ + 1 + 1) (by rw [abs_lt]; omega)
    push_cast at h
    exact h
  have hrun := parallelHistogramWith_run f32 fuel Wmin Wmax W A B lo hi l1 l2 ⌊lo⌋
    ((⌈hi⌉ : ℚ) + 1) ((⌈hi⌉ : ℚ) + 1 - ⌊lo⌋) B bw ((⌈hi⌉ : ℚ) + 1 + 1) h1 h2 (by omega) hW
    rfl hmx hrg hb hb0 hbw hpad
  -- every sample has an index inside the bins
  have hin : ∀ x ∈ A, ∃ idx, hist_index f32 (some (mytype.fin bw)) (some (mytype.fin ⌊lo⌋))
      (some (mytype.fin x)) = some idx ∧ 0 ≤ idx ∧ idx < B := by
    intro x hx
    obtain ⟨bw2, d, q2, hbw2, _, hd, hq2, hq0, hqlt⟩ := float_index_inside ⌊lo⌋ (⌈hi⌉ + 1) B x
      hB hB2 (le_trans hfl1 (hlo x hx)) (by push_cast; linarith [hhi x hx]) (by omega)
    push_cast at hbw2
    have hsame : bw2 = bw := mytype.fin.inj (hbw2.symm.trans hbw)
    rw [hsame] at hq2
    exact ⟨⌊q2⌋, hist_index_run f32 bw ⌊lo⌋ x d q2 hbwpos.ne' hd hq2, hq0, hqlt⟩
  -- the padding value has an index outside
  have hout : hist_index f32 (some (mytype.fin bw)) (some (mytype.fin ⌊lo⌋))
      (some (mytype.fin ((⌈hi⌉ : ℚ) + 1 + 1))) = some ⌊q⌋ :=
    hist_index_run f32 bw ⌊lo⌋ ((⌈hi⌉ : ℚ) + 1 + 1) ((⌈hi⌉ : ℚ) + 1 + 1 - ⌊lo⌋) q hbwpos.ne'
      hdpad hqpad
  obtain ⟨k, hk⟩ := histPadded_eq W ((⌈hi⌉ : ℚ) + 1 + 1) A
  have hlen0 : (List.replicate B.toNat 0).length = B.toNat := List.length_replicate _ _
  refine ⟨bw, hist_atomic f32 B (some (mytype.fin bw)) (some (mytype.fin ⌊lo⌋))
    ((histPadded W ((⌈hi⌉ : ℚ) + 1 + 1) A).map (fun x => some (mytype.fin x)))
    (List.replicate B.toNat 0), hbw, ?_, ?_, hin, ?_, ?_⟩
  · unfold parallelHistogram
    exact hrun
  · rw [length_hist_atomic, hlen0]
  · intro i hi'
    rw [getElem?_hist_atomic _ _ _ _ _ _ _ hlen0, hk, List.map_append, List.countP_append,
      List.map_replicate, List.countP_replicate, List.countP_map,
      List.getElem?_replicate, if_pos hi']
    have hne : ¬ (hist_index f32 (some (mytype.fin bw)) (some (mytype.fin ⌊lo⌋))
        (some (mytype.fin ((⌈hi⌉ : ℚ) + 1 + 1))) = some (i : Int)) := by
      rw [hout]
      intro h
      have := Option.some.inj h
      omega
    simp only [Option.map_some', hne, decide_False, Bool.false_eq_true, if_false,
      Nat.add_zero, Nat.zero_add]
    rfl
  · rw [sum_hist_atomic _ _ _ _ _ _ hlen0, hk, List.map_append, List.countP_append,
      List.map_replicate, List.countP_replicate, List.countP_map, List.sum_replicate]
    have hne : ¬ ∃ idx, hist_index f32 (some (mytype.fin bw)) (some (mytype.fin ⌊lo⌋))
        (some (mytype.fin ((⌈hi⌉ : ℚ) + 1 + 1))) = some idx ∧ 0 ≤ idx ∧ idx < B := by
      rw [hout]
      rintro ⟨idx, h, _, h3⟩
      have := Option.some.inj h
      omega
    have hall : A.countP ((fun x => decide (∃ idx, hist_index f32 (some (mytype.fin bw))
        (some (mytype.fin ⌊lo⌋)) x = some idx ∧ 0 ≤ idx ∧ idx < B))
          ∘ fun x => some (mytype.fin x)) = A.length := by
      rw [List.countP_eq_length]
      intro x hx
      simpa using hin x hx
    rw [hall]
    simp only [hne, decide_False, Bool.false_eq_true, if_false, smul_zero, Nat.add_zero,
      Nat.zero_add]

/-! ## The run on `[1, ..., 10]` and a sample at a bin boundary -/

set_option maxRecDepth 10000 in
/-- The floor of a rounded quotient that is not within `1/8` of an integer. -/
theorem floor_f32 (y : ℚ) (n : Int) (h1 : (n : ℚ) + 1 / 8 ≤ y) (h2 : y ≤ (n : ℚ) + 7 / 8)
    (hy : |y| ≤ 2 ^ 10) : ∃ q, f32 y = mytype.fin q ∧ ⌊q⌋ = n := by
  obtain ⟨q, hq, herr, _⟩ := f32_near y (by
    have : (2 : ℚ) ^ 10 < 2 ^ 127 := by norm_num
    linarith)
  refine ⟨q, hq, ?_⟩
  rw [abs_le] at herr
  have h3 : |y| / 2 ^ 24 ≤ 2 ^ 10 / 2 ^ 24 := div_le_div_of_nonneg_right hy (by norm_num)
  have h4 : (2 : ℚ) ^ 10 / 2 ^ 24 + 1 / 2 ^ 150 < 1 / 8 := by norm_num
  rw [Int.floor_eq_iff]
  constructor <;> linarith [herr.1, herr.2]

/-- The float bin index of a sample whose distance from `min` is computed exactly and whose
quotient by `bin_width` is not within `1/8` of an integer. -/
theorem hist_index_margin (bw mn x : ℚ) (n : Int) (hbw : bw ≠ 0)
    (hd : f32 (x - mn) = mytype.fin (x - mn)) (h1 : (n : ℚ) + 1 / 8 ≤ (x - mn) / bw)
    (h2 : (x - mn) / bw ≤ (n : ℚ) + 7 / 8) (hy : |(x - mn) / bw| ≤ 2 ^ 10) :
    hist_index f32 (some (mytype.fin bw)) (some (mytype.fin mn)) (some (mytype.fin x))
      = some n := by
  obtain ⟨q, hq, hfl⟩ := floor_f32 ((x - mn) / bw) n h1 h2 hy
  rw [hist_index_run f32 bw mn x (x - mn) q hbw hd hq, hfl]

/-- The float bin index of a sample whose distance from `min` and whose quotient by
`bin_width` are both computed exactly, the quotient being the integer `n`. -/
theorem hist_index_int (bw mn x : ℚ) (n : Int) (hbw : bw ≠ 0)
    (hd : f32 (x - mn) = mytype.fin (x - mn)) (hq : f32 ((x - mn) / bw) = mytype.fin n) :
    hist_index f32 (some (mytype.fin bw)) (some (mytype.fin mn)) (some (mytype.fin x))
      = some n := by
  rw [hist_index_run f32 bw mn x (x - mn) n hbw hd hq, Int.floor_intCast]

theorem f32_five : f32 5 = mytype.fin 5 := by
  have h := f32_int 5 (by norm_num)
  simpa using h

theorem f32_six : f32 6 = mytype.fin 6 := by
  have h := f32_int 6 (by norm_num)
  simpa using h

theorem f32_ten : f32 10 = mytype.fin 10 := by
  have h := f32_int 10 (by norm_num)
  simpa using h

theorem f32_eleven : f32 11 = mytype.fin 11 := by
  have h := f32_int 11 (by norm_num)
  simpa using h

theorem f32_twelve : f32 12 = mytype.fin 12 := by
  have h := f32_int 12 (by norm_num)
  simpa using h

theorem parallelMin_one_to_ten :
    ∃ log, parallelMin 14 4 [1, 2, 3, 4, 5, 6, 7, 8, 9, 10] = .ok ⟨mytype.fin 1, log⟩ := by
  obtain ⟨m, log, hrun, hmem, hle⟩ := parallelMin_spec 14 4 [1, 2, 3, 4, 5, 6, 7, 8, 9, 10]
    (by simp) (by decide) (by decide)
  have h0 : m ≤ 1 := hle 1 (by simp)
  have h1 : 1 ≤ m := by
    simp only [List.mem_cons, List.mem_singleton, List.not_mem_nil, or_false] at hmem
    rcases hmem with h | h | h | h | h | h | h | h | h | h <;> rw [h] <;> norm_num
  rw [le_antisymm h0 h1] at hrun
  exact ⟨log, hrun⟩

theorem parallelMax_one_to_ten :
    ∃ log, parallelMax 14 4 [1, 2, 3, 4, 5, 6, 7, 8, 9, 10] = .ok ⟨mytype.fin 10, log⟩ := by
  obtain ⟨m, log, hrun, hmem, hle⟩ := parallelMax_spec 14 4 [1, 2, 3, 4, 5, 6, 7, 8, 9, 10]
    (by simp) (by decide) (by decide)
  have h0 : 10 ≤ m := hle 10 (by simp)
  have h1 : m ≤ 10 := by
    simp only [List.mem_cons, List.mem_singleton, List.not_mem_nil, or_false] at hmem
    rcases hmem with h | h | h | h | h | h | h | h | h | h <;> rw [h] <;> norm_num
  rw [le_antisymm h1 h0] at hrun
  exact ⟨log, hrun⟩

/-- The float bin index in the run on `[1, ..., 10]` with 2 bins (`min = 1`,
`bin_width = 5`) of the value `k + 1`, for `k` from 0 to 11. -/
theorem hist_index_one_to_ten (k : Nat) (hk : k ≤ 11) :
    hist_index f32 (some (mytype.fin 5)) (some (mytype.fin 1))
      (some (mytype.fin ((k : ℚ) + 1))) = some ((k / 5 : Nat) : Int) := by
  have hd : f32 ((k : ℚ) + 1 - 1) = mytype.fin ((k : ℚ) + 1 - 1) := by
    have h := f32_int (k : Int) (by rw [abs_lt]; omega)
    have e : (k : ℚ) + 1 - 1 = ((k : Int) : ℚ) := by
      push_cast
      ring
    rw [e]
    exact h
  interval_cases k
  · exact hist_index_int 5 1 _ _ (by norm_num) hd (by norm_num [f32_zero])
  · exact hist_index_margin 5 1 _ _ (by norm_num) hd (by norm_num) (by norm_num)
      (by rw [abs_le]; constructor <;> norm_num)
  · exact hist_index_margin 5 1 _ _ (by norm_num) hd (by norm_num) (by norm_num)
      (by rw [abs_le]; constructor <;> norm_num)
  · exact hist_index_margin 5 1 _ _ (by norm_num) hd (by norm_num) (by norm_num)
      (by rw [abs_le]; constructor <;> norm_num)
  · exact hist_index_margin 5 1 _ _ (by norm_num) hd (by norm_num) (by norm_num)
      (by rw [abs_le]; constructor <;> norm_num)
  · exact hist_index_int 5 1 _ _ (by norm_num) hd (by norm_num [f32_one])
  · exact hist_index_margin 5 1 _ _ (by norm_num) hd (by norm_num) (by norm_num)
      (by rw [abs_le]; constructor <;> norm_num)
  · exact hist_index_margin 5 1 _ _ (by norm_num) hd (by norm_num) (by norm_num)
      (by rw [abs_le]; constructor <;> norm_num)
  · exact hist_index_margin 5 1 _ _ (by norm_num) hd (by norm_num) (by norm_num)
      (by rw [abs_le]; constructor <;> norm_num)
  · exact hist_index_margin 5 1 _ _ (by norm_num) hd (by norm_num) (by norm_num)
      (by rw [abs_le]; constructor <;> norm_num)
  · exact hist_index_int 5 1 _ _ (by norm_num) hd (by norm_num [f32_two])
  · exact hist_index_margin 5 1 _ _ (by norm_num) hd (by norm_num) (by norm_num)
      (by rw [abs_le]; constructor <;> norm_num)

/-- The float run on `A = [1, ..., 10]` with 2 bins and work-group size 4 everywhere:
`min = 1`, `max = 11`, `bin_width = 5`, the padding value 12 has the index 2 and the bin
array is `[5, 5]`. -/
theorem histogram_of_one_to_ten :
    parallelHistogram 14 4 4 4 [1, 2, 3, 4, 5, 6, 7, 8, 9, 10] 2
      = .ok ⟨some (mytype.fin 1), some (mytype.fin 11), some (mytype.fin 5), [5, 5]⟩ := by
  obtain ⟨l1, hmin⟩ := parallelMin_one_to_ten
  obtain ⟨l2, hmax⟩ := parallelMax_one_to_ten
  have hrun := parallelHistogramWith_run f32 14 4 4 4 [1, 2, 3, 4, 5, 6, 7, 8, 9, 10] 2 1 10
    l1 l2 1 11 10 2 5 12 hmin hmax (by decide) (by decide) (by norm_num)
    (by norm_num [f32_eleven]) (by norm_num [f32_ten]) (by norm_num [f32_two]) (by norm_num)
    (by norm_num [f32_five]) (by norm_num [f32_twelve])
  have i1 : hist_index f32 (some (mytype.fin 5)) (some (mytype.fin 1)) (some (mytype.fin 1))
      = some 0 := by simpa using hist_index_one_to_ten 0 (by norm_num)
  have i2 : hist_index f32 (some (mytype.fin 5)) (some (mytype.fin 1)) (some (mytype.fin 2))
      = some 0 := by
    have h := hist_index_one_to_ten 1 (by norm_num)
    norm_num at h
    exact h
  have i3 : hist_index f32 (some (mytype.fin 5)) (some (mytype.fin 1)) (some (mytype.fin 3))
      = some 0 := by
    have h := hist_index_one_to_ten 2 (by norm_num)
    norm_num at h
    exact h
  have i4 : hist_index f32 (some (mytype.fin 5)) (some (mytype.fin 1)) (some (mytype.fin 4))
      = some 0 := by
    have h := hist_index_one_to_ten 3 (by norm_num)
    norm_num at h
    exact h
  have i5 : hist_index f32 (some (mytype.fin 5)) (some (mytype.fin 1)) (some (mytype.fin 5))
      = some 0 := by
    have h := hist_index_one_to_ten 4 (by norm_num)
    norm_num at h
    exact h
  have i6 : hist_index f32 (some (mytype.fin 5)) (some (mytype.fin 1)) (some (mytype.fin 6))
      = some 1 := by
    have h := hist_index_one_to_ten 5 (by norm_num)
    norm_num at h
    exact h
  have i7 : hist_index f32 (some (mytype.fin 5)) (some (mytype.fin 1)) (some (mytype.fin 7))
      = some 1 := by
    have h := hist_index_one_to_ten 6 (by norm_num)
    norm_num at h
    exact h
  have i8 : hist_index f32 (some (mytype.fin 5)) (some (mytype.fin 1)) (some (mytype.fin 8))
      = some 1 := by
    have h := hist_index_one_to_ten 7 (by norm_num)
    norm_num at h
    exact h
  have i9 : hist_index f32 (some (mytype.fin 5)) (some (mytype.fin 1)) (some (mytype.fin 9))
      = some 1 := by
    have h := hist_index_one_to_ten 8 (by norm_num)
    norm_num at h
    exact h
  have i10 : hist_index f32 (some (mytype.fin 5)) (some (mytype.fin 1))
      (some (mytype.fin 10)) = some 1 := by
    have h := hist_index_one_to_ten 9 (by norm_num)
    norm_num at h
    exact h
  have i12 : hist_index f32 (some (mytype.fin 5)) (some (mytype.fin 1))
      (some (mytype.fin 12)) = some 2 := by
    have h := hist_index_one_to_ten 11 (by norm_num)
    norm_num at h
    exact h
  have hvec : (histPadded 4 12 [1, 2, 3, 4, 5, 6, 7, 8, 9, 10]).map
      (fun x => some (mytype.fin x))
      = [some (mytype.fin 1), some (mytype.fin 2), some (mytype.fin 3), some (mytype.fin 4),
          some (mytype.fin 5), some (mytype.fin 6), some (mytype.fin 7), some (mytype.fin 8),
          some (mytype.fin 9), some (mytype.fin 10), some (mytype.fin 12),
          some (mytype.fin 12)] := by
    simp [histPadded]
  unfold parallelHistogram
  rw [hrun, hvec, hist_atomic_cons, hist_atomic_cons, hist_atomic_cons, hist_atomic_cons,
    hist_atomic_cons, hist_atomic_cons, hist_atomic_cons, hist_atomic_cons, hist_atomic_cons,
    hist_atomic_cons, hist_atomic_cons, hist_atomic_cons, hist_atomic_nil,
    hist_item_some _ _ _ _ _ _ 0 i1, hist_item_some _ _ _ _ _ _ 0 i2,
    hist_item_some _ _ _ _ _ _ 0 i3, hist_item_some _ _ _ _ _ _ 0 i4,
    hist_item_some _ _ _ _ _ _ 0 i5, hist_item_some _ _ _ _ _ _ 1 i6,
    hist_item_some _ _ _ _ _ _ 1 i7, hist_item_some _ _ _ _ _ _ 1 i8,
    hist_item_some _ _ _ _ _ _ 1 i9, hist_item_some _ _ _ _ _ _ 1 i10,
    hist_item_some _ _ _ _ _ _ 2 i12, hist_item_some _ _ _ _ _ _ 2 i12]
  rfl

/-- In float `1 / 3` is `11184811 / 2^25`, above the exact quotient. -/
theorem f32_third : f32 (1 / 3) = mytype.fin (11184811 / 33554432) := by
  have h := f32_eq (1 / 3) (-2) 11184811 (by norm_num [abs_of_pos])
    (by norm_num [abs_of_pos]) (by norm_num)
    (by norm_num [roundEven, Int.floor_eq_iff])
    (by rw [abs_of_pos (by norm_num)]; norm_num)
  rw [h]
  norm_num

/-- In float `1 / (11184811 / 2^25)` is 3, above the exact quotient `2.99999997...`. -/
theorem f32_33554432_div_11184811 : f32 (33554432 / 11184811) = mytype.fin 3 := by
  have h := f32_eq (33554432 / 11184811) 1 12582912 (by norm_num [abs_of_pos])
    (by norm_num [abs_of_pos]) (by norm_num)
    (by norm_num [roundEven, Int.floor_eq_iff])
    (by rw [abs_of_pos (by norm_num)]; norm_num)
  rw [h]
  norm_num

set_option maxRecDepth 100000 in
theorem parallelMin_zero_one : parallelMin 4 2 [0, 1] = .ok ⟨mytype.fin 0, [2, 2]⟩ := by
  norm_num [parallelMin, reduceDriver, shrinkLoop, finalPass, dispatch, blocks, fillNe,
    fillLoop, reduce_min, fmin, mytype.le]

set_option maxRecDepth 100000 in
theorem parallelMax_zero_one : parallelMax 4 2 [0, 1] = .ok ⟨mytype.fin 1, [2, 2]⟩ := by
  norm_num [parallelMax, reduceDriver, shrinkLoop, finalPass, dispatch, blocks, fillNe,
    fillLoop, reduce_max, fmax, mytype.le]

/-- The float run on `A = [0, 1]` with 6 bins and work-group size 2 everywhere: `min = 0`,
`max = 2`, `bin_width = float(1 / 3) = 11184811 / 2^25`, and the sample 1 gets the index
`floor(float(1 / bin_width)) = 3`: the bin array is `[1, 0, 0, 1, 0, 0]`. -/
theorem histogram_of_zero_and_one :
    parallelHistogram 4 2 2 2 [0, 1] 6
      = .ok ⟨some (mytype.fin 0), some (mytype.fin 2),
          some (mytype.fin (11184811 / 33554432)), [1, 0, 0, 1, 0, 0]⟩ := by
  have hrun := parallelHistogramWith_run f32 4 2 2 2 [0, 1] 6 0 1 [2, 2] [2, 2]
    0 2 2 6 (11184811 / 33554432) 3 parallelMin_zero_one parallelMax_zero_one
    (by decide) (by decide) (by norm_num) (by norm_num [f32_two]) (by norm_num [f32_two])
    (by norm_num [f32_six]) (by norm_num) (by norm_num [f32_third])
    (by norm_num [f32_three])
  have i0 : hist_index f32 (some (mytype.fin (11184811 / 33554432))) (some (mytype.fin 0))
      (some (mytype.fin 0)) = some 0 := by
    have h := hist_index_run f32 (11184811 / 33554432) 0 0 0 0 (by norm_num)
      (by norm_num [f32_zero]) (by norm_num [f32_zero])
    simpa using h
  have i1 : hist_index f32 (some (mytype.fin (11184811 / 33554432))) (some (mytype.fin 0))
      (some (mytype.fin 1)) = some 3 := by
    have h := hist_index_run f32 (11184811 / 33554432) 0 1 1 3 (by norm_num)
      (by norm_num [f32_one]) (by norm_num [f32_33554432_div_11184811])
    simpa using h
  have hvec : (histPadded 2 3 [0, 1]).map (fun x => some (mytype.fin x))
      = [some (mytype.fin 0), some (mytype.fin 1)] := by
    simp [histPadded]
  unfold parallelHistogram
  rw [hrun, hvec, hist_atomic_cons, hist_atomic_cons, hist_atomic_nil,
    hist_item_some _ _ _ _ _ _ 0 i0, hist_item_some _ _ _ _ _ _ 3 i1]
  rfl

/-! ## The bin counts in float -/

/-- C4, in 32-bit float for samples of magnitude at most `2^19` and fewer than `2^24` bins:
for a non-empty sample sequence, a bin count `B` of at least 1, a histogram work-group size
of at least 1 and every run in which the two reductions end, `parallelHistogram` returns
`min = floor(parallelMin(A))`, `max = ceil(parallelMax(A)) + 1`,
`bin_width = float((max - min) / B)` and a bin array of length `B`; every sample has a float
bin index in `[0, B)`, entry `i` is the number of samples of `A` whose index is `i`, and the
counts sum to `|A|`, so no padding element is counted. -/
theorem parallelHistogram_counts (fuel Wmin Wmax W : Nat) (A : List ℚ) (B : Int)
    (hA : A ≠ []) (hB : 1 ≤ B) (hB2 : B < 2 ^ 24) (hW : 1 ≤ W)
    (hWmin : 2 ≤ Wmin ∨ (Wmin = 1 ∧ A.length = 1))
    (hWmax : 2 ≤ Wmax ∨ (Wmax = 1 ∧ A.length = 1))
    (hfmin : A.length + Wmin ≤ fuel) (hfmax : A.length + Wmax ≤ fuel)
    (hsize : ∀ x ∈ A, |x| ≤ 2 ^ 19) :
    ∃ lo hi l1 l2 bw H,
      parallelMin fuel Wmin A = .ok ⟨mytype.fin lo, l1⟩ ∧
      parallelMax fuel Wmax A = .ok ⟨mytype.fin hi, l2⟩ ∧
      f32 (((⌈hi⌉ : ℚ) + 1 - ⌊lo⌋) / B) = mytype.fin bw ∧
      parallelHistogram fuel Wmin Wmax W A B
        = .ok ⟨some (mytype.fin ⌊lo⌋), some (mytype.fin ((⌈hi⌉ : ℚ) + 1)),
            some (mytype.fin bw), H⟩ ∧
      H.length = B.toNat ∧
      (∀ x ∈ A, ∃ idx, hist_index f32 (some (mytype.fin bw)) (some (mytype.fin ⌊lo⌋))
          (some (mytype.fin x)) = some idx ∧ 0 ≤ idx ∧ idx < B) ∧
      (∀ i : Nat, i < B.toNat → H[i]? = some (A.countP (fun x =>
          decide (hist_index f32 (some (mytype.fin bw)) (some (mytype.fin ⌊lo⌋))
            (some (mytype.fin x)) = some (i : Int))))) ∧
      H.sum = A.length := by
  obtain ⟨lo, l1, h1, hlomem, hlo⟩ := parallelMin_ends fuel Wmin A hA hWmin hfmin
  obtain ⟨hi, l2, h2, himem, hhi⟩ := parallelMax_ends fuel Wmax A hA hWmax hfmax
  obtain ⟨bw, H, h⟩ := parallelHistogram_float fuel Wmin Wmax W A B lo hi l1 l2 hB hB2 hW
    h1 h2 hlomem himem hlo hhi hsize
  exact ⟨lo, hi, l1, l2, bw, H, h1, h2, h⟩

theorem parallelHistogram_counts_witness :
    (∃ lo hi l1 l2 bw H,
      parallelMin 14 4 [1, 2, 3, 4, 5, 6, 7, 8, 9, 10] = .ok ⟨mytype.fin lo, l1⟩ ∧
      parallelMax 14 4 [1, 2, 3, 4, 5, 6, 7, 8, 9, 10] = .ok ⟨mytype.fin hi, l2⟩ ∧
      f32 (((⌈hi⌉ : ℚ) + 1 - ⌊lo⌋) / ((2 : Int) : ℚ)) = mytype.fin bw ∧
      parallelHistogram 14 4 4 4 [1, 2, 3, 4, 5, 6, 7, 8, 9, 10] 2
        = .ok ⟨some (mytype.fin ⌊lo⌋), some (mytype.fin ((⌈hi⌉ : ℚ) + 1)),
            some (mytype.fin bw), H⟩ ∧
      H.length = (2 : Int).toNat ∧
      (∀ x ∈ ([1, 2, 3, 4, 5, 6, 7, 8, 9, 10] : List ℚ), ∃ idx,
          hist_index f32 (some (mytype.fin bw)) (some (mytype.fin ⌊lo⌋))
            (some (mytype.fin x)) = some idx ∧ 0 ≤ idx ∧ idx < 2) ∧
      (∀ i : Nat, i < (2 : Int).toNat → H[i]?
          = some (([1, 2, 3, 4, 5, 6, 7, 8, 9, 10] : List ℚ).countP (fun x =>
            decide (hist_index f32 (some (mytype.fin bw)) (some (mytype.fin ⌊lo⌋))
              (some (mytype.fin x)) = some (i : Int))))) ∧
      H.sum = ([1, 2, 3, 4, 5, 6, 7, 8, 9, 10] : List ℚ).length) ∧
    parallelHistogram 14 4 4 4 [1, 2, 3, 4, 5, 6, 7, 8, 9, 10] 2
      = .ok ⟨some (mytype.fin 1), some (mytype.fin 11), some (mytype.fin 5), [5, 5]⟩ :=
  ⟨parallelHistogram_counts 14 4 4 4 [1, 2, 3, 4, 5, 6, 7, 8, 9, 10] 2 (by simp) (by decide)
      (by decide) (by decide) (Or.inl (by decide)) (Or.inl (by decide)) (by decide)
      (by decide)
      (by
        intro x hx
        simp only [List.mem_cons, List.mem_singleton, List.not_mem_nil, or_false] at hx
        rcases hx with h | h | h | h | h | h | h | h | h | h <;> rw [h] <;> norm_num),
    histogram_of_one_to_ten⟩

/-- C4 fails at `A = [0, 1]` with 6 bins, and at `A = [0, 118860456]` with 7 bins and
work-group size 4.  In the first run `min = 0` and `bin_width = float(1 / 3)` is above `1/3`;
the sample 1 is counted in bin 3, while it lies below `min + 3 * bin_width`, in
`[min + 2 * bin_width, min + 3 * bin_width)`: entry 3 is 1 where no sample lies in
`[min + 3 * bin_width, min + 4 * bin_width)`.  In the second run `min = 0`,
`bin_width = 16980066` and entry 6 is 3, while one sample of `A` lies in
`[min + 6 * bin_width, min + 7 * bin_width)`: the float `max + 1` equals `max`, which is
the largest sample, so the two padding elements are counted with it. -/
theorem counts_differ_from_intervals :
    (∃ h, parallelHistogram 4 2 2 2 [0, 1] 6 = .ok h ∧
      h.min = some (mytype.fin 0) ∧ h.bin_width = some (mytype.fin (11184811 / 33554432)) ∧
      h.H = [1, 0, 0, 1, 0, 0] ∧
      ([0, 1] : List ℚ).countP (fun x => decide (0 + 3 * (11184811 / 33554432) ≤ x
        ∧ x < 0 + (3 + 1) * (11184811 / 33554432))) = 0 ∧
      ([0, 1] : List ℚ).countP (fun x => decide (0 + 2 * (11184811 / 33554432) ≤ x
        ∧ x < 0 + (2 + 1) * (11184811 / 33554432))) = 1) ∧
    (∃ h, parallelHistogram 6 4 4 4 [0, 118860456] 7 = .ok h ∧
      h.min = some (mytype.fin 0) ∧ h.bin_width = some (mytype.fin 16980066) ∧
      h.H.length = 7 ∧ h.H[6]? = some 3 ∧
      ([0, 118860456] : List ℚ).countP
        (fun x => decide (0 + 6 * 16980066 ≤ x ∧ x < 0 + (6 + 1) * 16980066)) = 1) := by
  refine ⟨⟨_, histogram_of_zero_and_one, rfl, rfl, rfl, ?_, ?_⟩,
    ⟨_, histogram_of_zero_and_118860456, rfl, rfl, rfl, rfl, ?_⟩⟩
  · norm_num [List.countP_cons]
  · norm_num [List.countP_cons]
  · norm_num [List.countP_cons]

/-! ## The absorbed `+ 1` -/

/-- C5 fails at `A = [0, 2^25]` with 2 bins and work-group size 2: the float
`ceil(max) + 1` equals `max = 2^25`, `bin_width` is `2^24`, the largest sample gets the bin
index 2, which is not in `[0, 2)`, and the bin counts `[1, 0]` sum to 1 where `|A|` is 2. -/
theorem largest_sample_not_counted :
    ∃ h, parallelHistogram 4 2 2 2 [0, 33554432] 2 = .ok h ∧
      h.max = some (mytype.fin 33554432) ∧
      hist_index f32 h.bin_width h.min (some (mytype.fin 33554432)) = some 2 ∧
      h.H = [1, 0] ∧ h.H.sum = 1 ∧ ([0, 33554432] : List ℚ).length = 2 :=
  ⟨_, histogram_of_zero_and_2p25.1, rfl, histogram_of_zero_and_2p25.2, rfl, rfl, rfl⟩

/-- C12 fails at `A = [0, 118860456]` with 7 bins and work-group size 4: the padding value
`max + 1` the host computes is `max = 118860456` itself, the bin array is the kernel's result
on `A` followed by `4 - 2` copies of that value, its bin index is 6, inside `[0, 7)`, and
bin 6 ends with 3 counts, 2 of them for the padding. -/
theorem padding_value_inside_bins :
    ∃ h, parallelHistogram 6 4 4 4 [0, 118860456] 7 = .ok h ∧
      h.max = some (mytype.fin 118860456) ∧
      fadd f32 h.max (some (mytype.fin 1)) = some (mytype.fin 118860456) ∧
      h.H = hist_atomic f32 7 h.bin_width h.min
        ([some (mytype.fin 0), some (mytype.fin 118860456)]
          ++ List.replicate (4 - 2 % 4) (fadd f32 h.max (some (mytype.fin 1))))
        (List.replicate 7 0) ∧
      hist_index f32 h.bin_width h.min (fadd f32 h.max (some (mytype.fin 1))) = some 6 ∧
      h.H = [1, 0, 0, 0, 0, 0, 3] := by
  refine ⟨_, histogram_of_zero_and_118860456, rfl, fadd_118860456_one, ?_, ?_, rfl⟩
  · show [1, 0, 0, 0, 0, 0, 3] = hist_atomic f32 7 (some (mytype.fin 16980066))
      (some (mytype.fin 0)) ([some (mytype.fin 0), some (mytype.fin 118860456)]
        ++ List.replicate (4 - 2 % 4)
          (fadd f32 (some (mytype.fin 118860456)) (some (mytype.fin 1)))) (List.replicate 7 0)
    rw [fadd_118860456_one]
    exact hist_atomic_118860456.symm
  · show hist_index f32 (some (mytype.fin 16980066)) (some (mytype.fin 0))
      (fadd f32 (some (mytype.fin 118860456)) (some (mytype.fin 1))) = some 6
    rw [fadd_118860456_one]
    exact hist_index_118860456_max

/-! ## The true maximum in float -/

/-- C6, for samples of magnitude at most `2^19` and fewer than `2^24` bins, where
`ceil(max) + 1` is computed without rounding: for a non-empty sample sequence, a bin count
`B` of at least 1 and every run in which the two reductions end, `parallelHistogram` returns
and the float bin index of the true maximum `hi` lies in `[0, B - 1]`, never above
`B - 1`. -/
theorem true_maximum_bin (fuel Wmin Wmax W : Nat) (A : List ℚ) (B : Int)
    (hA : A ≠ []) (hB : 1 ≤ B) (hB2 : B < 2 ^ 24) (hW : 1 ≤ W)
    (hWmin : 2 ≤ Wmin ∨ (Wmin = 1 ∧ A.length = 1))
    (hWmax : 2 ≤ Wmax ∨ (Wmax = 1 ∧ A.length = 1))
    (hfmin : A.length + Wmin ≤ fuel) (hfmax : A.length + Wmax ≤ fuel)
    (hsize : ∀ x ∈ A, |x| ≤ 2 ^ 19) :
    ∃ hi l2 mn mx bw H idx, parallelMax fuel Wmax A = .ok ⟨mytype.fin hi, l2⟩ ∧
      hi ∈ A ∧ (∀ x ∈ A, x ≤ hi) ∧
      parallelHistogram fuel Wmin Wmax W A B
        = .ok ⟨some (mytype.fin mn), some (mytype.fin mx), some (mytype.fin bw), H⟩ ∧
      hist_index f32 (some (mytype.fin bw)) (some (mytype.fin mn)) (some (mytype.fin hi))
        = some idx ∧
      0 ≤ idx ∧ idx ≤ B - 1 := by
  obtain ⟨lo, l1, h1, hlomem, hlo⟩ := parallelMin_ends fuel Wmin A hA hWmin hfmin
  obtain ⟨hi, l2, h2, himem, hhi⟩ := parallelMax_ends fuel Wmax A hA hWmax hfmax
  have hlohi : lo ≤ hi := hlo hi himem
  have hlo1 := abs_le.1 (hsize lo hlomem)
  have hhi1 := abs_le.1 (hsize hi himem)
  have hfl1 : (⌊lo⌋ : ℚ) ≤ lo := Int.floor_le lo
  have hce1 : hi ≤ (⌈hi⌉ : ℚ) := Int.le_ceil hi
  have hfl2 : -(2 ^ 19) ≤ ⌊lo⌋ := Int.le_floor.2 (by push_cast; exact hlo1.1)
  have hce2 : ⌈hi⌉ ≤ 2 ^ 19 := Int.ceil_le.2 (by push_cast; exact hhi1.2)
  have hflce : ⌊lo⌋ ≤ ⌈hi⌉ := by
    have : (⌊lo⌋ : ℚ) ≤ (⌈hi⌉ : ℚ) := by linarith
    exact_mod_cast this
  obtain ⟨bw, d, q, hbw, hbwpos, hd, hq, hq0, hqB⟩ := float_index_inside ⌊lo⌋ (⌈hi⌉ + 1) B hi
    hB hB2 (by linarith) (by push_cast; linarith) (by omega)
  push_cast at hbw
  have hmx : f32 ((⌈hi⌉ : ℚ) + 1) = mytype.fin ((⌈hi⌉ : ℚ) + 1) := by
    have h := f32_int (⌈hi⌉ + 1) (by rw [abs_lt]; omega)
    push_cast at h
    exact h
  have hrg : f32 ((⌈hi⌉ : ℚ) + 1 - ⌊lo⌋) = mytype.fin ((⌈hi⌉ : ℚ) + 1 - ⌊lo⌋) := by
    have h := f32_int (⌈hi⌉ + 1 - ⌊lo⌋) (by rw [abs_lt]; omega)
    push_cast at h
    exact h
  have hb : f32 (B : ℚ) = mytype.fin (B : ℚ) := f32_int B (by rw [abs_lt]; omega)
  have hb0 : (B : ℚ) ≠ 0 := by
    have : (1 : ℚ) ≤ B := by exact_mod_cast hB
    linarith
  have hpad : f32 ((⌈hi⌉ : ℚ) + 1 + 1) = mytype.fin ((⌈hi⌉ : ℚ) + 1 + 1) := by
    have h := f32_int (⌈hi⌉ + 1 + 1) (by rw [abs_lt]; omega)
    push_cast at h
    exact h
  have hrun := parallelHistogramWith_run f32 fuel Wmin Wmax W A B lo hi l1 l2 ⌊lo⌋
    ((⌈hi⌉ : ℚ) + 1) ((⌈hi⌉ : ℚ) + 1 - ⌊lo⌋) B bw ((⌈hi⌉ : ℚ) + 1 + 1) h1 h2 (by omega) hW
    rfl hmx hrg hb hb0 hbw hpad
  exact ⟨hi, l2, _, _, _, _, _, h2, himem, hhi, hrun,
    hist_index_run f32 bw ⌊lo⌋ hi d q hbwpos.ne' hd hq, hq0, Int.le_sub_one_of_lt hqB⟩

theorem true_maximum_bin_witness :
    (∃ hi l2 mn mx bw H idx, parallelMax 7 2 [1, 2, 3, 4, 5] = .ok ⟨mytype.fin hi, l2⟩ ∧
      hi ∈ ([1, 2, 3, 4, 5] : List ℚ) ∧ (∀ x ∈ ([1, 2, 3, 4, 5] : List ℚ), x ≤ hi) ∧
      parallelHistogram 7 2 2 4 [1, 2, 3, 4, 5] 3
        = .ok ⟨some (mytype.fin mn), some (mytype.fin mx), some (mytype.fin bw), H⟩ ∧
      hist_index f32 (some (mytype.fin bw)) (some (mytype.fin mn)) (some (mytype.fin hi))
        = some idx ∧
      0 ≤ idx ∧ idx ≤ 3 - 1) ∧
    (∃ hi l2 mn mx bw H idx, parallelMax 2 1 [7] = .ok ⟨mytype.fin hi, l2⟩ ∧
      hi ∈ ([7] : List ℚ) ∧ (∀ x ∈ ([7] : List ℚ), x ≤ hi) ∧
      parallelHistogram 2 1 1 4 [7] 2
        = .ok ⟨some (mytype.fin mn), some (mytype.fin mx), some (mytype.fin bw), H⟩ ∧
      hist_index f32 (some (mytype.fin bw)) (some (mytype.fin mn)) (some (mytype.fin hi))
        = some idx ∧
      0 ≤ idx ∧ idx ≤ 2 - 1) :=
  ⟨true_maximum_bin 7 2 2 4 [1, 2, 3, 4, 5] 3 (by simp) (by decide) (by decide) (by decide)
      (Or.inl (by decide)) (Or.inl (by decide)) (by decide) (by decide)
      (by
        intro x hx
        simp only [List.mem_cons, List.mem_singleton, List.not_mem_nil, or_false] at hx
        rcases hx with h | h | h | h | h <;> rw [h] <;> norm_num),
    true_maximum_bin 2 1 1 4 [7] 2 (by simp) (by decide) (by decide) (by decide)
      (Or.inr ⟨rfl, rfl⟩) (Or.inr ⟨rfl, rfl⟩) (by decide) (by decide)
      (by
        intro x hx
        rw [List.mem_singleton] at hx
        rw [hx]
        norm_num)⟩

/-- C6 fails at `A = [7]` with 2 bins: the run derives `min = 7`, `max = 8` and
`bin_width = 1/2`, and the true maximum 7 has the bin index 0, not `2 - 1`. -/
theorem true_maximum_not_in_last_bin :
    ∃ h idx, parallelHistogram 3 2 2 2 [7] 2 = .ok h ∧
      h.min = some (mytype.fin 7) ∧ h.max = some (mytype.fin 8) ∧
      h.bin_width = some (mytype.fin (1 / 2)) ∧
      hist_index f32 h.bin_width h.min (some (mytype.fin 7)) = some idx ∧
      idx ≠ 2 - 1 :=
  ⟨_, 0, histogram_of_seven.1, rfl, rfl, rfl, histogram_of_seven.2, by decide⟩

/-! ## All-equal input in float -/

end ParallelPatterns
